import Mathlib

/-!
# CPU scheduler simulation: FCFS, Round-Robin and SRTF

A shallow embedding of `scheduler.c`.  The task array `tasks[0..n-1]` is a
`List Task` whose length is the count `n` handed to the policy; every `printf`
of a policy becomes an `Event` appended to a timeline, in the order the calls
are made.

The `int` variables of the source are integers (`Int`).  The three policies are
first embedded with exact sums, which is what the code computes as long as no
sum passes `INT_MAX`; `simulate_fcfs` and `simulate_srtf` are then embedded a
second time with every sum reduced to the 32-bit range (`simulate_fcfs_int`,
`simulate_srtf_int`), for the properties that depend on the size of the clock.
The `double` arithmetic and the `%.2f` of `print_statistics` are rounded as
IEEE 754 binary64 and `printf` round.
-/

namespace Scheduler

/-- The record `Task` of `scheduler.h`, field by field. -/
structure Task where
  pid : Int
  arrival_time : Int
  burst_time : Int
  remaining_time : Int
  start_time : Int
  finish_time : Int
  waiting_time : Int
  response_time : Int
  turnaround_time : Int
deriving DecidableEq, Repr

/-- One line printed by a policy: `<time t> idle`, `<time t> process p is running`,
`<time t> process p (is) finished...`, `<time t> All processes finished...`. -/
inductive Event where
  | idle (time : Int)
  | running (time : Int) (pid : Int)
  | finished (time : Int) (pid : Int)
  | all_finished (time : Int)
deriving DecidableEq, Repr

/-- The body of the `while (fscanf(...) == 3)` loop of `read_tasks` for one parsed
line `pid arrival_time burst_time`. -/
def load_task (row : Int × Int × Int) : Task :=
  { pid := row.1, arrival_time := row.2.1, burst_time := row.2.2,
    remaining_time := row.2.2, start_time := -1, finish_time := 0,
    waiting_time := 0, response_time := 0, turnaround_time := 0 }

/-- The loop of `read_tasks`: `i` tasks are already stored; each further parsed line is
stored, and the loop breaks once `i >= max_tasks` after the increment. -/
def read_loop (max_tasks : Int) : List (Int × Int × Int) → Int → List Task
  | [], _ => []
  | row :: rows, i =>
    load_task row :: (if i + 1 ≥ max_tasks then [] else read_loop max_tasks rows (i + 1))

/-- The function `read_tasks`, on the lines of the file already split into integer triples. -/
def read_tasks (rows : List (Int × Int × Int)) (max_tasks : Int) : List Task :=
  read_loop max_tasks rows 0

/-- Result of a policy run: the mutated registry, the final clock and the timeline. -/
structure Run where
  tasks : List Task
  time : Int
  events : List Event
deriving DecidableEq, Repr

/-! ## FCFS -/

/-- The inner loop `while (tasks[i].remaining_time > 0)` of `simulate_fcfs`, unrolled at most
`fuel` times: returns the remaining time, the clock and the running events printed. -/
def fcfs_burst (pid : Int) : Nat → Int → Int → Int × Int × List Event
  | 0, rem, time => (rem, time, [])
  | fuel + 1, rem, time =>
    if rem > 0 then
      let r := fcfs_burst pid fuel (rem - 1) (time + 1)
      (r.1, r.2.1, Event.running time pid :: r.2.2)
    else (rem, time, [])

/-- One iteration of the `for` loop of `simulate_fcfs` on task `t` with the clock at `time`:
the updated task, the new clock and the events printed. -/
def fcfs_task (time : Int) (t : Task) : Task × Int × List Event :=
  let idleEv : List Event := if time < t.arrival_time then [Event.idle time] else []
  let time1 : Int := if time < t.arrival_time then t.arrival_time else time
  let r := fcfs_burst t.pid t.remaining_time.toNat t.remaining_time time1
  let fin : Int := r.2.1
  let ta : Int := fin - t.arrival_time
  ({ t with
      start_time := time1, remaining_time := r.1, finish_time := fin,
      turnaround_time := ta, waiting_time := ta - t.burst_time,
      response_time := time1 - t.arrival_time },
   fin, idleEv ++ r.2.2 ++ [Event.finished fin t.pid])

/-- The `for (int i = 0; i < n; i++)` loop of `simulate_fcfs` over the registry. -/
def fcfs_loop : Int → List Task → Run
  | time, [] => { tasks := [], time := time, events := [] }
  | time, t :: ts =>
    let r := fcfs_task time t
    let rest := fcfs_loop r.2.1 ts
    { tasks := r.1 :: rest.tasks, time := rest.time, events := r.2.2 ++ rest.events }

/-- The function `simulate_fcfs`. -/
def simulate_fcfs (tasks : List Task) : Run :=
  let r := fcfs_loop 0 tasks
  { r with events := r.events ++ [Event.all_finished r.time] }

/-! ## SRTF -/

/-- Loop state of `simulate_srtf`: the registry and the locals `time` and `completed`,
with the timeline printed so far. -/
structure SrtfState where
  tasks : List Task
  time : Int
  completed : Int
  events : List Event
deriving DecidableEq, Repr

/-- The selection scan `for (int i = 0; i < n; i++)` of `simulate_srtf`.  The pointer
`current_task` is carried as the index it points to together with the record read through
it (the scan writes nothing); `i` is the index of the head of the remaining list. -/
def srtf_scan (time : Int) : List Task → Nat → Option (Nat × Task) → Option (Nat × Task)
  | [], _, cur => cur
  | t :: ts, i, cur =>
    srtf_scan time ts (i + 1)
      (if t.remaining_time > 0 ∧ t.arrival_time ≤ time then
        match cur with
        | none => some (i, t)
        | some c => if t.remaining_time < c.2.remaining_time then some (i, t) else some c
      else cur)

/-- One iteration of the `while (completed < n)` loop of `simulate_srtf`. -/
def srtf_tick (s : SrtfState) : SrtfState :=
  match srtf_scan s.time s.tasks 0 none with
  | some (i, t) =>
    let st : Int := if t.start_time = -1 then s.time else t.start_time
    let rem : Int := t.remaining_time - 1
    if rem = 0 then
      let fin : Int := s.time + 1
      let ta : Int := fin - t.arrival_time
      { tasks := s.tasks.set i
          { t with
            start_time := st, remaining_time := rem, finish_time := fin,
            turnaround_time := ta, waiting_time := ta - t.burst_time,
            response_time := st - t.arrival_time },
        time := s.time + 1,
        completed := s.completed + 1,
        events := s.events ++ [Event.running s.time t.pid, Event.finished (s.time + 1) t.pid] }
    else
      { tasks := s.tasks.set i { t with start_time := st, remaining_time := rem },
        time := s.time + 1,
        completed := s.completed,
        events := s.events ++ [Event.running s.time t.pid] }
  | none =>
    { s with time := s.time + 1, events := s.events ++ [Event.idle s.time] }

/-- The state after at most `k` iterations of `while (completed < n)`; the state no longer
changes once the loop condition is false. -/
def srtf_iter : Nat → SrtfState → SrtfState
  | 0, s => s
  | k + 1, s => if s.completed < s.tasks.length then srtf_iter k (srtf_tick s) else s

/-- The locals of `simulate_srtf` on entry. -/
def srtf_init (tasks : List Task) : SrtfState :=
  { tasks := tasks, time := 0, completed := 0, events := [] }

/-- The function `simulate_srtf`, with the loop bounded by `fuel` iterations: `none` when the
loop is still running after `fuel` iterations. -/
def simulate_srtf (fuel : Nat) (tasks : List Task) : Option Run :=
  let s := srtf_iter fuel (srtf_init tasks)
  if s.completed < s.tasks.length then none
  else some { tasks := s.tasks, time := s.time,
              events := s.events ++ [Event.all_finished s.time] }

/-- A number of iterations that suffices for `simulate_srtf`: the largest arrival time plus
the total work. -/
def srtf_fuel (tasks : List Task) : Nat :=
  (tasks.map fun t => t.arrival_time.toNat).foldr max 0
    + (tasks.map fun t => t.remaining_time.toNat).sum

/-! ## Round-Robin

`simulate_rr` owns two 100-slot arrays.  An access outside an array, a read of a slot of
`queue` that was never written, and a use of a task index outside `0..n-1` have no meaning in
the embedding: the step that performs one yields `none`.  The idle scan of the source starts at
`i = ~0`, that is `-1`, so its first iteration tests `tasks[-1].arrival_time == time &&
!in_queue[-1]` on cells below both arrays; the outcome of that test is the parameter `below`,
a function of the clock value at which the scan runs (the clock differs from scan to scan).
When the test succeeds the source stores `-1` in `queue` and writes `in_queue[-1]`, which is
again `none` here. -/

/-- Loop state of `simulate_rr`: the registry, the locals `time`, `tasks_left`, `front`,
`rear`, the arrays `queue` (a slot is `none` until it is written) and `in_queue`, and the
timeline printed so far. -/
structure RRState where
  tasks : List Task
  time : Int
  tasks_left : Int
  queue : List (Option Nat)
  front : Nat
  rear : Nat
  in_queue : List Bool
  events : List Event
deriving DecidableEq, Repr

/-- The statements `queue[rear++] = i; in_queue[i] = 1;` of the initial and the idle scan
(no reduction of `rear` modulo 100). -/
def rr_admit_plain (s : RRState) (i : Nat) : Option RRState :=
  if s.rear < s.queue.length ∧ i < s.in_queue.length then
    some { s with queue := s.queue.set s.rear (some i), rear := s.rear + 1,
                  in_queue := s.in_queue.set i true }
  else none

/-- The statements `queue[rear++] = j; rear %= 100; in_queue[j] = 1;` of the scan that
follows a slice. -/
def rr_admit_wrap (s : RRState) (j : Nat) : Option RRState :=
  if s.rear < s.queue.length ∧ j < s.in_queue.length then
    some { s with queue := s.queue.set s.rear (some j), rear := (s.rear + 1) % 100,
                  in_queue := s.in_queue.set j true }
  else none

/-- The statements `queue[rear++] = i; rear %= 100;` that return the task just run to the
queue. -/
def rr_requeue (s : RRState) (i : Nat) : Option RRState :=
  if s.rear < s.queue.length then
    some { s with queue := s.queue.set s.rear (some i), rear := (s.rear + 1) % 100 }
  else none

/-- The initial scan `for (int i = 0; i < n; i++) if (tasks[i].arrival_time == 0) ...`,
over the indices still to visit. -/
def rr_scan_initial : List Nat → RRState → Option RRState
  | [], s => some s
  | i :: is, s =>
    match s.tasks[i]? with
    | none => none
    | some t =>
      if t.arrival_time = 0 then (rr_admit_plain s i).bind (rr_scan_initial is)
      else rr_scan_initial is s

/-- The iterations `i = 0 .. n-1` of the idle scan
`if (tasks[i].arrival_time == time && !in_queue[i]) ...`, over the indices still to visit. -/
def rr_scan_idle : List Nat → RRState → Option RRState
  | [], s => some s
  | i :: is, s =>
    match s.tasks[i]? with
    | none => none
    | some t =>
      if t.arrival_time = s.time then
        match s.in_queue[i]? with
        | none => none
        | some flag =>
          if flag then rr_scan_idle is s else (rr_admit_plain s i).bind (rr_scan_idle is)
      else rr_scan_idle is s

/-- The scan after a slice
`if (tasks[j].arrival_time <= time && !in_queue[j] && tasks[j].remaining_time > 0) ...`,
over the indices still to visit. -/
def rr_scan_arrivals : List Nat → RRState → Option RRState
  | [], s => some s
  | j :: js, s =>
    match s.tasks[j]? with
    | none => none
    | some t =>
      if t.arrival_time ≤ s.time then
        match s.in_queue[j]? with
        | none => none
        | some flag =>
          if flag then rr_scan_arrivals js s
          else if t.remaining_time > 0 then (rr_admit_wrap s j).bind (rr_scan_arrivals js)
          else rr_scan_arrivals js s
      else rr_scan_arrivals js s

/-- The events printed by `for (int t = 0; t < runtime; t++)`: one running event per tick. -/
def rr_slice_events (pid : Int) : Nat → Int → List Event
  | 0, _ => []
  | k + 1, time => Event.running time pid :: rr_slice_events pid k (time + 1)

/-- The idle branch of the loop body: print idle, advance the clock, scan for arrivals
starting at index `-1`. -/
def rr_idle (below : Int → Bool) (s : RRState) : Option RRState :=
  let s1 : RRState := { s with events := s.events ++ [Event.idle s.time], time := s.time + 1 }
  if below s1.time then none
  else rr_scan_idle (List.range s1.tasks.length) s1

/-- The length of the slice of a task: the expression
`(tasks[i].remaining_time > time_quantum) ? time_quantum : tasks[i].remaining_time`. -/
def rr_runtime (time_quantum : Int) (t : Task) : Int :=
  if t.remaining_time > time_quantum then time_quantum else t.remaining_time

/-- The record of task `i` after `if (start_time == -1) start_time = time;` and
`remaining_time -= runtime;`, where `time` is the clock before the slice. -/
def rr_after_slice (time_quantum : Int) (time : Int) (t : Task) : Task :=
  { t with start_time := if t.start_time = -1 then time else t.start_time,
           remaining_time := t.remaining_time - rr_runtime time_quantum t }

/-- The record of task `i` after the four assignments that record its completion, where
`time` is the clock after the slice. -/
def rr_record_finish (time : Int) (t1 : Task) : Task :=
  { t1 with finish_time := time, turnaround_time := time - t1.arrival_time,
            waiting_time := time - t1.arrival_time - t1.burst_time,
            response_time := t1.start_time - t1.arrival_time }

/-- The state after `i = queue[front++]; front %= 100;`, the slice of task `i` (record `t`)
and `remaining_time -= runtime`: the `for` loop of the slice runs `runtime` times when
`runtime` is positive and not at all otherwise. -/
def rr_after_run (time_quantum : Int) (s : RRState) (i : Nat) (t : Task) : RRState :=
  { s with front := (s.front + 1) % 100,
           time := s.time + ((rr_runtime time_quantum t).toNat : Int),
           tasks := s.tasks.set i (rr_after_slice time_quantum s.time t),
           events := s.events
             ++ rr_slice_events t.pid (rr_runtime time_quantum t).toNat s.time }

/-- The end of the loop body: record the completion of task `i` when its `remaining_time`
is 0, otherwise return it to the queue. -/
def rr_finish_or_requeue (s2 : RRState) (i : Nat) (t1 : Task) : Option RRState :=
  if t1.remaining_time = 0 then
    some { s2 with
      tasks := s2.tasks.set i (rr_record_finish s2.time t1),
      tasks_left := s2.tasks_left - 1,
      events := s2.events ++ [Event.finished s2.time t1.pid] }
  else rr_requeue s2 i

/-- The branch of the loop body that dequeues the head of the queue and runs it. -/
def rr_slice (time_quantum : Int) (s : RRState) : Option RRState :=
  match s.queue[s.front]? with
  | none => none
  | some none => none
  | some (some i) =>
    match s.tasks[i]? with
    | none => none
    | some t =>
      match rr_scan_arrivals (List.range s.tasks.length) (rr_after_run time_quantum s i t) with
      | none => none
      | some s2 => rr_finish_or_requeue s2 i (rr_after_slice time_quantum s.time t)

/-- The body of `while (tasks_left > 0)`. -/
def rr_step (below : Int → Bool) (time_quantum : Int) (s : RRState) : Option RRState :=
  if s.front = s.rear then rr_idle below s else rr_slice time_quantum s

/-- The state after at most `k` iterations of `while (tasks_left > 0)`; the state no longer
changes once the loop condition is false. -/
def rr_iter (below : Int → Bool) (time_quantum : Int) : Nat → RRState → Option RRState
  | 0, s => some s
  | k + 1, s =>
    if s.tasks_left > 0 then (rr_step below time_quantum s).bind (rr_iter below time_quantum k)
    else some s

/-- The locals of `simulate_rr` after the initial scan. -/
def rr_init (tasks : List Task) : Option RRState :=
  rr_scan_initial (List.range tasks.length)
    { tasks := tasks, time := 0, tasks_left := tasks.length,
      queue := List.replicate 100 none, front := 0, rear := 0,
      in_queue := List.replicate 100 false, events := [] }

/-- How a bounded run of `simulate_rr` ends. -/
inductive Outcome where
  | returned (r : Run)
  | undefined_access
  | still_running
deriving DecidableEq, Repr

/-- The function `simulate_rr`, with the loop bounded by `fuel` iterations. -/
def simulate_rr (below : Int → Bool) (fuel : Nat) (tasks : List Task) (time_quantum : Int) :
    Outcome :=
  match (rr_init tasks).bind (rr_iter below time_quantum fuel) with
  | none => Outcome.undefined_access
  | some s =>
    if s.tasks_left > 0 then Outcome.still_running
    else Outcome.returned
      { tasks := s.tasks, time := s.time,
        events := s.events ++ [Event.all_finished s.time] }

/-! ## Statistics -/

/-- What `print_statistics` prints: the three averages and the CPU usage figure (percent). -/
structure Statistics where
  avg_waiting : ℚ
  avg_response : ℚ
  avg_turnaround : ℚ
  cpu_usage : ℚ
deriving DecidableEq

/-- Rounding of a rational to the nearest integer, a tie going to the even neighbour (the
rounding of `double` arithmetic and of the decimal conversion of `printf`). -/
def round_half_even (q : ℚ) : Int :=
  if q - ⌊q⌋ < 1 / 2 then ⌊q⌋
  else if 1 / 2 < q - ⌊q⌋ then ⌊q⌋ + 1
  else if ⌊q⌋ % 2 = 0 then ⌊q⌋ else ⌊q⌋ + 1

/-- The `double` that holds the result of an operation whose exact value is `q`: the nearest
number with a 53-bit significand, a tie going to the even significand (IEEE 754 binary64,
round to nearest).  The exponent range of `double` is not modelled: sums and quotients of
`int` values stay far inside it. -/
def binary64 (q : ℚ) : ℚ :=
  if q = 0 then 0
  else (round_half_even (q / 2 ^ (Int.log 2 |q| - 52)) : ℚ) * 2 ^ (Int.log 2 |q| - 52)

/-- The number that `printf("%.2f", x)` prints for the `double` `x`: `x` rounded to two
digits after the decimal point. -/
def two_decimals (x : ℚ) : ℚ := (round_half_even (x * 100) : ℚ) / 100

/-- The accumulation loop of `print_statistics`: the three `double` totals (waiting,
turnaround, response) after the remaining tasks are added; each `+=` converts the `int` field
(exactly) and rounds the sum to a `double`. -/
def stat_totals : List Task → ℚ × ℚ × ℚ → ℚ × ℚ × ℚ
  | [], acc => acc
  | t :: ts, acc =>
    stat_totals ts (binary64 (acc.1 + t.waiting_time), binary64 (acc.2.1 + t.turnaround_time),
      binary64 (acc.2.2 + t.response_time))

/-- The function `print_statistics`: each average is the `double` quotient `total / n`
printed with `%.2f`; the CPU usage line is the literal `100.00%` of the source.  (For `n = 0`
the source divides by zero and prints a NaN; the quotient is 0 here.) -/
def print_statistics (tasks : List Task) : Statistics :=
  let tot := stat_totals tasks (0, 0, 0)
  let n : ℚ := (tasks.length : ℚ)
  { avg_waiting := two_decimals (binary64 (tot.1 / n)),
    avg_response := two_decimals (binary64 (tot.2.2 / n)),
    avg_turnaround := two_decimals (binary64 (tot.2.1 / n)),
    cpu_usage := 100 }

/-! ## Well-formed input -/

/-- A task that has not run yet, with the value ranges every policy assumes:
`arrival_time ≥ 0`, `burst_time ≥ 1`, `remaining_time = burst_time`, `start_time = -1`. -/
def Task.fresh (t : Task) : Prop :=
  0 ≤ t.arrival_time ∧ 1 ≤ t.burst_time ∧ t.remaining_time = t.burst_time
    ∧ t.start_time = -1

instance (t : Task) : Decidable t.fresh := by
  unfold Task.fresh; exact inferInstance

/-- A well-formed registry: between 1 and 100 tasks, each of them fresh. -/
def well_formed (tasks : List Task) : Prop :=
  1 ≤ tasks.length ∧ tasks.length ≤ 100 ∧ ∀ t ∈ tasks, t.fresh

instance (tasks : List Task) : Decidable (well_formed tasks) := by
  unfold well_formed; exact inferInstance

/-- The finish time of the task before position `i` in a finished registry, taken as 0
for the first position. -/
def finish_before (out : List Task) : Nat → Int
  | 0 => 0
  | i + 1 => match out[i]? with
    | some t => t.finish_time
    | none => 0


/-- The registry `[(1,0,5),(2,2,3)]` of Scenario 1, as `read_tasks` loads it. -/
def scenario1 : List Task := read_tasks [(1, 0, 5), (2, 2, 3)] 100

/-- The registry `[(1,0,4),(2,0,4)]` of Scenario 2. -/
def scenario2 : List Task := read_tasks [(1, 0, 4), (2, 0, 4)] 100

/-- The registry `[(1,0,8),(2,1,4)]` of Scenario 3. -/
def scenario3 : List Task := read_tasks [(1, 0, 8), (2, 1, 4)] 100

/-- A task is ready at `time`: it has arrived and still has work to do. -/
def Task.ready (time : Int) (t : Task) : Prop :=
  t.remaining_time > 0 ∧ t.arrival_time ≤ time

instance (time : Int) (t : Task) : Decidable (t.ready time) := by
  unfold Task.ready; exact inferInstance

/-- The single task (pid 1, arrival 3, burst 2) of Scenario 4. -/
def scenario4 : List Task := read_tasks [(1, 3, 2)] 100

/-- The utilisation the specification asks for: the ticks in which some task ran (the sum
of the burst times) over the makespan (the final clock), as a percentage. -/
def running_fraction (r : Run) : ℚ :=
  100 * ((r.tasks.map fun t => (t.burst_time : ℚ)).sum / (r.time : ℚ))

/-- What holds of every task while `simulate_srtf` runs with the clock at `time`: the value
ranges, the ticks received so far fit between arrival and `time`, and a task with no work
left carries its finish time and the three derived metrics. -/
def Task.on_track (time : Int) (t : Task) : Prop :=
  0 ≤ t.arrival_time ∧ 1 ≤ t.burst_time ∧ 0 ≤ t.remaining_time
    ∧ t.remaining_time ≤ t.burst_time
    ∧ (t.remaining_time < t.burst_time →
        t.arrival_time + (t.burst_time - t.remaining_time) ≤ time)
    ∧ (t.remaining_time = 0 →
        t.arrival_time + t.burst_time ≤ t.finish_time
        ∧ t.turnaround_time = t.finish_time - t.arrival_time
        ∧ t.waiting_time = t.turnaround_time - t.burst_time
        ∧ t.response_time = t.start_time - t.arrival_time)

/-- Total work left in a registry. -/
def work_left (tasks : List Task) : Nat :=
  (tasks.map fun t => t.remaining_time.toNat).sum

/-- The largest arrival time of a registry. -/
def last_arrival (tasks : List Task) : Nat :=
  (tasks.map fun t => t.arrival_time.toNat).foldr max 0

/-- The number of tasks of a registry with no work left. -/
def done_count (tasks : List Task) : Nat :=
  (tasks.map fun t => if t.remaining_time = 0 then 1 else 0).sum

/-- The loop invariant of `simulate_srtf`. -/
def SrtfState.inv (s : SrtfState) : Prop :=
  (∀ t ∈ s.tasks, t.on_track s.time) ∧ s.completed = (done_count s.tasks : Int)

/-- The quantity that decreases at every iteration of the loop of `simulate_srtf`: the work
left plus the ticks until the last arrival. -/
def SrtfState.measure (s : SrtfState) : Nat :=
  work_left s.tasks + ((last_arrival s.tasks : Int) - s.time).toNat

/-- The three derived metrics of a task agree with its finish, start and arrival times. -/
def Task.metrics_ok (t : Task) : Prop :=
  t.turnaround_time = t.finish_time - t.arrival_time
    ∧ t.waiting_time = t.turnaround_time - t.burst_time
    ∧ t.response_time = t.start_time - t.arrival_time

instance (t : Task) : Decidable t.metrics_ok := by
  unfold Task.metrics_ok; exact inferInstance

/-- A registry on which Round-Robin returns early: one long task, then two short tasks that
arrive after idle gaps. -/
def stale_registry : List Task := read_tasks [(1, 0, 99), (2, 100, 1), (3, 200, 1)] 100

/-- A registry of 100 tasks: 99 arrive at time 0 and one at time 1, each with burst 2. -/
def full_registry : List Task :=
  read_tasks
    ((List.range 99).map (fun (i : Nat) => ((i : Int) + 1, (0 : Int), (2 : Int)))
      ++ [(100, 1, 2)]) 100

/-- The reading of the cells below the arrays under which the first iteration of the idle
scan never finds a match. -/
def no_match : Int → Bool := fun _ => false

/-- The entries that the loop of `simulate_rr` would dequeue from a state, in order, if
nothing were enqueued any more: it reads `queue[front]` and advances `front` modulo 100 until
`front == rear` (at most `fuel` entries are listed). -/
def rr_pending_from (queue : List (Option Nat)) (rear : Nat) : Nat → Nat → List (Option Nat)
  | 0, _ => []
  | fuel + 1, front =>
    if front = rear then []
    else (queue[front]?).join :: rr_pending_from queue rear fuel ((front + 1) % 100)

/-- The ready queue of a state as the loop sees it. -/
def rr_pending (s : RRState) : List (Option Nat) :=
  rr_pending_from s.queue s.rear 100 s.front

/-- The circular buffer of a Round-Robin state holds the list `L` of task indices: `L` has no
duplicates, its members are registry positions flagged in `in_queue`, and either the slots
`front, front+1, ...` (modulo 100) hold `L` in order with `rear` at the slot after them
(modulo 100), or `rear` is stuck at 100 and `L` is empty. -/
def RRState.queue_holds (s : RRState) (L : List Nat) : Prop :=
  s.queue.length = 100 ∧ s.in_queue.length = 100 ∧ s.tasks.length ≤ 100 ∧ s.front < 100
    ∧ L.Nodup ∧ (∀ j ∈ L, j < s.tasks.length ∧ s.in_queue[j]? = some true)
    ∧ ((s.rear ≤ 100 ∧ (s.front + L.length) % 100 = s.rear % 100
          ∧ ∀ (k x : Nat), L[k]? = some x → s.queue[(s.front + k) % 100]? = some (some x))
        ∨ (s.rear = 100 ∧ L = []))

/-- Every flagged task with work left, other than the task `skip` that is being run, is a
member of `L`. -/
def RRState.covered (s : RRState) (L : List Nat) (skip : Option Nat) : Prop :=
  ∀ (j : Nat) (u : Task), s.tasks[j]? = some u → s.in_queue[j]? = some true →
    0 < u.remaining_time → some j ≠ skip → j ∈ L

/-- The loop invariant of `simulate_rr` (on runs without an undefined access). -/
def RRState.inv (s : RRState) : Prop :=
  ∃ L : List Nat, s.queue_holds L ∧ s.covered L none

/-- The run of a bounded execution that returned, if it did. -/
def Outcome.result : Outcome → Option Run
  | Outcome.returned r => some r
  | _ => none

/-- The lines `simulate_fcfs` prints for one task when the previous task finished at `prev`:
one idle line stamped `prev` if the task arrives later (nothing for the later ticks of the
gap), a running line for each tick of the burst from the start
`max(arrival_time, prev)` on, and the completion line. -/
def fcfs_segment (prev : Int) (t : Task) : List Event :=
  (if prev < t.arrival_time then [Event.idle prev] else [])
    ++ (List.range t.burst_time.toNat).map
        (fun (d : Nat) => Event.running (max t.arrival_time prev + (d : Int)) t.pid)
    ++ [Event.finished (max t.arrival_time prev + t.burst_time) t.pid]

/-- The segments of the tasks of a registry one after the other, each starting from the
finish of the task before it. -/
def fcfs_timeline : Int → List Task → List Event
  | _, [] => []
  | prev, t :: ts =>
    fcfs_segment prev t ++ fcfs_timeline (max t.arrival_time prev + t.burst_time) ts

/-- The fields of a task that the caller supplies: `pid`, `arrival_time`, `burst_time`. -/
def Task.key (t : Task) : Int × Int × Int :=
  (t.pid, t.arrival_time, t.burst_time)

/-- A call of `print_statistics`: the registry as the call leaves it, and what it prints.
The function reads `tasks[i].waiting_time`, `tasks[i].turnaround_time` and
`tasks[i].response_time` and assigns only to its three local totals. -/
def print_statistics_run (tasks : List Task) : List Task × Statistics :=
  (tasks, print_statistics tasks)

/-- The initial value `~0` of the index of the idle scan of `simulate_rr`. -/
def rr_idle_first_index : Int := ~~~(0 : Int)

/-- The values of `i` for which the body of the idle scan
`for (int i = ~0; i < n; i++)` runs, in order. -/
def rr_idle_indices (n : Nat) : List Int :=
  (List.range (n + 1)).map (fun (k : Nat) => rr_idle_first_index + (k : Int))

/-- A registry on which Round-Robin writes past the end of `queue`: one long task, then a
task that arrives after an idle gap and needs two slices. -/
def overrun_registry : List Task := read_tasks [(1, 0, 99), (2, 100, 2)] 100

/-- A registry on which a new arrival with the same remaining time takes the processor:
the task at position 0 arrives at time 1 with burst 3, the task at position 1 at time 0 with
burst 4. -/
def tie_registry : List Task := read_tasks [(1, 1, 3), (2, 0, 4)] 100

/-- The event is a running event of pid `p`. -/
def Event.runs (p : Int) : Event → Bool
  | Event.running _ q => decide (q = p)
  | _ => false

/-- The number of running events of pid `p` in a timeline. -/
def running_count (p : Int) (evs : List Event) : Nat :=
  evs.countP (Event.runs p)

/-- The total burst time of the tasks of a registry that carry pid `p`. -/
def burst_of (p : Int) (tasks : List Task) : Nat :=
  (tasks.map fun t => if t.pid = p then t.burst_time.toNat else 0).sum

/-- The work left in the tasks of a registry that carry pid `p`. -/
def work_left_of (p : Int) (tasks : List Task) : Nat :=
  (tasks.map fun t => if t.pid = p then t.remaining_time.toNat else 0).sum

/-- The total burst time of a registry. -/
def total_burst (tasks : List Task) : Nat :=
  (tasks.map fun t => t.burst_time.toNat).sum

/-- The bookkeeping of `simulate_srtf`: per pid, the running events printed plus the work
left make up the burst time; the clock is at least the work done and, with the quantity that
decreases, at most `bound`. -/
def SrtfState.accounted (bound : Nat) (s : SrtfState) : Prop :=
  (∀ p : Int, running_count p s.events + work_left_of p s.tasks = burst_of p s.tasks)
    ∧ (total_burst s.tasks : Int) ≤ s.time + (work_left s.tasks : Int)
    ∧ s.time + (s.measure : Int) ≤ (bound : Int)

/-- The state of `start_time` in a task: still the sentinel `-1` with no work done, or a
clock value (hence not `-1`) that is not before the arrival. -/
def Task.start_ok (t : Task) : Prop :=
  (t.start_time = -1 ∧ t.remaining_time = t.burst_time)
    ∨ (t.arrival_time ≤ t.start_time ∧ 0 ≤ t.start_time)

/-- Every slot of `queue` that was written holds a registry position whose task has arrived
by the current clock. -/
def RRState.slots_arrived (s : RRState) : Prop :=
  ∀ (k j : Nat), s.queue[k]? = some (some j) →
    ∃ t, s.tasks[j]? = some t ∧ t.arrival_time ≤ s.time

/-- What holds of the start times while `simulate_rr` runs. -/
def RRState.started_ok (s : RRState) : Prop :=
  (∀ x ∈ s.tasks, 1 ≤ x.burst_time ∧ 0 ≤ x.remaining_time ∧ x.start_ok)
    ∧ s.slots_arrived ∧ 0 ≤ s.time

/-- The arrays of a Round-Robin state when the positions `0 .. k-1` have been admitted in
registry order and no task was ever returned to the queue: slot `j` holds position `j` and
exactly the positions below `k` are flagged. -/
def RRState.ring_ok (s : RRState) (k : Nat) : Prop :=
  s.queue.length = 100 ∧ s.in_queue.length = 100
    ∧ (∀ j : Nat, j < k → s.queue[j]? = some (some j))
    ∧ (∀ j : Nat, j < 100 → s.in_queue[j]? = some (decide (j < k)))

/-- The state of `simulate_rr` on the registry `tasks` when the first `m` tasks have run to
completion with the records `simulate_fcfs` gives them, the next `c` are queued, and the
others have not arrived. -/
def RRState.fcfs_like (tasks : List Task) (s : RRState) (m c : Nat) : Prop :=
  m + c ≤ tasks.length
    ∧ s.tasks = (fcfs_loop 0 (tasks.take m)).tasks ++ tasks.drop m
    ∧ s.tasks_left = (tasks.length : Int) - (m : Int)
    ∧ s.ring_ok (m + c)
    ∧ s.front = m % 100
    ∧ ((m + c < 100 ∧ s.rear = m + c) ∨ (m + c = 100 ∧ s.rear = 100)
        ∨ (m + c = 100 ∧ s.rear = 0 ∧ 1 ≤ m))
    ∧ (fcfs_loop 0 (tasks.take m)).time ≤ s.time
    ∧ (0 < c → ∀ t, tasks[m]? = some t →
        s.time = (fcfs_loop 0 (tasks.take m)).time ∨ s.time = t.arrival_time)
    ∧ (∀ (j : Nat) (t : Task), j < m + c → tasks[j]? = some t → t.arrival_time ≤ s.time)
    ∧ (∀ (j : Nat) (t : Task), m + c ≤ j → tasks[j]? = some t → s.time < t.arrival_time)
    ∧ (0 < m → m = tasks.length → s.time = (fcfs_loop 0 (tasks.take m)).time)

/-- A registry with non-decreasing arrival times and a gap before the third arrival. -/
def spaced_registry : List Task := read_tasks [(1, 1, 2), (2, 1, 1), (3, 5, 2)] 100

/-! ## The clock as an `int`

The definitions above compute in unbounded integers.  In the source the clock and the fields
of a task are `int` variables, so a sum that passes `INT_MAX` is not what the variable holds
afterwards.  The definitions of this section are `simulate_fcfs` and `simulate_srtf` again,
statement by statement, with the result of every addition and subtraction reduced to the
32-bit range; the unbounded versions agree with them as long as the largest arrival time plus
the total burst time is at most `INT_MAX`. -/

/-- The largest value of an `int`, `2^31 - 1`. -/
def INT_MAX : Int := 2147483647

/-- The value an `int` holds after an addition or subtraction whose exact result is `x`: `x`
itself when `-2^31 ≤ x ≤ 2^31 - 1`, and otherwise `x` reduced modulo `2^32` into that range
(signed overflow is undefined in ISO C; the two's-complement targets wrap). -/
def int_wrap (x : Int) : Int := (x + 2147483648) % 4294967296 - 2147483648

/-- The inner loop `while (tasks[i].remaining_time > 0)` of `simulate_fcfs` with `int`
arithmetic, unrolled at most `fuel` times. -/
def fcfs_burst_int (pid : Int) : Nat → Int → Int → Int × Int × List Event
  | 0, rem, time => (rem, time, [])
  | fuel + 1, rem, time =>
    if rem > 0 then
      let r := fcfs_burst_int pid fuel (int_wrap (rem - 1)) (int_wrap (time + 1))
      (r.1, r.2.1, Event.running time pid :: r.2.2)
    else (rem, time, [])

/-- One iteration of the `for` loop of `simulate_fcfs` with `int` arithmetic. -/
def fcfs_task_int (time : Int) (t : Task) : Task × Int × List Event :=
  let idleEv : List Event := if time < t.arrival_time then [Event.idle time] else []
  let time1 : Int := if time < t.arrival_time then t.arrival_time else time
  let r := fcfs_burst_int t.pid t.remaining_time.toNat t.remaining_time time1
  let fin : Int := r.2.1
  let ta : Int := int_wrap (fin - t.arrival_time)
  ({ t with
      start_time := time1, remaining_time := r.1, finish_time := fin,
      turnaround_time := ta, waiting_time := int_wrap (ta - t.burst_time),
      response_time := int_wrap (time1 - t.arrival_time) },
   fin, idleEv ++ r.2.2 ++ [Event.finished fin t.pid])

/-- The `for (int i = 0; i < n; i++)` loop of `simulate_fcfs` with `int` arithmetic. -/
def fcfs_loop_int : Int → List Task → Run
  | time, [] => { tasks := [], time := time, events := [] }
  | time, t :: ts =>
    let r := fcfs_task_int time t
    let rest := fcfs_loop_int r.2.1 ts
    { tasks := r.1 :: rest.tasks, time := rest.time, events := r.2.2 ++ rest.events }

/-- The function `simulate_fcfs` with `int` arithmetic. -/
def simulate_fcfs_int (tasks : List Task) : Run :=
  let r := fcfs_loop_int 0 tasks
  { r with events := r.events ++ [Event.all_finished r.time] }

/-- One iteration of the `while (completed < n)` loop of `simulate_srtf` with `int`
arithmetic (the selection scan only compares, so it is `srtf_scan`). -/
def srtf_tick_int (s : SrtfState) : SrtfState :=
  match srtf_scan s.time s.tasks 0 none with
  | some (i, t) =>
    let st : Int := if t.start_time = -1 then s.time else t.start_time
    let rem : Int := int_wrap (t.remaining_time - 1)
    if rem = 0 then
      let fin : Int := int_wrap (s.time + 1)
      let ta : Int := int_wrap (fin - t.arrival_time)
      { tasks := s.tasks.set i
          { t with
            start_time := st, remaining_time := rem, finish_time := fin,
            turnaround_time := ta, waiting_time := int_wrap (ta - t.burst_time),
            response_time := int_wrap (st - t.arrival_time) },
        time := int_wrap (s.time + 1),
        completed := int_wrap (s.completed + 1),
        events := s.events
          ++ [Event.running s.time t.pid, Event.finished (int_wrap (s.time + 1)) t.pid] }
    else
      { tasks := s.tasks.set i { t with start_time := st, remaining_time := rem },
        time := int_wrap (s.time + 1),
        completed := s.completed,
        events := s.events ++ [Event.running s.time t.pid] }
  | none =>
    { s with time := int_wrap (s.time + 1), events := s.events ++ [Event.idle s.time] }

/-- The state after at most `k` iterations of `while (completed < n)` with `int`
arithmetic. -/
def srtf_iter_int : Nat → SrtfState → SrtfState
  | 0, s => s
  | k + 1, s => if s.completed < s.tasks.length then srtf_iter_int k (srtf_tick_int s) else s

/-- The function `simulate_srtf` with `int` arithmetic, the loop bounded by `fuel`
iterations. -/
def simulate_srtf_int (fuel : Nat) (tasks : List Task) : Option Run :=
  let s := srtf_iter_int fuel (srtf_init tasks)
  if s.completed < s.tasks.length then none
  else some { tasks := s.tasks, time := s.time,
              events := s.events ++ [Event.all_finished s.time] }

/-- The single task (pid 1, arrival 2147483647, burst 2): it arrives at `INT_MAX`. -/
def overflow_registry : List Task := read_tasks [(1, 2147483647, 2)] 100

/-- The single task (pid 1, arrival 2147483646, burst 2): its second tick is at `INT_MAX`. -/
def late_registry : List Task := read_tasks [(1, 2147483646, 2)] 100

/-- A task with its `response_time` blanked: what `simulate_srtf` goes by and what it
computes from the clock. -/
def Task.sans_response (t : Task) : Task := { t with response_time := 0 }

/-- Two loop states of `simulate_srtf` that differ at most in the `response_time` of their
tasks. -/
def SrtfState.agrees (si s : SrtfState) : Prop :=
  si.tasks.map Task.sans_response = s.tasks.map Task.sans_response
    ∧ si.time = s.time ∧ si.completed = s.completed ∧ si.events = s.events

/-- Three tasks that arrive together, with bursts 1, 2 and 1: under FCFS their waiting times
add up to 4. -/
def thirds_registry : List Task := read_tasks [(1, 0, 1), (2, 0, 2), (3, 0, 1)] 100

/-! ## FCFS: the start/finish recurrence -/

theorem fcfs_burst_time (pid : Int) :
    ∀ (k : Nat) (rem time : Int), rem.toNat ≤ k →
      (fcfs_burst pid k rem time).2.1 = time + (rem.toNat : Int) := by
  intro k
  induction k with
  | zero =>
    intro rem time h
    have h0 : rem.toNat = 0 := Nat.le_zero.mp h
    simp [fcfs_burst, h0]
  | succ k ih =>
    intro rem time h
    unfold fcfs_burst
    by_cases hr : rem > 0
    · have hk : (rem - 1).toNat ≤ k := by omega
      simp only [hr, if_true]
      rw [ih (rem - 1) (time + 1) hk]
      omega
    · have h0 : rem.toNat = 0 := by omega
      simp [hr, h0]

theorem fcfs_burst_rem (pid : Int) :
    ∀ (k : Nat) (rem time : Int), rem.toNat ≤ k →
      (fcfs_burst pid k rem time).1 = if rem > 0 then 0 else rem := by
  intro k
  induction k with
  | zero =>
    intro rem time h
    have h0 : ¬ rem > 0 := by omega
    simp [fcfs_burst, h0]
  | succ k ih =>
    intro rem time h
    unfold fcfs_burst
    by_cases hr : rem > 0
    · have hk : (rem - 1).toNat ≤ k := by omega
      simp only [hr, if_true]
      rw [ih (rem - 1) (time + 1) hk]
      split <;> omega
    · simp [hr]

theorem fcfs_task_start (time : Int) (t : Task) :
    (fcfs_task time t).1.start_time = max t.arrival_time time := by
  unfold fcfs_task
  by_cases h : time < t.arrival_time
  · simp only [h, if_true]; omega
  · simp only [h, if_false]; omega

theorem fcfs_task_finish (time : Int) (t : Task) (h : 0 ≤ t.remaining_time) :
    (fcfs_task time t).1.finish_time = max t.arrival_time time + t.remaining_time := by
  unfold fcfs_task
  simp only
  rw [fcfs_burst_time t.pid _ _ _ (le_refl _)]
  split <;> omega

theorem fcfs_task_clock (time : Int) (t : Task) :
    (fcfs_task time t).2.1 = (fcfs_task time t).1.finish_time := rfl

theorem fcfs_task_fields (time : Int) (t : Task) :
    (fcfs_task time t).1.pid = t.pid ∧ (fcfs_task time t).1.arrival_time = t.arrival_time
      ∧ (fcfs_task time t).1.burst_time = t.burst_time := ⟨rfl, rfl, rfl⟩

theorem fcfs_loop_length : ∀ (ts : List Task) (time : Int),
    (fcfs_loop time ts).tasks.length = ts.length := by
  intro ts
  induction ts with
  | nil => intro time; rfl
  | cons t ts ih => intro time; simp [fcfs_loop, ih]

theorem fcfs_loop_head (time : Int) (t : Task) (ts : List Task) :
    (fcfs_loop time (t :: ts)).tasks[0]? = some (fcfs_task time t).1 := by
  simp [fcfs_loop]

theorem fcfs_loop_next : ∀ (ts : List Task) (time : Int) (i : Nat) (t o : Task),
    ts[i + 1]? = some t → (fcfs_loop time ts).tasks[i]? = some o →
      (fcfs_loop time ts).tasks[i + 1]? = some (fcfs_task o.finish_time t).1 := by
  intro ts
  induction ts with
  | nil => intro time i t o h; simp at h
  | cons a ts ih =>
    intro time i t o ht ho
    cases i with
    | zero =>
      have ho' : o = (fcfs_task time a).1 := by
        simpa [fcfs_loop] using ho.symm
      cases ts with
      | nil => simp at ht
      | cons b ts =>
        have hb : b = t := by simpa using ht
        subst hb
        subst ho'
        simp [fcfs_loop, fcfs_task_clock]
    | succ i =>
      have ht' : ts[i + 1]? = some t := by simpa using ht
      have ho' : (fcfs_loop (fcfs_task time a).2.1 ts).tasks[i]? = some o := by
        simpa [fcfs_loop] using ho
      have := ih (fcfs_task time a).2.1 i t o ht' ho'
      simpa [fcfs_loop] using this

theorem fcfs_loop_get : ∀ (ts : List Task) (time : Int) (i : Nat) (t : Task),
    ts[i]? = some t → ∃ o, (fcfs_loop time ts).tasks[i]? = some o := by
  intro ts time i t h
  have hi : i < ts.length := by
    rcases Nat.lt_or_ge i ts.length with h1 | h1
    · exact h1
    · rw [List.getElem?_eq_none h1] at h; cases h
  have hl : i < (fcfs_loop time ts).tasks.length := by rw [fcfs_loop_length]; exact hi
  exact ⟨(fcfs_loop time ts).tasks[i], List.getElem?_eq_getElem hl⟩

theorem fcfs_loop_recurrence (ts : List Task) (i : Nat) (t : Task) (h : ts[i]? = some t) :
    (fcfs_loop 0 ts).tasks[i]? =
      some (fcfs_task (finish_before (fcfs_loop 0 ts).tasks i) t).1 := by
  cases i with
  | zero =>
    cases ts with
    | nil => simp at h
    | cons a ts =>
      have ha : a = t := by simpa using h
      subst ha
      simp [fcfs_loop, finish_before]
  | succ i =>
    have hi : i + 1 < ts.length := by
      rcases Nat.lt_or_ge (i + 1) ts.length with h1 | h1
      · exact h1
      · rw [List.getElem?_eq_none h1] at h; cases h
    have hi' : i < ts.length := by omega
    obtain ⟨o, ho⟩ := fcfs_loop_get ts 0 i ts[i] (List.getElem?_eq_getElem hi')
    rw [fcfs_loop_next ts 0 i t o h ho]
    simp [finish_before, ho]

theorem fcfs_loop_increasing : ∀ (ts : List Task) (time : Int),
    (∀ t ∈ ts, 1 ≤ t.remaining_time) →
      (∀ o ∈ (fcfs_loop time ts).tasks, time < o.finish_time)
        ∧ ((fcfs_loop time ts).tasks.map fun o => o.finish_time).Pairwise (· < ·) := by
  intro ts
  induction ts with
  | nil => intro time _; simp [fcfs_loop]
  | cons a ts ih =>
    intro time h
    have ha : 1 ≤ a.remaining_time := h a (List.mem_cons_self _ _)
    have hf : time < (fcfs_task time a).1.finish_time := by
      rw [fcfs_task_finish time a (by omega)]; omega
    obtain ⟨h1, h2⟩ := ih (fcfs_task time a).2.1 (fun t ht => h t (List.mem_cons_of_mem _ ht))
    rw [fcfs_task_clock] at h1 h2
    constructor
    · intro o ho
      simp only [fcfs_loop, List.mem_cons] at ho
      rcases ho with ho | ho
      · rw [ho]; exact hf
      · have := h1 o (by simpa [fcfs_task_clock] using ho)
        omega
    · simp only [fcfs_loop, List.map_cons, List.pairwise_cons]
      refine ⟨?_, by simpa [fcfs_task_clock] using h2⟩
      intro x hx
      simp only [List.mem_map] at hx
      obtain ⟨o, ho, rfl⟩ := hx
      exact h1 o (by simpa [fcfs_task_clock] using ho)

/-- The start/finish recurrence of `simulate_fcfs` computed in unbounded integers. -/
theorem fcfs_recurrence_unbounded (tasks : List Task)
    (h : ∀ t ∈ tasks, 0 ≤ t.arrival_time ∧ 1 ≤ t.burst_time
      ∧ t.remaining_time = t.burst_time) :
    (simulate_fcfs tasks).tasks.length = tasks.length
    ∧ (∀ (i : Nat) (t : Task), tasks[i]? = some t →
        ∃ o, (simulate_fcfs tasks).tasks[i]? = some o
          ∧ o.start_time = max t.arrival_time (finish_before (simulate_fcfs tasks).tasks i)
          ∧ o.finish_time = o.start_time + t.burst_time)
    ∧ ((tasks.map fun t => t.arrival_time).Pairwise (· < ·) →
        ((simulate_fcfs tasks).tasks.map fun o => o.finish_time).Pairwise (· < ·))
    ∧ (simulate_fcfs (read_tasks [(1, 0, 5), (2, 2, 3)] 100)).tasks.map
        (fun o => (o.pid, o.start_time, o.finish_time)) = [(1, 0, 5), (2, 5, 8)] := by
  have htasks : (simulate_fcfs tasks).tasks = (fcfs_loop 0 tasks).tasks := rfl
  refine ⟨?_, ?_, ?_, by decide⟩
  · rw [htasks, fcfs_loop_length]
  · intro i t hi
    have ht : t ∈ tasks := List.getElem?_mem hi
    obtain ⟨h0, h1, h2⟩ := h t ht
    refine ⟨_, by rw [htasks]; exact fcfs_loop_recurrence tasks i t hi, ?_, ?_⟩
    · rw [fcfs_task_start, htasks]
    · rw [fcfs_task_finish _ _ (by omega), fcfs_task_start, h2]
  · intro _
    rw [htasks]
    exact (fcfs_loop_increasing tasks 0 (fun t ht => by
      obtain ⟨_, h1, h2⟩ := h t ht; omega)).2

/-! ## Statistics -/

/-- C9, as stated, fails: for Scenario 4 under FCFS the makespan is 5 with 2 running ticks,
so the running fraction is 40%, but the figure `print_statistics` reports is 100. -/
theorem cpu_usage_not_running_fraction :
    (simulate_fcfs scenario4).time = 5
    ∧ running_fraction (simulate_fcfs scenario4) = 40
    ∧ (print_statistics (simulate_fcfs scenario4).tasks).cpu_usage
        ≠ running_fraction (simulate_fcfs scenario4) := by
  have h1 : (simulate_fcfs scenario4).time = 5 := by decide
  have h2 : (simulate_fcfs scenario4).tasks.map (fun t => (t.burst_time : ℚ)) = [2] := by
    have : (simulate_fcfs scenario4).tasks.map (fun t => t.burst_time) = [2] := by decide
    have h3 := congrArg (List.map (fun (z : Int) => (z : ℚ))) this
    simpa [List.map_map, Function.comp_def] using h3
  have h4 : running_fraction (simulate_fcfs scenario4) = 40 := by
    unfold running_fraction
    rw [h2, h1]
    norm_num
  refine ⟨h1, h4, ?_⟩
  rw [h4]
  show (100 : ℚ) ≠ 40
  norm_num

/-- C9, amended: the CPU usage figure that `print_statistics` reports is 100 (percent) for
every registry, whatever its idle ticks. -/
theorem cpu_usage_always_100 (tasks : List Task) :
    (print_statistics tasks).cpu_usage = 100 := rfl

/-! ## SRTF: the selection scan -/

theorem srtf_scan_le_cur (time : Int) : ∀ (ts : List Task) (i : Nat) (c : Nat × Task),
    ∃ r, srtf_scan time ts i (some c) = some r
      ∧ r.2.remaining_time ≤ c.2.remaining_time
      ∧ (r.2.remaining_time = c.2.remaining_time → r = c) := by
  intro ts
  induction ts with
  | nil => intro i c; exact ⟨c, rfl, le_refl _, fun _ => rfl⟩
  | cons t ts ih =>
    intro i c
    unfold srtf_scan
    by_cases hr : t.remaining_time > 0 ∧ t.arrival_time ≤ time
    · by_cases hlt : t.remaining_time < c.2.remaining_time
      · simp only [hr, and_self, if_true, hlt]
        obtain ⟨r, h1, h2, _⟩ := ih (i + 1) (i, t)
        refine ⟨r, h1, ?_, ?_⟩
        · simp only at h2; omega
        · intro he; simp only at h2; omega
      · simp only [hr, and_self, if_true, hlt, if_false]
        exact ih (i + 1) c
    · simp only [hr, if_false]
      exact ih (i + 1) c

theorem srtf_scan_origin (time : Int) : ∀ (ts : List Task) (i : Nat) (cur : Option (Nat × Task)),
    srtf_scan time ts i cur = cur
      ∨ ∃ k u, ts[k]? = some u ∧ u.ready time ∧ srtf_scan time ts i cur = some (i + k, u) := by
  intro ts
  induction ts with
  | nil => intro i cur; exact Or.inl rfl
  | cons t ts ih =>
    intro i cur
    unfold srtf_scan
    have step : ∀ cur' : Option (Nat × Task),
        (cur' = cur ∨ (t.ready time ∧ cur' = some (i, t))) →
        (srtf_scan time ts (i + 1) cur' = cur
          ∨ ∃ k u, (t :: ts)[k]? = some u ∧ u.ready time
              ∧ srtf_scan time ts (i + 1) cur' = some (i + k, u)) := by
      intro cur' hc
      rcases ih (i + 1) cur' with h | ⟨k, u, hk, hu, h⟩
      · rcases hc with hc | ⟨hrd, hc⟩
        · left; rw [h, hc]
        · right; exact ⟨0, t, by simp, hrd, by rw [h, hc]; rfl⟩
      · right
        exact ⟨k + 1, u, by simpa using hk, hu, by rw [h]; congr 2; omega⟩
    apply step
    by_cases hr : t.remaining_time > 0 ∧ t.arrival_time ≤ time
    · rw [if_pos hr]
      cases cur with
      | none => exact Or.inr ⟨hr, rfl⟩
      | some c =>
        by_cases hlt : t.remaining_time < c.2.remaining_time
        · right; exact ⟨hr, by simp [hlt]⟩
        · left; simp [hlt]
    · rw [if_neg hr]; exact Or.inl rfl

theorem srtf_scan_none (time : Int) : ∀ (ts : List Task) (i : Nat) (cur : Option (Nat × Task)),
    srtf_scan time ts i cur = none → cur = none ∧ ∀ u ∈ ts, ¬ u.ready time := by
  intro ts
  induction ts with
  | nil => intro i cur h; exact ⟨h, by simp⟩
  | cons t ts ih =>
    intro i cur h
    unfold srtf_scan at h
    by_cases hr : t.remaining_time > 0 ∧ t.arrival_time ≤ time
    · simp only [hr, and_self, if_true] at h
      obtain ⟨h1, _⟩ := ih (i + 1) _ h
      cases cur with
      | none => simp at h1
      | some c =>
        simp only at h1
        split at h1 <;> simp at h1
    · simp only [hr, if_false] at h
      obtain ⟨h1, h2⟩ := ih (i + 1) _ h
      refine ⟨h1, ?_⟩
      intro u hu
      rcases List.mem_cons.mp hu with rfl | hu
      · exact hr
      · exact h2 u hu

theorem srtf_scan_minimal (time : Int) :
    ∀ (ts : List Task) (i : Nat) (cur : Option (Nat × Task)) (r : Nat × Task),
      (∀ c, cur = some c → c.1 < i) → srtf_scan time ts i cur = some r →
      ∀ k u, ts[k]? = some u → u.ready time →
        r.2.remaining_time ≤ u.remaining_time
          ∧ (u.remaining_time = r.2.remaining_time → r.1 ≤ i + k) := by
  intro ts
  induction ts with
  | nil => intro i cur r _ _ k u hk; simp at hk
  | cons t ts ih =>
    intro i cur r hcur hres k u hk hu
    unfold srtf_scan at hres
    cases k with
    | zero =>
      have hut : t = u := by simpa using hk
      subst hut
      have hr : t.remaining_time > 0 ∧ t.arrival_time ≤ time := hu
      simp only [hr, and_self, if_true] at hres
      cases cur with
      | none =>
        simp only at hres
        obtain ⟨r', h1, h2, h3⟩ := srtf_scan_le_cur time ts (i + 1) (i, t)
        rw [hres] at h1
        cases h1
        simp only at h2 h3
        refine ⟨h2, fun he => ?_⟩
        have := h3 he.symm
        rw [this]; simp
      | some c =>
        simp only at hres
        by_cases hlt : t.remaining_time < c.2.remaining_time
        · simp only [hlt, if_true] at hres
          obtain ⟨r', h1, h2, h3⟩ := srtf_scan_le_cur time ts (i + 1) (i, t)
          rw [hres] at h1
          cases h1
          simp only at h2 h3
          refine ⟨h2, fun he => ?_⟩
          have := h3 he.symm
          rw [this]; simp
        · simp only [hlt, if_false] at hres
          obtain ⟨r', h1, h2, h3⟩ := srtf_scan_le_cur time ts (i + 1) c
          rw [hres] at h1
          cases h1
          refine ⟨by omega, fun he => ?_⟩
          have := h3 (by omega)
          rw [this]
          have := hcur c rfl
          omega
    | succ k =>
      have hk' : ts[k]? = some u := by simpa using hk
      have := ih (i + 1) _ r (by
        intro c hc
        by_cases hr : t.remaining_time > 0 ∧ t.arrival_time ≤ time
        · simp only [hr, and_self, if_true] at hc
          cases cur with
          | none => simp only at hc; cases hc; simp
          | some c0 =>
            simp only at hc
            split at hc
            · cases hc; simp
            · cases hc; have := hcur _ rfl; omega
        · simp only [hr, if_false] at hc
          have := hcur c hc; omega) hres k u hk' hu
      refine ⟨this.1, fun he => ?_⟩
      have := this.2 he
      omega

theorem srtf_select_some (s : SrtfState) (i : Nat) (t : Task)
    (h : srtf_scan s.time s.tasks 0 none = some (i, t)) :
    s.tasks[i]? = some t ∧ t.ready s.time
      ∧ ∀ (j : Nat) (u : Task), s.tasks[j]? = some u → u.ready s.time →
          t.remaining_time ≤ u.remaining_time
            ∧ (u.remaining_time = t.remaining_time → i ≤ j) := by
  have hmin := srtf_scan_minimal s.time s.tasks 0 none (i, t) (by intro c hc; cases hc) h
  rcases srtf_scan_origin s.time s.tasks 0 none with h0 | ⟨k, u, hk, hu, h1⟩
  · rw [h] at h0; cases h0
  · rw [h] at h1
    have h2 : i = 0 + k ∧ t = u := by
      simpa using h1
    obtain ⟨hi, ht⟩ := h2
    subst ht
    have hi' : i = k := by omega
    subst hi'
    refine ⟨hk, hu, ?_⟩
    intro j u hj hru
    have := hmin j u hj hru
    simp only at this
    exact ⟨this.1, fun he => by have := this.2 he; omega⟩

theorem srtf_tick_idle (s : SrtfState) (h : srtf_scan s.time s.tasks 0 none = none) :
    srtf_tick s = { s with time := s.time + 1, events := s.events ++ [Event.idle s.time] } := by
  unfold srtf_tick; rw [h]

theorem srtf_tick_run (s : SrtfState) (i : Nat) (t : Task)
    (h : srtf_scan s.time s.tasks 0 none = some (i, t)) (h0 : t.remaining_time - 1 ≠ 0) :
    srtf_tick s =
      { tasks := s.tasks.set i
          { t with start_time := if t.start_time = -1 then s.time else t.start_time,
                   remaining_time := t.remaining_time - 1 },
        time := s.time + 1,
        completed := s.completed,
        events := s.events ++ [Event.running s.time t.pid] } := by
  unfold srtf_tick; rw [h]; simp only [h0, if_false]

theorem srtf_tick_done (s : SrtfState) (i : Nat) (t : Task)
    (h : srtf_scan s.time s.tasks 0 none = some (i, t)) (h0 : t.remaining_time - 1 = 0) :
    srtf_tick s =
      { tasks := s.tasks.set i
          { t with start_time := if t.start_time = -1 then s.time else t.start_time,
                   remaining_time := t.remaining_time - 1,
                   finish_time := s.time + 1,
                   turnaround_time := s.time + 1 - t.arrival_time,
                   waiting_time := s.time + 1 - t.arrival_time - t.burst_time,
                   response_time :=
                     (if t.start_time = -1 then s.time else t.start_time) - t.arrival_time },
        time := s.time + 1,
        completed := s.completed + 1,
        events := s.events ++ [Event.running s.time t.pid, Event.finished (s.time + 1) t.pid] } := by
  unfold srtf_tick; rw [h]; simp only [h0, if_true]

theorem srtf_tick_cases (s : SrtfState) :
    (srtf_scan s.time s.tasks 0 none = none
      ∧ srtf_tick s = { s with time := s.time + 1, events := s.events ++ [Event.idle s.time] })
    ∨ ∃ (i : Nat) (t t1 : Task) (ev : List Event),
        srtf_scan s.time s.tasks 0 none = some (i, t)
        ∧ srtf_tick s =
            { tasks := s.tasks.set i t1, time := s.time + 1,
              completed := s.completed + (if t1.remaining_time = 0 then 1 else 0),
              events := s.events ++ Event.running s.time t.pid :: ev }
        ∧ t1.pid = t.pid ∧ t1.arrival_time = t.arrival_time ∧ t1.burst_time = t.burst_time
        ∧ t1.remaining_time = t.remaining_time - 1
        ∧ t1.start_time = (if t.start_time = -1 then s.time else t.start_time)
        ∧ (t1.remaining_time = 0 →
            t1.finish_time = s.time + 1
            ∧ t1.turnaround_time = t1.finish_time - t1.arrival_time
            ∧ t1.waiting_time = t1.turnaround_time - t1.burst_time
            ∧ t1.response_time = t1.start_time - t1.arrival_time)
        ∧ (t1.remaining_time ≠ 0 →
            t1.finish_time = t.finish_time ∧ t1.turnaround_time = t.turnaround_time
            ∧ t1.waiting_time = t.waiting_time ∧ t1.response_time = t.response_time) := by
  cases hsel : srtf_scan s.time s.tasks 0 none with
  | none => exact Or.inl ⟨rfl, srtf_tick_idle s hsel⟩
  | some r =>
    obtain ⟨i, t⟩ := r
    right
    by_cases h0 : t.remaining_time - 1 = 0
    · refine ⟨i, t,
        { t with start_time := if t.start_time = -1 then s.time else t.start_time,
                 remaining_time := t.remaining_time - 1,
                 finish_time := s.time + 1,
                 turnaround_time := s.time + 1 - t.arrival_time,
                 waiting_time := s.time + 1 - t.arrival_time - t.burst_time,
                 response_time :=
                   (if t.start_time = -1 then s.time else t.start_time) - t.arrival_time },
        [Event.finished (s.time + 1) t.pid], rfl, ?_, rfl, rfl, rfl, rfl, rfl, ?_, ?_⟩
      · rw [srtf_tick_done s i t hsel h0]
        simp only [h0, if_true]
      · intro _; exact ⟨rfl, rfl, rfl, rfl⟩
      · intro h; exact absurd h0 h
    · refine ⟨i, t,
        { t with start_time := if t.start_time = -1 then s.time else t.start_time,
                 remaining_time := t.remaining_time - 1 },
        [], rfl, ?_, rfl, rfl, rfl, rfl, rfl, ?_, ?_⟩
      · rw [srtf_tick_run s i t hsel h0]
        simp only [h0, if_false, add_zero]
      · intro h; exact absurd h h0
      · intro _; exact ⟨rfl, rfl, rfl, rfl⟩

theorem srtf_tick_time (s : SrtfState) : (srtf_tick s).time = s.time + 1 := by
  rcases srtf_tick_cases s with ⟨_, h⟩ | ⟨i, t, t1, ev, _, h, _⟩ <;> rw [h]

theorem srtf_tick_length (s : SrtfState) : (srtf_tick s).tasks.length = s.tasks.length := by
  rcases srtf_tick_cases s with ⟨_, h⟩ | ⟨i, t, t1, ev, _, h, _⟩
  · rw [h]
  · rw [h]; simp

theorem srtf_iter_time : ∀ (k : Nat) (s : SrtfState),
    (srtf_iter k s).completed < (srtf_iter k s).tasks.length →
      (srtf_iter k s).time = s.time + (k : Int) := by
  intro k
  induction k with
  | zero => intro s _; simp [srtf_iter]
  | succ k ih =>
    intro s h
    unfold srtf_iter at h ⊢
    by_cases hc : s.completed < s.tasks.length
    · rw [if_pos hc] at h ⊢
      rw [ih _ h, srtf_tick_time]
      push_cast; ring
    · rw [if_neg hc] at h
      exact absurd h hc

/-- C1: at every tick that `simulate_srtf` processes (iteration `k` of its loop, clock `k`),
if some task is ready the running event of the tick names a ready task whose
`remaining_time` is least among the ready tasks and which has the lowest registry index among
those of least `remaining_time`; if none is ready the event of the tick is idle.  Tasks
`[(1,0,8),(2,1,4)]` give pid 1 at tick 0, pid 2 at ticks 1-4 (finish 5), pid 1 at ticks 5-11
(finish 12). -/
theorem srtf_decision_rule (tasks : List Task) (k : Nat)
    (hrun : (srtf_iter k (srtf_init tasks)).completed
      < (srtf_iter k (srtf_init tasks)).tasks.length) :
    (srtf_iter k (srtf_init tasks)).time = (k : Int)
    ∧ ((∃ u ∈ (srtf_iter k (srtf_init tasks)).tasks, u.ready (k : Int)) →
        ∃ (i : Nat) (t : Task),
          (srtf_iter k (srtf_init tasks)).tasks[i]? = some t ∧ t.ready (k : Int)
          ∧ (∀ (j : Nat) (u : Task),
              (srtf_iter k (srtf_init tasks)).tasks[j]? = some u → u.ready (k : Int) →
              t.remaining_time ≤ u.remaining_time
                ∧ (u.remaining_time = t.remaining_time → i ≤ j))
          ∧ (srtf_tick (srtf_iter k (srtf_init tasks))).events
              = (srtf_iter k (srtf_init tasks)).events
                ++ (Event.running (k : Int) t.pid ::
                    if t.remaining_time = 1 then [Event.finished ((k : Int) + 1) t.pid]
                    else []))
    ∧ ((∀ u ∈ (srtf_iter k (srtf_init tasks)).tasks, ¬ u.ready (k : Int)) →
        (srtf_tick (srtf_iter k (srtf_init tasks))).events
          = (srtf_iter k (srtf_init tasks)).events ++ [Event.idle (k : Int)])
    ∧ (simulate_srtf 12 scenario3).map (fun r => r.events)
        = some [Event.running 0 1, Event.running 1 2, Event.running 2 2, Event.running 3 2,
            Event.running 4 2, Event.finished 5 2, Event.running 5 1, Event.running 6 1,
            Event.running 7 1, Event.running 8 1, Event.running 9 1, Event.running 10 1,
            Event.running 11 1, Event.finished 12 1, Event.all_finished 12] := by
  have htime : (srtf_iter k (srtf_init tasks)).time = (k : Int) := by
    rw [srtf_iter_time k _ hrun]; simp [srtf_init]
  generalize srtf_iter k (srtf_init tasks) = s at hrun htime ⊢
  rw [← htime]
  refine ⟨rfl, ?_, ?_, by decide⟩
  · rintro ⟨u, hu, hru⟩
    cases hsel : srtf_scan s.time s.tasks 0 none with
    | none => exact absurd hru ((srtf_scan_none _ _ _ _ hsel).2 u hu)
    | some r =>
      obtain ⟨i, t⟩ := r
      obtain ⟨h1, h2, h3⟩ := srtf_select_some s i t hsel
      refine ⟨i, t, h1, h2, h3, ?_⟩
      by_cases hone : t.remaining_time = 1
      · have h0 : t.remaining_time - 1 = 0 := by omega
        rw [srtf_tick_done s i t hsel h0]
        simp [hone]
      · have h0 : ¬ t.remaining_time - 1 = 0 := by omega
        rw [srtf_tick_run s i t hsel h0]
        simp [hone]
  · intro hnone
    cases hsel : srtf_scan s.time s.tasks 0 none with
    | none => rw [srtf_tick_idle s hsel]
    | some r =>
      obtain ⟨i, t⟩ := r
      obtain ⟨h1, h2, _⟩ := srtf_select_some s i t hsel
      exact absurd h2 (hnone t (List.getElem?_mem h1))

/-- C1 at tick 1 of Scenario 3, where both tasks are ready and pid 2 is chosen. -/
theorem srtf_decision_rule_witness :
    (srtf_iter 1 (srtf_init scenario3)).completed
        < (srtf_iter 1 (srtf_init scenario3)).tasks.length
    ∧ (srtf_iter 1 (srtf_init scenario3)).time = 1
    ∧ (srtf_tick (srtf_iter 1 (srtf_init scenario3))).events
        = [Event.running 0 1, Event.running 1 2] :=
  ⟨by decide, (srtf_decision_rule scenario3 1 (by decide)).1, by decide⟩

/-! ## SRTF: invariant and termination -/

theorem sum_map_set (g : Task → Nat) : ∀ (l : List Task) (i : Nat) (a b : Task),
    l[i]? = some b → ((l.set i a).map g).sum + g b = (l.map g).sum + g a := by
  intro l
  induction l with
  | nil => intro i a b h; simp at h
  | cons x xs ih =>
    intro i a b h
    cases i with
    | zero =>
      have hx : x = b := by simpa using h
      subst hx
      simp only [List.set_cons_zero, List.map_cons, List.sum_cons]
      omega
    | succ i =>
      have h' : xs[i]? = some b := by simpa using h
      have := ih i a b h'
      simp only [List.set_cons_succ, List.map_cons, List.sum_cons]
      omega

theorem map_set_same {β : Type} (f : Task → β) : ∀ (l : List Task) (i : Nat) (a b : Task),
    l[i]? = some b → f a = f b → (l.set i a).map f = l.map f := by
  intro l
  induction l with
  | nil => intro i a b h; simp at h
  | cons x xs ih =>
    intro i a b h hf
    cases i with
    | zero =>
      have hx : x = b := by simpa using h
      subst hx
      simp [hf]
    | succ i =>
      have h' : xs[i]? = some b := by simpa using h
      simp [ih i a b h' hf]

theorem le_last_arrival : ∀ (l : List Task) (t : Task), t ∈ l →
    t.arrival_time.toNat ≤ last_arrival l := by
  intro l
  induction l with
  | nil => intro t h; simp at h
  | cons x xs ih =>
    intro t h
    unfold last_arrival
    simp only [List.map_cons, List.foldr_cons]
    rcases List.mem_cons.mp h with rfl | h
    · exact le_max_left _ _
    · exact le_trans (ih t h) (le_max_right _ _)

theorem done_count_le : ∀ (l : List Task), done_count l ≤ l.length := by
  intro l
  induction l with
  | nil => simp [done_count]
  | cons x xs ih =>
    unfold done_count at ih ⊢
    simp only [List.map_cons, List.sum_cons, List.length_cons]
    split <;> omega

theorem done_count_full : ∀ (l : List Task), l.length ≤ done_count l →
    ∀ t ∈ l, t.remaining_time = 0 := by
  intro l
  induction l with
  | nil => intro _ t h; simp at h
  | cons x xs ih =>
    intro hl t ht
    have hxs := done_count_le xs
    unfold done_count at hl hxs ih
    simp only [List.map_cons, List.sum_cons, List.length_cons] at hl
    by_cases hx : x.remaining_time = 0
    · rw [if_pos hx] at hl
      rcases List.mem_cons.mp ht with rfl | ht
      · exact hx
      · exact ih (by omega) t ht
    · rw [if_neg hx] at hl
      omega

theorem done_count_short : ∀ (l : List Task), done_count l < l.length →
    ∃ t ∈ l, t.remaining_time ≠ 0 := by
  intro l
  induction l with
  | nil => intro h; simp [done_count] at h
  | cons x xs ih =>
    intro hl
    by_cases hx : x.remaining_time = 0
    · unfold done_count at hl ih
      simp only [List.map_cons, List.sum_cons, List.length_cons, hx, if_true] at hl
      obtain ⟨t, ht, h⟩ := ih (by omega)
      exact ⟨t, List.mem_cons_of_mem _ ht, h⟩
    · exact ⟨x, List.mem_cons_self _ _, hx⟩

theorem work_left_pos (l : List Task) (t : Task) (ht : t ∈ l) (h : 0 < t.remaining_time) :
    0 < work_left l := by
  induction l with
  | nil => simp at ht
  | cons x xs ih =>
    unfold work_left at ih ⊢
    simp only [List.map_cons, List.sum_cons]
    rcases List.mem_cons.mp ht with rfl | ht
    · omega
    · have := ih ht; omega

theorem Task.on_track_mono (t : Task) (a b : Int) (hab : a ≤ b) (h : t.on_track a) :
    t.on_track b := by
  obtain ⟨h1, h2, h3, h4, h5, h6⟩ := h
  exact ⟨h1, h2, h3, h4, fun hlt => le_trans (h5 hlt) hab, h6⟩

theorem srtf_tick_inv (s : SrtfState) (h : s.inv) : (srtf_tick s).inv := by
  obtain ⟨hall, hcount⟩ := h
  rcases srtf_tick_cases s with ⟨_, htick⟩ | ⟨i, t, t1, ev, hsel, htick, _, harr, hburst, hrem,
    _, hfin, _⟩
  · rw [htick]
    exact ⟨fun x hx => Task.on_track_mono x _ _ (by simp) (hall x hx), hcount⟩
  · obtain ⟨hget, hready, _⟩ := srtf_select_some s i t hsel
    obtain ⟨hr1, hr2⟩ := hready
    obtain ⟨h1, h2, h3, h4, h5, _⟩ := hall t (List.getElem?_mem hget)
    rw [htick]
    constructor
    · intro x hx
      simp only at hx ⊢
      rcases List.mem_or_eq_of_mem_set hx with hx | rfl
      · exact Task.on_track_mono x _ _ (by omega) (hall x hx)
      · have hspan : x.remaining_time < x.burst_time →
            x.arrival_time + (x.burst_time - x.remaining_time) ≤ s.time + 1 := by
          intro _
          by_cases hlt : t.remaining_time < t.burst_time
          · have := h5 hlt; omega
          · omega
        refine ⟨by omega, by omega, by omega, by omega, hspan, ?_⟩
        intro h0
        obtain ⟨hf1, hf2, hf3, hf4⟩ := hfin h0
        have := hspan (by omega)
        exact ⟨by omega, hf2, hf3, hf4⟩
    · simp only
      have hsum := sum_map_set (fun t => if t.remaining_time = 0 then 1 else 0) s.tasks i t1 t hget
      have ht0 : ¬ t.remaining_time = 0 := by omega
      simp only [ht0, if_false] at hsum
      unfold done_count at hcount ⊢
      rw [hcount]
      split
      · rename_i h0
        simp only [h0, if_true] at hsum
        omega
      · rename_i h0
        simp only [h0, if_false] at hsum
        omega

theorem srtf_tick_measure (s : SrtfState) (h : s.inv)
    (hc : s.completed < s.tasks.length) : (srtf_tick s).measure < s.measure := by
  obtain ⟨hall, hcount⟩ := h
  rcases srtf_tick_cases s with ⟨hsel, htick⟩ | ⟨i, t, t1, ev, hsel, htick, _, harr, _, hrem, _⟩
  · rw [htick]
    have hlt : done_count s.tasks < s.tasks.length := by
      rw [hcount] at hc; exact_mod_cast hc
    obtain ⟨t, ht, hne⟩ := done_count_short s.tasks hlt
    obtain ⟨h1, _, h3, _⟩ := hall t ht
    have hnr := (srtf_scan_none _ _ _ _ hsel).2 t ht
    have hlate : s.time < t.arrival_time := by
      by_contra hcon
      exact hnr ⟨by omega, by omega⟩
    have hla := le_last_arrival s.tasks t ht
    unfold SrtfState.measure
    simp only
    omega
  · obtain ⟨hget, hready, _⟩ := srtf_select_some s i t hsel
    obtain ⟨hr1, hr2⟩ := hready
    rw [htick]
    unfold SrtfState.measure
    simp only
    have hwork := sum_map_set (fun t => t.remaining_time.toNat) s.tasks i t1 t hget
    have hmap := map_set_same (fun t => t.arrival_time.toNat) s.tasks i t1 t hget
      (by simp only [harr])
    unfold work_left last_arrival
    rw [hmap]
    simp only at hwork
    omega

theorem srtf_iter_inv : ∀ (k : Nat) (s : SrtfState), s.inv → (srtf_iter k s).inv := by
  intro k
  induction k with
  | zero => intro s h; exact h
  | succ k ih =>
    intro s h
    unfold srtf_iter
    split
    · exact ih _ (srtf_tick_inv s h)
    · exact h

theorem srtf_iter_finishes : ∀ (k : Nat) (s : SrtfState), s.inv → s.measure ≤ k →
    ¬ (srtf_iter k s).completed < (srtf_iter k s).tasks.length := by
  intro k
  induction k with
  | zero =>
    intro s h hk hc
    simp only [srtf_iter] at hc
    have := srtf_tick_measure s h hc
    omega
  | succ k ih =>
    intro s h hk
    unfold srtf_iter
    by_cases hc : s.completed < s.tasks.length
    · rw [if_pos hc]
      have := srtf_tick_measure s h hc
      exact ih _ (srtf_tick_inv s h) (by omega)
    · rw [if_neg hc]; exact hc

theorem srtf_iter_stable : ∀ (k m : Nat) (s : SrtfState),
    ¬ (srtf_iter k s).completed < (srtf_iter k s).tasks.length →
      srtf_iter (k + m) s = srtf_iter k s := by
  intro k
  induction k with
  | zero =>
    intro m s h
    simp only [srtf_iter] at h
    cases m with
    | zero => rfl
    | succ m => simp only [Nat.zero_add, srtf_iter, h, if_false]
  | succ k ih =>
    intro m s h
    have hkm : k + 1 + m = (k + m) + 1 := by omega
    rw [hkm]
    by_cases hc : s.completed < s.tasks.length
    · simp only [srtf_iter, hc, if_true] at h ⊢
      exact ih m _ h
    · simp only [srtf_iter, hc, if_false]

theorem srtf_init_inv (tasks : List Task)
    (h : ∀ t ∈ tasks, 0 ≤ t.arrival_time ∧ 1 ≤ t.burst_time
      ∧ t.remaining_time = t.burst_time ∧ t.start_time = -1) : (srtf_init tasks).inv := by
  constructor
  · intro t ht
    obtain ⟨h1, h2, h3, _⟩ := h t ht
    exact ⟨h1, h2, by omega, by omega, fun hlt => by omega, fun h0 => by omega⟩
  · simp only [srtf_init]
    have : done_count tasks = 0 := by
      unfold done_count
      apply List.sum_eq_zero
      intro x hx
      simp only [List.mem_map] at hx
      obtain ⟨t, ht, rfl⟩ := hx
      obtain ⟨_, h2, h3, _⟩ := h t ht
      have : ¬ t.remaining_time = 0 := by omega
      simp [this]
    rw [this]; rfl

theorem srtf_init_measure (tasks : List Task) :
    (srtf_init tasks).measure = srtf_fuel tasks := by
  unfold SrtfState.measure srtf_fuel work_left last_arrival srtf_init
  simp only [sub_zero, Int.toNat_ofNat]
  omega

theorem srtf_iter_unique (a b : Nat) (s : SrtfState)
    (ha : ¬ (srtf_iter a s).completed < (srtf_iter a s).tasks.length)
    (hb : ¬ (srtf_iter b s).completed < (srtf_iter b s).tasks.length) :
    srtf_iter a s = srtf_iter b s := by
  rw [← srtf_iter_stable a b s ha, ← srtf_iter_stable b a s hb, Nat.add_comm]

theorem simulate_srtf_unique (a b : Nat) (tasks : List Task) (r r' : Run)
    (ha : simulate_srtf a tasks = some r) (hb : simulate_srtf b tasks = some r') : r' = r := by
  unfold simulate_srtf at ha hb
  simp only at ha hb
  split at ha
  · cases ha
  · rename_i hda
    split at hb
    · cases hb
    · rename_i hdb
      rw [srtf_iter_unique a b _ hda hdb] at ha
      rw [ha] at hb
      exact (Option.some.inj hb).symm

theorem simulate_srtf_returns (tasks : List Task)
    (h : ∀ t ∈ tasks, 0 ≤ t.arrival_time ∧ 1 ≤ t.burst_time
      ∧ t.remaining_time = t.burst_time ∧ t.start_time = -1) :
    ∃ r, simulate_srtf (srtf_fuel tasks) tasks = some r
      ∧ (∀ t ∈ r.tasks, t.remaining_time = 0 ∧ t.on_track r.time) := by
  have hinv := srtf_init_inv tasks h
  have hfin := srtf_iter_finishes (srtf_fuel tasks) (srtf_init tasks) hinv
    (le_of_eq (srtf_init_measure tasks))
  have hinv' := srtf_iter_inv (srtf_fuel tasks) (srtf_init tasks) hinv
  unfold simulate_srtf
  simp only [hfin, if_false]
  refine ⟨_, rfl, ?_⟩
  intro t ht
  simp only at ht ⊢
  obtain ⟨hall, hcount⟩ := hinv'
  have hfull : (srtf_iter (srtf_fuel tasks) (srtf_init tasks)).tasks.length
      ≤ done_count (srtf_iter (srtf_fuel tasks) (srtf_init tasks)).tasks := by
    rw [hcount] at hfin
    have := not_lt.mp hfin
    exact_mod_cast this
  exact ⟨done_count_full _ hfull t ht, hall t ht⟩

/-- No task finishes early under `simulate_srtf` computed in unbounded integers. -/
theorem srtf_never_early_unbounded (tasks : List Task)
    (h : ∀ t ∈ tasks, 0 ≤ t.arrival_time ∧ 1 ≤ t.burst_time
      ∧ t.remaining_time = t.burst_time ∧ t.start_time = -1) :
    ∃ r, simulate_srtf (srtf_fuel tasks) tasks = some r
      ∧ (∀ fuel r', simulate_srtf fuel tasks = some r' → r' = r)
      ∧ ∀ t ∈ r.tasks,
          t.arrival_time + t.burst_time ≤ t.finish_time
          ∧ t.waiting_time = t.finish_time - t.arrival_time - t.burst_time
          ∧ 0 ≤ t.waiting_time := by
  obtain ⟨r, hr, hall⟩ := simulate_srtf_returns tasks h
  refine ⟨r, hr, fun fuel r' h' => simulate_srtf_unique _ _ tasks r r' hr h', ?_⟩
  intro t ht
  obtain ⟨h0, _, _, _, _, _, h6⟩ := hall t ht
  obtain ⟨h7, h8, h9, _⟩ := h6 h0
  exact ⟨h7, by omega, by omega⟩

/-! ## Round-Robin: what the scans leave unchanged -/

theorem rr_admit_plain_frame (s s' : RRState) (i : Nat) (h : rr_admit_plain s i = some s') :
    s'.tasks = s.tasks ∧ s'.time = s.time ∧ s'.tasks_left = s.tasks_left
      ∧ s'.front = s.front ∧ s'.events = s.events := by
  unfold rr_admit_plain at h
  split at h
  · cases h; exact ⟨rfl, rfl, rfl, rfl, rfl⟩
  · cases h

theorem rr_admit_wrap_frame (s s' : RRState) (i : Nat) (h : rr_admit_wrap s i = some s') :
    s'.tasks = s.tasks ∧ s'.time = s.time ∧ s'.tasks_left = s.tasks_left
      ∧ s'.front = s.front ∧ s'.events = s.events := by
  unfold rr_admit_wrap at h
  split at h
  · cases h; exact ⟨rfl, rfl, rfl, rfl, rfl⟩
  · cases h

theorem rr_requeue_frame (s s' : RRState) (i : Nat) (h : rr_requeue s i = some s') :
    s'.tasks = s.tasks ∧ s'.time = s.time ∧ s'.tasks_left = s.tasks_left
      ∧ s'.front = s.front ∧ s'.events = s.events ∧ s'.in_queue = s.in_queue := by
  unfold rr_requeue at h
  split at h
  · cases h; exact ⟨rfl, rfl, rfl, rfl, rfl, rfl⟩
  · cases h

theorem rr_scan_initial_frame : ∀ (is : List Nat) (s s' : RRState),
    rr_scan_initial is s = some s' →
      s'.tasks = s.tasks ∧ s'.time = s.time ∧ s'.tasks_left = s.tasks_left
        ∧ s'.front = s.front ∧ s'.events = s.events := by
  intro is
  induction is with
  | nil => intro s s' h; cases h; exact ⟨rfl, rfl, rfl, rfl, rfl⟩
  | cons i is ih =>
    intro s s' h
    unfold rr_scan_initial at h
    split at h
    · cases h
    · split at h
      · cases hadm : rr_admit_plain s i with
        | none => rw [hadm] at h; cases h
        | some s1 =>
          rw [hadm] at h
          obtain ⟨a1, a2, a3, a4, a5⟩ := rr_admit_plain_frame s s1 i hadm
          obtain ⟨b1, b2, b3, b4, b5⟩ := ih s1 s' h
          exact ⟨b1.trans a1, b2.trans a2, b3.trans a3, b4.trans a4, b5.trans a5⟩
      · exact ih s s' h

theorem rr_scan_idle_frame : ∀ (is : List Nat) (s s' : RRState),
    rr_scan_idle is s = some s' →
      s'.tasks = s.tasks ∧ s'.time = s.time ∧ s'.tasks_left = s.tasks_left
        ∧ s'.front = s.front ∧ s'.events = s.events := by
  intro is
  induction is with
  | nil => intro s s' h; cases h; exact ⟨rfl, rfl, rfl, rfl, rfl⟩
  | cons i is ih =>
    intro s s' h
    unfold rr_scan_idle at h
    split at h
    · cases h
    · split at h
      · split at h
        · cases h
        · split at h
          · exact ih s s' h
          · cases hadm : rr_admit_plain s i with
            | none => rw [hadm] at h; cases h
            | some s1 =>
              rw [hadm] at h
              obtain ⟨a1, a2, a3, a4, a5⟩ := rr_admit_plain_frame s s1 i hadm
              obtain ⟨b1, b2, b3, b4, b5⟩ := ih s1 s' h
              exact ⟨b1.trans a1, b2.trans a2, b3.trans a3, b4.trans a4, b5.trans a5⟩
      · exact ih s s' h

theorem rr_scan_arrivals_frame : ∀ (js : List Nat) (s s' : RRState),
    rr_scan_arrivals js s = some s' →
      s'.tasks = s.tasks ∧ s'.time = s.time ∧ s'.tasks_left = s.tasks_left
        ∧ s'.front = s.front ∧ s'.events = s.events := by
  intro js
  induction js with
  | nil => intro s s' h; cases h; exact ⟨rfl, rfl, rfl, rfl, rfl⟩
  | cons j js ih =>
    intro s s' h
    unfold rr_scan_arrivals at h
    split at h
    · cases h
    · split at h
      · split at h
        · cases h
        · split at h
          · exact ih s s' h
          · split at h
            · cases hadm : rr_admit_wrap s j with
              | none => rw [hadm] at h; cases h
              | some s1 =>
                rw [hadm] at h
                obtain ⟨a1, a2, a3, a4, a5⟩ := rr_admit_wrap_frame s s1 j hadm
                obtain ⟨b1, b2, b3, b4, b5⟩ := ih s1 s' h
                exact ⟨b1.trans a1, b2.trans a2, b3.trans a3, b4.trans a4, b5.trans a5⟩
            · exact ih s s' h
      · exact ih s s' h

/-! ## Round-Robin: one iteration of the loop -/

theorem rr_slice_cases (time_quantum : Int) (s s' : RRState)
    (h : rr_slice time_quantum s = some s') :
    ∃ (i : Nat) (t : Task) (s2 : RRState),
      s.queue[s.front]? = some (some i) ∧ s.tasks[i]? = some t
      ∧ rr_scan_arrivals (List.range s.tasks.length) (rr_after_run time_quantum s i t) = some s2
      ∧ (((rr_after_slice time_quantum s.time t).remaining_time = 0
          ∧ s' = { s2 with
              tasks := s2.tasks.set i
                (rr_record_finish s2.time (rr_after_slice time_quantum s.time t)),
              tasks_left := s2.tasks_left - 1,
              events := s2.events ++ [Event.finished s2.time t.pid] })
        ∨ ((rr_after_slice time_quantum s.time t).remaining_time ≠ 0
          ∧ rr_requeue s2 i = some s')) := by
  unfold rr_slice at h
  split at h
  · cases h
  · cases h
  · rename_i i hq
    split at h
    · cases h
    · rename_i t ht
      split at h
      · cases h
      · rename_i s2 hs2
        refine ⟨i, t, s2, hq, ht, hs2, ?_⟩
        unfold rr_finish_or_requeue at h
        by_cases h0 : (rr_after_slice time_quantum s.time t).remaining_time = 0
        · rw [if_pos h0] at h
          left
          refine ⟨h0, ?_⟩
          cases h
          rfl
        · rw [if_neg h0] at h
          exact Or.inr ⟨h0, h⟩

theorem rr_idle_cases (below : Int → Bool) (s s' : RRState) (h : rr_idle below s = some s') :
    below (s.time + 1) = false
    ∧ rr_scan_idle (List.range s.tasks.length)
        { s with events := s.events ++ [Event.idle s.time], time := s.time + 1 } = some s' := by
  unfold rr_idle at h
  simp only at h
  split at h
  · cases h
  · rename_i hb
    exact ⟨by simpa using hb, h⟩

/-! ## Round-Robin: the ready queue -/

theorem nodup_bounded_length (L : List Nat) (n : Nat) (hnd : L.Nodup)
    (hb : ∀ x ∈ L, x < n) : L.length ≤ n := by
  have hsub : L.toFinset ⊆ Finset.range n := by
    intro x hx
    rw [List.mem_toFinset] at hx
    exact Finset.mem_range.mpr (hb x hx)
  have hcard := Finset.card_le_card hsub
  rw [List.toFinset_card_of_nodup hnd, Finset.card_range] at hcard
  exact hcard

theorem queue_holds_enqueue (s : RRState) (L : List Nat) (j r' : Nat) (fl' : List Bool)
    (h : s.queue_holds L) (hj : j < s.tasks.length) (hnot : j ∉ L) (hrear : s.rear < 100)
    (hr1 : r' ≤ 100) (hr2 : r' % 100 = (s.rear + 1) % 100) (hlen : fl'.length = 100)
    (hmono : ∀ x ∈ L, fl'[x]? = some true) (hflag : fl'[j]? = some true) :
    RRState.queue_holds
      { s with queue := s.queue.set s.rear (some j), rear := r', in_queue := fl' }
      (L ++ [j]) := by
  obtain ⟨hq, _, hn, hf, hnd, hmem, hreg⟩ := h
  have hnd' : (L ++ [j]).Nodup := by
    rw [List.nodup_append]
    refine ⟨hnd, List.nodup_singleton j, ?_⟩
    intro x hx hx'
    rw [List.mem_singleton] at hx'
    subst hx'
    exact hnot hx
  have hmem' : ∀ x ∈ L ++ [j], x < s.tasks.length := by
    intro x hx
    rcases List.mem_append.mp hx with hx | hx
    · exact (hmem x hx).1
    · rw [List.mem_singleton] at hx; subst hx; exact hj
  have hlen' : (L ++ [j]).length ≤ 100 :=
    le_trans (nodup_bounded_length _ _ hnd' hmem') hn
  have hL : L.length ≤ 99 := by
    simp only [List.length_append, List.length_singleton] at hlen'
    omega
  refine ⟨by simp [hq], hlen, hn, hf, hnd', ?_, ?_⟩
  · intro x hx
    rcases List.mem_append.mp hx with hx | hx
    · exact ⟨(hmem x hx).1, hmono x hx⟩
    · rw [List.mem_singleton] at hx; subst hx; exact ⟨hj, hflag⟩
  · rcases hreg with ⟨hr, hmod, hslots⟩ | ⟨hr, _⟩
    · left
      refine ⟨hr1, ?_, ?_⟩
      · simp only [List.length_append, List.length_singleton]
        omega
      · intro k x hk
        simp only
        by_cases hkl : k < L.length
        · rw [List.getElem?_append_left hkl] at hk
          have hne : s.rear ≠ (s.front + k) % 100 := by omega
          rw [List.getElem?_set_ne hne]
          exact hslots k x hk
        · have hk' : k = L.length := by
            have : k < (L ++ [j]).length := by
              rcases Nat.lt_or_ge k (L ++ [j]).length with h1 | h1
              · exact h1
              · rw [List.getElem?_eq_none h1] at hk; cases hk
            simp only [List.length_append, List.length_singleton] at this
            omega
          subst hk'
          have hx : x = j := by
            simpa using hk.symm
          subst hx
          have hslot : (s.front + L.length) % 100 = s.rear := by omega
          rw [hslot]
          exact List.getElem?_set_self (by omega)
    · omega

theorem covered_enqueue (s : RRState) (L : List Nat) (skip : Option Nat) (j r' : Nat)
    (q' : List (Option Nat)) (h : s.covered L skip) :
    RRState.covered
      { s with queue := q', rear := r', in_queue := s.in_queue.set j true } (L ++ [j]) skip := by
  intro x u hx hfl hpos hskip
  simp only at hx hfl
  by_cases hxj : x = j
  · subst hxj; simp
  · rw [List.getElem?_set_ne (fun e => hxj e.symm)] at hfl
    exact List.mem_append_left _ (h x u hx hfl hpos hskip)

theorem queue_holds_admission (s : RRState) (L : List Nat) (j r' : Nat)
    (h : s.queue_holds L) (hj : j < s.tasks.length) (hfl : s.in_queue[j]? = some false)
    (hrear : s.rear < 100) (hr1 : r' ≤ 100) (hr2 : r' % 100 = (s.rear + 1) % 100) :
    RRState.queue_holds
      { s with queue := s.queue.set s.rear (some j), rear := r',
               in_queue := s.in_queue.set j true }
      (L ++ [j]) := by
  have hnot : j ∉ L := by
    intro hmem
    have := (h.2.2.2.2.2.1 j hmem).2
    rw [hfl] at this
    cases this
  have hjlen : j < s.in_queue.length := by
    rcases Nat.lt_or_ge j s.in_queue.length with h1 | h1
    · exact h1
    · rw [List.getElem?_eq_none h1] at hfl; cases hfl
  apply queue_holds_enqueue s L j r' _ h hj hnot hrear hr1 hr2
  · simp [h.2.1]
  · intro x hx
    have hxj : j ≠ x := fun e => hnot (e ▸ hx)
    rw [List.getElem?_set_ne hxj]
    exact (h.2.2.2.2.2.1 x hx).2
  · exact List.getElem?_set_self hjlen

theorem rr_admit_wrap_eq (s s' : RRState) (j : Nat) (h : rr_admit_wrap s j = some s') :
    s.rear < s.queue.length ∧ j < s.in_queue.length
      ∧ s' = { s with queue := s.queue.set s.rear (some j), rear := (s.rear + 1) % 100,
                      in_queue := s.in_queue.set j true } := by
  unfold rr_admit_wrap at h
  split at h
  · rename_i hc
    cases h
    exact ⟨hc.1, hc.2, rfl⟩
  · cases h

theorem rr_admit_plain_eq (s s' : RRState) (j : Nat) (h : rr_admit_plain s j = some s') :
    s.rear < s.queue.length ∧ j < s.in_queue.length
      ∧ s' = { s with queue := s.queue.set s.rear (some j), rear := s.rear + 1,
                      in_queue := s.in_queue.set j true } := by
  unfold rr_admit_plain at h
  split at h
  · rename_i hc
    cases h
    exact ⟨hc.1, hc.2, rfl⟩
  · cases h

/-- What one admission does to the invariant: the admitted index is appended to the list the
buffer holds. -/
theorem admit_holds (s s' : RRState) (L : List Nat) (skip : Option Nat) (j : Nat)
    (h : s.queue_holds L) (hc : s.covered L skip) (hj : j < s.tasks.length)
    (hfl : s.in_queue[j]? = some false)
    (hadm : rr_admit_wrap s j = some s' ∨ rr_admit_plain s j = some s') :
    s'.queue_holds (L ++ [j]) ∧ s'.covered (L ++ [j]) skip ∧ s.rear < 100
      ∧ s'.in_queue = s.in_queue.set j true ∧ s'.tasks = s.tasks ∧ s'.time = s.time := by
  have hq : s.queue.length = 100 := h.1
  rcases hadm with hadm | hadm
  · obtain ⟨h1, _, rfl⟩ := rr_admit_wrap_eq s s' j hadm
    rw [hq] at h1
    refine ⟨queue_holds_admission s L j _ h hj hfl h1 ?_ ?_, covered_enqueue s L skip j _ _ hc,
      h1, rfl, rfl, rfl⟩
    · omega
    · omega
  · obtain ⟨h1, _, rfl⟩ := rr_admit_plain_eq s s' j hadm
    rw [hq] at h1
    refine ⟨queue_holds_admission s L j _ h hj hfl h1 ?_ ?_, covered_enqueue s L skip j _ _ hc,
      h1, rfl, rfl, rfl⟩
    · omega
    · omega

theorem flag_set_mono (fl : List Bool) (j x : Nat) (hfl : fl[j]? = some false)
    (hx : fl[x]? = some true) : (fl.set j true)[x]? = some true := by
  have hne : j ≠ x := by
    intro e; subst e; rw [hfl] at hx; cases hx
  rw [List.getElem?_set_ne hne]; exact hx

theorem flag_set_unset (fl : List Bool) (j x : Nat) (hfl : fl[j]? = some false)
    (hx : (fl.set j true)[x]? = some false) : fl[x]? = some false := by
  by_cases e : j = x
  · subst e; exact hfl
  · rw [List.getElem?_set_ne e] at hx; exact hx

theorem flag_set_self (fl : List Bool) (j : Nat) (hfl : fl[j]? = some false) :
    (fl.set j true)[j]? = some true := by
  have hjlen : j < fl.length := by
    rcases Nat.lt_or_ge j fl.length with h1 | h1
    · exact h1
    · rw [List.getElem?_eq_none h1] at hfl; cases hfl
  exact List.getElem?_set_self hjlen

theorem rr_scan_arrivals_holds : ∀ (js : List Nat) (s s' : RRState) (L : List Nat)
    (skip : Option Nat), s.queue_holds L → s.covered L skip →
    (∀ j ∈ js, j < s.tasks.length) → rr_scan_arrivals js s = some s' →
    ∃ adm : List Nat, s'.queue_holds (L ++ adm) ∧ s'.covered (L ++ adm) skip
      ∧ (∀ x : Nat, s.in_queue[x]? = some true → s'.in_queue[x]? = some true)
      ∧ (∀ x ∈ adm, s.in_queue[x]? = some false)
      ∧ ((adm = [] ∧ s'.rear = s.rear) ∨ s.rear < 100)
      ∧ (∀ j ∈ js, ∀ u : Task, s.tasks[j]? = some u → u.arrival_time ≤ s.time →
          0 < u.remaining_time → s'.in_queue[j]? = some true) := by
  intro js
  induction js with
  | nil =>
    intro s s' L skip h hc _ hscan
    cases hscan
    exact ⟨[], by simpa using h, by simpa using hc, fun x hx => hx, by simp, Or.inl ⟨rfl, rfl⟩,
      by simp⟩
  | cons j js ih =>
    intro s s' L skip h hc hjs hscan
    have hjs' : ∀ x ∈ js, x < s.tasks.length := fun x hx => hjs x (List.mem_cons_of_mem _ hx)
    unfold rr_scan_arrivals at hscan
    cases ht : s.tasks[j]? with
    | none => rw [ht] at hscan; cases hscan
    | some t =>
      rw [ht] at hscan
      simp only at hscan
      by_cases harr : t.arrival_time ≤ s.time
      · rw [if_pos harr] at hscan
        cases hflag : s.in_queue[j]? with
        | none => rw [hflag] at hscan; cases hscan
        | some flag =>
          rw [hflag] at hscan
          simp only at hscan
          cases flag with
          | true =>
            simp only [if_true] at hscan
            obtain ⟨adm, a1, a2, a3, a4, a5, a6⟩ := ih s s' L skip h hc hjs' hscan
            refine ⟨adm, a1, a2, a3, a4, a5, ?_⟩
            intro x hx u hu hua hur
            rcases List.mem_cons.mp hx with rfl | hx
            · exact a3 x hflag
            · exact a6 x hx u hu hua hur
          | false =>
            simp only [Bool.false_eq_true, if_false] at hscan
            by_cases hrem : t.remaining_time > 0
            · rw [if_pos hrem] at hscan
              cases hadm : rr_admit_wrap s j with
              | none => rw [hadm] at hscan; cases hscan
              | some s1 =>
                rw [hadm] at hscan
                obtain ⟨b1, b2, b3, b4, b5, b6⟩ :=
                  admit_holds s s1 L skip j h hc (hjs j (List.mem_cons_self _ _)) hflag
                    (Or.inl hadm)
                obtain ⟨adm, a1, a2, a3, a4, a5, a6⟩ :=
                  ih s1 s' (L ++ [j]) skip b1 b2 (by rw [b5]; exact hjs') hscan
                refine ⟨j :: adm, by simpa using a1, by simpa using a2, ?_, ?_, Or.inr b3, ?_⟩
                · intro x hx
                  apply a3
                  rw [b4]
                  exact flag_set_mono _ _ _ hflag hx
                · intro x hx
                  rcases List.mem_cons.mp hx with rfl | hx
                  · exact hflag
                  · have := a4 x hx
                    rw [b4] at this
                    exact flag_set_unset _ _ _ hflag this
                · intro x hx u hu hua hur
                  rcases List.mem_cons.mp hx with rfl | hx
                  · apply a3
                    rw [b4]
                    exact flag_set_self _ _ hflag
                  · exact a6 x hx u (by rw [b5]; exact hu) (by rw [b6]; exact hua) hur
            · rw [if_neg hrem] at hscan
              obtain ⟨adm, a1, a2, a3, a4, a5, a6⟩ := ih s s' L skip h hc hjs' hscan
              refine ⟨adm, a1, a2, a3, a4, a5, ?_⟩
              intro x hx u hu hua hur
              rcases List.mem_cons.mp hx with rfl | hx
              · rw [ht] at hu; cases hu; exact absurd hur hrem
              · exact a6 x hx u hu hua hur
      · rw [if_neg harr] at hscan
        obtain ⟨adm, a1, a2, a3, a4, a5, a6⟩ := ih s s' L skip h hc hjs' hscan
        refine ⟨adm, a1, a2, a3, a4, a5, ?_⟩
        intro x hx u hu hua hur
        rcases List.mem_cons.mp hx with rfl | hx
        · rw [ht] at hu; cases hu; exact absurd hua harr
        · exact a6 x hx u hu hua hur

theorem rr_scan_idle_holds : ∀ (js : List Nat) (s s' : RRState) (L : List Nat)
    (skip : Option Nat), s.queue_holds L → s.covered L skip →
    (∀ j ∈ js, j < s.tasks.length) → rr_scan_idle js s = some s' →
    ∃ adm : List Nat, s'.queue_holds (L ++ adm) ∧ s'.covered (L ++ adm) skip := by
  intro js
  induction js with
  | nil =>
    intro s s' L skip h hc _ hscan
    cases hscan
    exact ⟨[], by simpa using h, by simpa using hc⟩
  | cons j js ih =>
    intro s s' L skip h hc hjs hscan
    have hjs' : ∀ x ∈ js, x < s.tasks.length := fun x hx => hjs x (List.mem_cons_of_mem _ hx)
    unfold rr_scan_idle at hscan
    cases ht : s.tasks[j]? with
    | none => rw [ht] at hscan; cases hscan
    | some t =>
      rw [ht] at hscan
      simp only at hscan
      by_cases harr : t.arrival_time = s.time
      · rw [if_pos harr] at hscan
        cases hflag : s.in_queue[j]? with
        | none => rw [hflag] at hscan; cases hscan
        | some flag =>
          rw [hflag] at hscan
          simp only at hscan
          cases flag with
          | true =>
            simp only [if_true] at hscan
            exact ih s s' L skip h hc hjs' hscan
          | false =>
            simp only [Bool.false_eq_true, if_false] at hscan
            cases hadm : rr_admit_plain s j with
            | none => rw [hadm] at hscan; cases hscan
            | some s1 =>
              rw [hadm] at hscan
              obtain ⟨b1, b2, _, _, b5, _⟩ :=
                admit_holds s s1 L skip j h hc (hjs j (List.mem_cons_self _ _)) hflag
                  (Or.inr hadm)
              obtain ⟨adm, a1, a2⟩ :=
                ih s1 s' (L ++ [j]) skip b1 b2 (by rw [b5]; exact hjs') hscan
              exact ⟨j :: adm, by simpa using a1, by simpa using a2⟩
      · rw [if_neg harr] at hscan
        exact ih s s' L skip h hc hjs' hscan

theorem rr_scan_initial_holds : ∀ (js : List Nat) (s s' : RRState) (L : List Nat)
    (skip : Option Nat), s.queue_holds L → s.covered L skip →
    (∀ j ∈ js, j < s.tasks.length) → js.Nodup → (∀ j ∈ js, s.in_queue[j]? = some false) →
    rr_scan_initial js s = some s' →
    ∃ adm : List Nat, s'.queue_holds (L ++ adm) ∧ s'.covered (L ++ adm) skip := by
  intro js
  induction js with
  | nil =>
    intro s s' L skip h hc _ _ _ hscan
    cases hscan
    exact ⟨[], by simpa using h, by simpa using hc⟩
  | cons j js ih =>
    intro s s' L skip h hc hjs hnd hfalse hscan
    have hjs' : ∀ x ∈ js, x < s.tasks.length := fun x hx => hjs x (List.mem_cons_of_mem _ hx)
    have hfalse' : ∀ x ∈ js, s.in_queue[x]? = some false :=
      fun x hx => hfalse x (List.mem_cons_of_mem _ hx)
    obtain ⟨hjn, hnd'⟩ := List.nodup_cons.mp hnd
    unfold rr_scan_initial at hscan
    cases ht : s.tasks[j]? with
    | none => rw [ht] at hscan; cases hscan
    | some t =>
      rw [ht] at hscan
      simp only at hscan
      by_cases harr : t.arrival_time = 0
      · rw [if_pos harr] at hscan
        have hflag := hfalse j (List.mem_cons_self _ _)
        cases hadm : rr_admit_plain s j with
        | none => rw [hadm] at hscan; cases hscan
        | some s1 =>
          rw [hadm] at hscan
          obtain ⟨b1, b2, _, b4, b5, _⟩ :=
            admit_holds s s1 L skip j h hc (hjs j (List.mem_cons_self _ _)) hflag
              (Or.inr hadm)
          obtain ⟨adm, a1, a2⟩ :=
            ih s1 s' (L ++ [j]) skip b1 b2 (by rw [b5]; exact hjs') hnd' (by
              intro x hx
              rw [b4]
              have hne : j ≠ x := fun e => hjn (e ▸ hx)
              rw [List.getElem?_set_ne hne]
              exact hfalse' x hx) hscan
          exact ⟨j :: adm, by simpa using a1, by simpa using a2⟩
      · rw [if_neg harr] at hscan
        exact ih s s' L skip h hc hjs' hnd' hfalse' hscan

theorem rr_init_inv (tasks : List Task) (hn : tasks.length ≤ 100) (s : RRState)
    (h : rr_init tasks = some s) : s.inv := by
  unfold rr_init at h
  have hrange : ∀ j ∈ List.range tasks.length, j < tasks.length :=
    fun j hj => List.mem_range.mp hj
  obtain ⟨adm, a1, a2⟩ := rr_scan_initial_holds (List.range tasks.length) _ s [] none
    (by
      refine ⟨by simp, by simp, hn, by simp, List.nodup_nil, by simp, Or.inl ⟨by simp, by simp, ?_⟩⟩
      intro k x hk; simp at hk)
    (by
      intro j u _ hfl _ _
      simp only [List.getElem?_replicate] at hfl
      split at hfl <;> cases hfl)
    hrange (List.nodup_range _)
    (by
      intro j hj
      have := hrange j hj
      simp only [List.getElem?_replicate]
      rw [if_pos (by omega)])
    h
  exact ⟨adm, by simpa using a1, by simpa using a2⟩

theorem rr_idle_inv (below : Int → Bool) (s s' : RRState) (h : s.inv)
    (hstep : rr_idle below s = some s') : s'.inv := by
  obtain ⟨L, h1, h2⟩ := h
  obtain ⟨_, hscan⟩ := rr_idle_cases below s s' hstep
  have g1 : RRState.queue_holds
      { s with events := s.events ++ [Event.idle s.time], time := s.time + 1 } L := h1
  have g2 : RRState.covered
      { s with events := s.events ++ [Event.idle s.time], time := s.time + 1 } L none := h2
  obtain ⟨adm, a1, a2⟩ := rr_scan_idle_holds (List.range s.tasks.length) _ s' L none
    g1 g2 (fun j hj => List.mem_range.mp hj) hscan
  exact ⟨L ++ adm, a1, a2⟩

theorem rr_dequeue_holds (time_quantum : Int) (s : RRState) (i : Nat) (t : Task)
    (hinv : s.inv) (hne : s.front ≠ s.rear) (hq : s.queue[s.front]? = some (some i)) :
    ∃ Lm : List Nat, (rr_after_run time_quantum s i t).queue_holds Lm
      ∧ (rr_after_run time_quantum s i t).covered Lm (some i) ∧ i ∉ Lm
      ∧ (s.in_queue[i]? = some true ∨ s.rear = 100) := by
  obtain ⟨L, ⟨hql, hfl, hn, hf, hnd, hmem, hreg⟩, hcov⟩ := hinv
  have hcov' : ∀ Lm : List Nat, (∀ j ∈ L, j ≠ i → j ∈ Lm) →
      (rr_after_run time_quantum s i t).covered Lm (some i) := by
    intro Lm hsub j u hj hflag hpos hskip
    have hji : j ≠ i := fun e => hskip (by rw [e])
    have hj' : s.tasks[j]? = some u := by
      simp only [rr_after_run] at hj
      rw [List.getElem?_set_ne (fun e => hji e.symm)] at hj
      exact hj
    exact hsub j (hcov j u hj' hflag hpos (by simp)) hji
  cases L with
  | nil =>
    have hrear : s.rear = 100 := by
      rcases hreg with ⟨hr, hmod, _⟩ | ⟨hr, _⟩
      · simp only [List.length_nil, Nat.add_zero] at hmod
        omega
      · exact hr
    refine ⟨[], ⟨hql, hfl, by simpa [rr_after_run] using hn, ?_, List.nodup_nil, by simp,
      Or.inr ⟨hrear, rfl⟩⟩, hcov' [] (by simp), by simp, Or.inr hrear⟩
    simp only [rr_after_run]
    omega
  | cons i0 L1 =>
    rcases hreg with ⟨hr, hmod, hslots⟩ | ⟨_, hnil⟩
    · have h0 := hslots 0 i0 (by simp)
      have hfront : (s.front + 0) % 100 = s.front := by omega
      rw [hfront, hq] at h0
      have hi : i = i0 := by
        simpa using h0
      subst hi
      obtain ⟨hnot, hnd1⟩ := List.nodup_cons.mp hnd
      refine ⟨L1, ⟨hql, hfl, by simpa [rr_after_run] using hn, ?_, hnd1, ?_, Or.inl ⟨hr, ?_, ?_⟩⟩,
        hcov' L1 ?_, hnot, Or.inl (hmem i (List.mem_cons_self _ _)).2⟩
      · simp only [rr_after_run]; omega
      · intro j hj
        have := hmem j (List.mem_cons_of_mem _ hj)
        simpa [rr_after_run] using this
      · simp only [rr_after_run, List.length_cons] at hmod ⊢
        omega
      · intro k x hk
        have := hslots (k + 1) x (by simpa using hk)
        have hidx : ((s.front + 1) % 100 + k) % 100 = (s.front + (k + 1)) % 100 := by omega
        simp only [rr_after_run]
        rw [hidx]
        exact this
      · intro j hj hji
        rcases List.mem_cons.mp hj with h | h
        · exact absurd h hji
        · exact h
    · cases hnil

theorem queue_holds_tasks (s : RRState) (L : List Nat) (ts : List Task) (tl : Int)
    (ev : List Event) (hlen : ts.length = s.tasks.length) (h : s.queue_holds L) :
    RRState.queue_holds { s with tasks := ts, tasks_left := tl, events := ev } L := by
  obtain ⟨h1, h2, h3, h4, h5, h6, h7⟩ := h
  exact ⟨h1, h2, by simpa [hlen] using h3, h4, h5, by simpa [hlen] using h6, h7⟩

/-- One slice step keeps the invariant; the task `i` it ran is afterwards either absent from
the head of the queue or alone in it, and every other task that is ready is flagged. -/
theorem rr_slice_inv (time_quantum : Int) (s s1 : RRState) (hinv : s.inv)
    (hne : s.front ≠ s.rear) (hstep : rr_slice time_quantum s = some s1) :
    ∃ (i : Nat) (t : Task) (L' : List Nat),
      s.queue[s.front]? = some (some i) ∧ s.tasks[i]? = some t
      ∧ s1.queue_holds L' ∧ s1.covered L' none ∧ (L'.head? ≠ some i ∨ L' = [i])
      ∧ (∀ (j : Nat) (u : Task), j ≠ i → s1.tasks[j]? = some u → u.arrival_time ≤ s1.time →
          0 < u.remaining_time → s1.in_queue[j]? = some true) := by
  obtain ⟨i, t, s2, hq, ht, hscan, hend⟩ := rr_slice_cases time_quantum s s1 hstep
  obtain ⟨Lm, hm1, hm2, hm3, hm4⟩ := rr_dequeue_holds time_quantum s i t hinv hne hq
  have hlen : (rr_after_run time_quantum s i t).tasks.length = s.tasks.length := by
    simp [rr_after_run]
  obtain ⟨adm, a1, a2, a3, a4, a5, a6⟩ :=
    rr_scan_arrivals_holds (List.range s.tasks.length) _ s2 Lm (some i) hm1 hm2
      (fun j hj => by rw [hlen]; exact List.mem_range.mp hj) hscan
  obtain ⟨f1, f2, _, _, _⟩ := rr_scan_arrivals_frame _ _ _ hscan
  have hflags : (rr_after_run time_quantum s i t).in_queue = s.in_queue := rfl
  have hrear : (rr_after_run time_quantum s i t).rear = s.rear := rfl
  have hi_not : i ∉ Lm ++ adm := by
    intro hmem
    rcases List.mem_append.mp hmem with h | h
    · exact hm3 h
    · have hun := a4 i h
      rw [hflags] at hun
      rcases hm4 with hfl | hr
      · rw [hfl] at hun; cases hun
      · rcases a5 with ⟨hnil, _⟩ | hlt
        · rw [hnil] at h; cases h
        · rw [hrear] at hlt; omega
  have hready : ∀ (j : Nat) (u : Task), j ≠ i → s2.tasks[j]? = some u →
      u.arrival_time ≤ s2.time → 0 < u.remaining_time → s2.in_queue[j]? = some true := by
    intro j u _ hu hua hur
    have hjn : j < s.tasks.length := by
      have : j < s2.tasks.length := by
        rcases Nat.lt_or_ge j s2.tasks.length with h1 | h1
        · exact h1
        · rw [List.getElem?_eq_none h1] at hu; cases hu
      rw [f1, hlen] at this
      exact this
    exact a6 j (List.mem_range.mpr hjn) u (by rw [← f1]; exact hu) (by rw [← f2]; exact hua) hur
  rcases hend with ⟨h0, rfl⟩ | ⟨h0, hreq⟩
  · refine ⟨i, t, Lm ++ adm, hq, ht, ?_, ?_, ?_, ?_⟩
    · exact queue_holds_tasks s2 _ _ _ _ (by simp) a1
    · intro j u hj hfl hpos _
      simp only at hj hfl
      by_cases hji : j = i
      · subst hji
        have hjl : j < s2.tasks.length := by
          rcases Nat.lt_or_ge j s2.tasks.length with h1 | h1
          · exact h1
          · rw [List.getElem?_eq_none (by simpa using h1)] at hj; cases hj
        rw [List.getElem?_set_self hjl] at hj
        cases hj
        simp only [rr_record_finish] at hpos
        rw [h0] at hpos
        exact absurd hpos (lt_irrefl 0)
      · rw [List.getElem?_set_ne (fun e => hji e.symm)] at hj
        exact a2 j u hj hfl hpos (by simpa using hji)
    · left
      intro hhead
      exact hi_not (List.mem_of_mem_head? hhead)
    · intro j u hji hu hua hur
      simp only at hu hua ⊢
      rw [List.getElem?_set_ne (fun e => hji e.symm)] at hu
      exact hready j u hji hu hua hur
  · unfold rr_requeue at hreq
    split at hreq
    · rename_i hrlt
      cases hreq
      have hq2 : s2.queue.length = 100 := a1.1
      rw [hq2] at hrlt
      have hiflag : s2.in_queue[i]? = some true := by
        apply a3
        rw [hflags]
        rcases hm4 with hfl | hr
        · exact hfl
        · rcases a5 with ⟨_, hsame⟩ | hlt
          · rw [hrear] at hsame; omega
          · rw [hrear] at hlt; omega
      have hin : i < s2.tasks.length := by
        rw [f1, hlen]
        rcases Nat.lt_or_ge i s.tasks.length with h1 | h1
        · exact h1
        · rw [List.getElem?_eq_none h1] at ht; cases ht
      refine ⟨i, t, (Lm ++ adm) ++ [i], hq, ht, ?_, ?_, ?_, ?_⟩
      · exact queue_holds_enqueue s2 (Lm ++ adm) i _ s2.in_queue a1 hin hi_not hrlt
          (by omega) (by omega) a1.2.1 (fun x hx => (a1.2.2.2.2.2.1 x hx).2) hiflag
      · intro j u hj hfl hpos _
        simp only at hj hfl
        by_cases hji : j = i
        · subst hji; simp
        · exact List.mem_append_left _ (a2 j u hj hfl hpos (by simpa using hji))
      · cases hL : Lm ++ adm with
        | nil => right; simp
        | cons x xs =>
          left
          intro hhead
          simp only [List.cons_append, List.head?_cons, Option.some.injEq] at hhead
          apply hi_not
          rw [hL, hhead]
          exact List.mem_cons_self _ _
      · intro j u hji hu hua hur
        exact hready j u hji hu hua hur
    · cases hreq

theorem rr_step_inv (below : Int → Bool) (time_quantum : Int) (s s' : RRState)
    (hinv : s.inv) (hstep : rr_step below time_quantum s = some s') : s'.inv := by
  unfold rr_step at hstep
  by_cases he : s.front = s.rear
  · rw [if_pos he] at hstep
    exact rr_idle_inv below s s' hinv hstep
  · rw [if_neg he] at hstep
    obtain ⟨_, _, L', _, _, h1, h2, _⟩ := rr_slice_inv time_quantum s s' hinv he hstep
    exact ⟨L', h1, h2⟩

theorem rr_iter_inv (below : Int → Bool) (time_quantum : Int) :
    ∀ (k : Nat) (s s' : RRState), s.inv → rr_iter below time_quantum k s = some s' →
      s'.inv := by
  intro k
  induction k with
  | zero => intro s s' h hs; cases hs; exact h
  | succ k ih =>
    intro s s' h hs
    unfold rr_iter at hs
    split at hs
    · cases hstep : rr_step below time_quantum s with
      | none => rw [hstep] at hs; cases hs
      | some s1 =>
        rw [hstep] at hs
        exact ih s1 s' (rr_step_inv below time_quantum s s1 h hstep) hs
    · cases hs; exact h

theorem rr_reached_inv (tasks : List Task) (hn : tasks.length ≤ 100) (below : Int → Bool)
    (time_quantum : Int) (k : Nat) (s : RRState)
    (hs : (rr_init tasks).bind (rr_iter below time_quantum k) = some s) : s.inv := by
  cases h0 : rr_init tasks with
  | none => rw [h0] at hs; cases hs
  | some s0 =>
    rw [h0] at hs
    exact rr_iter_inv below time_quantum k s0 s (rr_init_inv tasks hn s0 h0) hs

/-- What one iteration of the loop of `simulate_rr` does to the registry: nothing (idle), or
the record of the dequeued task is replaced by its record after the slice, with the
completion recorded, and `tasks_left` decremented, exactly when no work is left. -/
theorem rr_step_tasks (below : Int → Bool) (time_quantum : Int) (s s' : RRState)
    (hstep : rr_step below time_quantum s = some s') :
    (s'.tasks = s.tasks ∧ s'.tasks_left = s.tasks_left)
    ∨ ∃ (i : Nat) (t : Task), s.tasks[i]? = some t
        ∧ (((rr_after_slice time_quantum s.time t).remaining_time ≠ 0
            ∧ s'.tasks_left = s.tasks_left
            ∧ s'.tasks = s.tasks.set i (rr_after_slice time_quantum s.time t))
          ∨ ((rr_after_slice time_quantum s.time t).remaining_time = 0
            ∧ s'.tasks_left = s.tasks_left - 1
            ∧ s'.tasks = s.tasks.set i
                (rr_record_finish s'.time (rr_after_slice time_quantum s.time t)))) := by
  unfold rr_step at hstep
  by_cases he : s.front = s.rear
  · rw [if_pos he] at hstep
    obtain ⟨_, hscan⟩ := rr_idle_cases below s s' hstep
    exact Or.inl ⟨(rr_scan_idle_frame _ _ _ hscan).1, (rr_scan_idle_frame _ _ _ hscan).2.2.1⟩
  · rw [if_neg he] at hstep
    obtain ⟨i, t, s2, _, ht, hscan, hend⟩ := rr_slice_cases time_quantum s s' hstep
    obtain ⟨f1, _, f3, _, _⟩ := rr_scan_arrivals_frame _ _ _ hscan
    right
    refine ⟨i, t, ht, ?_⟩
    rcases hend with ⟨h0, rfl⟩ | ⟨h0, hreq⟩
    · right
      refine ⟨h0, ?_, ?_⟩
      · simp only [f3, rr_after_run]
      · simp only [f1, rr_after_run, List.set_set]
    · left
      refine ⟨h0, ?_, ?_⟩
      · rw [(rr_requeue_frame _ _ _ hreq).2.2.1, f3]
        rfl
      · rw [(rr_requeue_frame _ _ _ hreq).1, f1]
        rfl

theorem rr_iter_tasks_inv (below : Int → Bool) (time_quantum : Int) (P : Task → Prop)
    (hP1 : ∀ (time : Int) (t : Task), P t →
      (rr_after_slice time_quantum time t).remaining_time ≠ 0 →
        P (rr_after_slice time_quantum time t))
    (hP2 : ∀ (time time' : Int) (t : Task), P t →
      (rr_after_slice time_quantum time t).remaining_time = 0 →
        P (rr_record_finish time' (rr_after_slice time_quantum time t))) :
    ∀ (k : Nat) (s s' : RRState), (∀ x ∈ s.tasks, P x) →
      rr_iter below time_quantum k s = some s' → ∀ x ∈ s'.tasks, P x := by
  intro k
  induction k with
  | zero => intro s s' h hs; cases hs; exact h
  | succ k ih =>
    intro s s' h hs
    unfold rr_iter at hs
    split at hs
    · cases hstep : rr_step below time_quantum s with
      | none => rw [hstep] at hs; cases hs
      | some s1 =>
        rw [hstep] at hs
        refine ih s1 s' ?_ hs
        rcases rr_step_tasks below time_quantum s s1 hstep with ⟨h1, _⟩ | ⟨i, t, ht, h1⟩
        · rw [h1]; exact h
        · have hPt : P t := h t (List.getElem?_mem ht)
          intro x hx
          rcases h1 with ⟨h0, _, htasks⟩ | ⟨h0, _, htasks⟩
          · rw [htasks] at hx
            rcases List.mem_or_eq_of_mem_set hx with hx | rfl
            · exact h x hx
            · exact hP1 _ t hPt h0
          · rw [htasks] at hx
            rcases List.mem_or_eq_of_mem_set hx with hx | rfl
            · exact h x hx
            · exact hP2 _ _ t hPt h0
    · cases hs; exact h

theorem rr_init_tasks (tasks : List Task) (s : RRState) (h : rr_init tasks = some s) :
    s.tasks = tasks ∧ s.time = 0 ∧ s.tasks_left = tasks.length ∧ s.events = [] := by
  unfold rr_init at h
  obtain ⟨h1, h2, h3, _, h5⟩ := rr_scan_initial_frame _ _ _ h
  exact ⟨h1, h2, h3, h5⟩

theorem rr_slice_events_eq (pid : Int) : ∀ (m : Nat) (time : Int),
    rr_slice_events pid m time
      = (List.range m).map (fun (d : Nat) => Event.running (time + (d : Int)) pid) := by
  intro m
  induction m with
  | zero => intro time; rfl
  | succ m ih =>
    intro time
    rw [rr_slice_events, ih, List.range_succ_eq_map]
    simp only [List.map_cons, List.map_map, Nat.cast_zero, add_zero]
    congr 1
    apply List.map_congr_left
    intro d _
    show Event.running (time + 1 + (d : Int)) pid
      = Event.running (time + ((d + 1 : Nat) : Int)) pid
    congr 1
    push_cast
    ring

theorem rr_runtime_min (time_quantum : Int) (t : Task) :
    rr_runtime time_quantum t = min t.remaining_time time_quantum := by
  unfold rr_runtime
  split <;> omega

theorem rr_reached_nonneg (tasks : List Task) (hwf : well_formed tasks) (below : Int → Bool)
    (time_quantum : Int) (k : Nat) (s : RRState)
    (hs : (rr_init tasks).bind (rr_iter below time_quantum k) = some s) :
    ∀ x ∈ s.tasks, 0 ≤ x.remaining_time := by
  cases h0 : rr_init tasks with
  | none => rw [h0] at hs; cases hs
  | some s0 =>
    rw [h0] at hs
    refine rr_iter_tasks_inv below time_quantum (fun x => 0 ≤ x.remaining_time) ?_ ?_ k s0 s ?_ hs
    · intro time t ht _
      simp only [rr_after_slice, rr_runtime] at ht ⊢
      split <;> omega
    · intro time time' t ht h0
      simp only [rr_record_finish]
      omega
    · intro x hx
      rw [(rr_init_tasks tasks s0 h0).1] at hx
      obtain ⟨_, h2, h3, _⟩ := hwf.2.2 x hx
      omega

/-- C4: in every iteration of the loop of `simulate_rr` that dequeues a task, on a well-formed
registry with quantum at least 1, the task gets exactly `min(remaining_time, quantum)`
running events at consecutive ticks, never more than `quantum`; and if the next iteration
dequeues the same task again, no other task was ready at the tick where the first slice
ended.  Tasks `[(1,0,4),(2,0,4)]` with quantum 2 give pid 1 ticks 0-1, pid 2 ticks 2-3,
pid 1 ticks 4-5 (finish 6), pid 2 ticks 6-7 (finish 8). -/
theorem rr_quantum_bound (tasks : List Task) (hwf : well_formed tasks) (below : Int → Bool)
    (time_quantum : Int) (hq : 1 ≤ time_quantum) (k : Nat) (s s1 : RRState)
    (hs : (rr_init tasks).bind (rr_iter below time_quantum k) = some s)
    (hne : s.front ≠ s.rear) (h1 : rr_step below time_quantum s = some s1) :
    (∃ (i : Nat) (t : Task), s.queue[s.front]? = some (some i) ∧ s.tasks[i]? = some t
      ∧ 0 ≤ min t.remaining_time time_quantum
      ∧ min t.remaining_time time_quantum ≤ time_quantum
      ∧ s1.time = s.time + min t.remaining_time time_quantum
      ∧ (∃ fin : List Event,
          s1.events = s.events
            ++ (List.range (min t.remaining_time time_quantum).toNat).map
                (fun (d : Nat) => Event.running (s.time + (d : Int)) t.pid)
            ++ fin
          ∧ (fin = [] ∨ fin = [Event.finished s1.time t.pid]))
      ∧ (∀ s2 : RRState, s1.front ≠ s1.rear → rr_step below time_quantum s1 = some s2 →
          s1.queue[s1.front]? = some (some i) →
          ∀ (j : Nat) (u : Task), j ≠ i → s1.tasks[j]? = some u → ¬ u.ready s1.time))
    ∧ (simulate_rr no_match 4 scenario2 2).result.map (fun r => r.events)
        = some [Event.running 0 1, Event.running 1 1, Event.running 2 2, Event.running 3 2,
            Event.running 4 1, Event.running 5 1, Event.finished 6 1, Event.running 6 2,
            Event.running 7 2, Event.finished 8 2, Event.all_finished 8] := by
  refine ⟨?_, by decide⟩
  have hinv : s.inv := rr_reached_inv tasks hwf.2.1 below time_quantum k s hs
  have hnonneg := rr_reached_nonneg tasks hwf below time_quantum k s hs
  have hslice : rr_slice time_quantum s = some s1 := by
    unfold rr_step at h1
    rw [if_neg hne] at h1
    exact h1
  obtain ⟨i, t, L', hq1, ht, hb, hc, hhead, hflagged⟩ :=
    rr_slice_inv time_quantum s s1 hinv hne hslice
  obtain ⟨i', t', s2, hq2, ht', hscan, hend⟩ := rr_slice_cases time_quantum s s1 hslice
  have hii : i' = i := by
    rw [hq1] at hq2
    simpa using hq2.symm
  subst hii
  have htt : t' = t := by
    rw [ht] at ht'
    simpa using ht'.symm
  subst htt
  obtain ⟨_, f2, _, _, f5⟩ := rr_scan_arrivals_frame _ _ _ hscan
  have hrem : 0 ≤ t'.remaining_time := hnonneg t' (List.getElem?_mem ht)
  have hmin : 0 ≤ min t'.remaining_time time_quantum := by omega
  have hcast : ((min t'.remaining_time time_quantum).toNat : Int)
      = min t'.remaining_time time_quantum := Int.toNat_of_nonneg hmin
  refine ⟨i', t', hq1, ht, hmin, by omega, ?_, ?_, ?_⟩
  · rcases hend with ⟨_, rfl⟩ | ⟨_, hreq⟩
    · simp only [f2, rr_after_run, rr_runtime_min, hcast]
    · rw [(rr_requeue_frame _ _ _ hreq).2.1, f2]
      simp only [rr_after_run, rr_runtime_min, hcast]
  · rcases hend with ⟨_, rfl⟩ | ⟨_, hreq⟩
    · refine ⟨[Event.finished s2.time t'.pid], ?_, Or.inr rfl⟩
      simp only [f5, rr_after_run, rr_runtime_min, rr_slice_events_eq]
    · refine ⟨[], ?_, Or.inl rfl⟩
      rw [(rr_requeue_frame _ _ _ hreq).2.2.2.2.1, f5]
      simp only [rr_after_run, rr_runtime_min, rr_slice_events_eq, List.append_nil]
  · intro s3 hne1 _ hq3 j u hji hu hready
    obtain ⟨hr1, hr2⟩ := hready
    have hfl := hflagged j u hji hu hr2 hr1
    have hjL : j ∈ L' := hc j u hu hfl hr1 (by simp)
    have hhd : L'.head? ≠ some i' := by
      rcases hhead with h | h
      · exact h
      · rw [h] at hjL
        exact absurd (List.mem_singleton.mp hjL) hji
    obtain ⟨_, _, _, hf, _, _, hreg⟩ := hb
    rcases hreg with ⟨_, _, hslots⟩ | ⟨_, hnil⟩
    · cases L' with
      | nil => cases hjL
      | cons x xs =>
        have h0 := hslots 0 x (by simp)
        have hfront : (s1.front + 0) % 100 = s1.front := by omega
        rw [hfront, hq3] at h0
        have : i' = x := by simpa using h0
        subst this
        exact hhd (by simp)
    · rw [hnil] at hjL; cases hjL

/-- C4 at the first iteration of Scenario 2 with quantum 2: pid 1 is dequeued and runs for
two ticks. -/
theorem rr_quantum_bound_witness :
    well_formed scenario2 ∧ (1 : Int) ≤ 2
    ∧ ∃ s s1 : RRState, (rr_init scenario2).bind (rr_iter no_match 2 0) = some s
        ∧ s.front ≠ s.rear ∧ rr_step no_match 2 s = some s1
        ∧ ∃ (i : Nat) (t : Task), s.queue[s.front]? = some (some i) ∧ s.tasks[i]? = some t
            ∧ s1.time = s.time + min t.remaining_time 2 := by
  have hs : (rr_init scenario2).bind (rr_iter no_match 2 0)
      = some ((rr_init scenario2).get (by decide)) := by decide
  have hne : ((rr_init scenario2).get (by decide)).front
      ≠ ((rr_init scenario2).get (by decide)).rear := by decide
  have h1 : rr_step no_match 2 ((rr_init scenario2).get (by decide))
      = some ((rr_step no_match 2 ((rr_init scenario2).get (by decide))).get (by decide)) := by
    decide
  obtain ⟨⟨i, t, a1, a2, _, _, a5, _⟩, _⟩ :=
    rr_quantum_bound scenario2 (by decide) no_match 2 (by decide) 0 _ _ hs hne h1
  exact ⟨by decide, by decide, _, _, hs, hne, h1, i, t, a1, a2, a5⟩

/-! ## Derived metrics under the three policies -/

theorem fcfs_task_metrics (time : Int) (t : Task) : (fcfs_task time t).1.metrics_ok :=
  ⟨rfl, rfl, rfl⟩

theorem fcfs_loop_mem : ∀ (ts : List Task) (time : Int) (o : Task),
    o ∈ (fcfs_loop time ts).tasks → ∃ (time' : Int) (t : Task), t ∈ ts ∧ o = (fcfs_task time' t).1 := by
  intro ts
  induction ts with
  | nil => intro time o h; simp [fcfs_loop] at h
  | cons a ts ih =>
    intro time o h
    simp only [fcfs_loop, List.mem_cons] at h
    rcases h with h | h
    · exact ⟨time, a, List.mem_cons_self _ _, h⟩
    · obtain ⟨time', t, ht, ho⟩ := ih _ o h
      exact ⟨time', t, List.mem_cons_of_mem _ ht, ho⟩

theorem rr_record_finish_metrics (time : Int) (t1 : Task) :
    (rr_record_finish time t1).metrics_ok ∧ (rr_record_finish time t1).finish_time = time :=
  ⟨⟨rfl, rfl, rfl⟩, rfl⟩

theorem rr_iter_stopped (below : Int → Bool) (time_quantum : Int) (k : Nat) (s : RRState)
    (h : ¬ 0 < s.tasks_left) : rr_iter below time_quantum k s = some s := by
  cases k with
  | zero => rfl
  | succ k =>
    unfold rr_iter
    rw [if_neg (by simpa using h)]

theorem rr_iter_add (below : Int → Bool) (time_quantum : Int) : ∀ (a b : Nat) (s : RRState),
    rr_iter below time_quantum (a + b) s
      = (rr_iter below time_quantum a s).bind (rr_iter below time_quantum b) := by
  intro a
  induction a with
  | zero => intro b s; simp [rr_iter]
  | succ a ih =>
    intro b s
    have hab : a + 1 + b = (a + b) + 1 := by omega
    rw [hab]
    by_cases hl : s.tasks_left > 0
    · simp only [rr_iter, hl, if_true]
      cases hstep : rr_step below time_quantum s with
      | none => rfl
      | some s1 => exact ih b s1
    · simp only [rr_iter, hl, if_false]
      exact (rr_iter_stopped below time_quantum b s (by simpa using hl)).symm

theorem rr_iter_unique (below : Int → Bool) (time_quantum : Int) (a b : Nat)
    (s0 sa : RRState) (ha : rr_iter below time_quantum a s0 = some sa)
    (hstop : ¬ 0 < sa.tasks_left) (r : Option RRState)
    (hb : rr_iter below time_quantum b s0 = r) :
    r = none ∨ r = some sa ∨ ∃ sb, r = some sb ∧ 0 < sb.tasks_left := by
  cases r with
  | none => exact Or.inl rfl
  | some sb =>
    right
    by_cases hl : 0 < sb.tasks_left
    · exact Or.inr ⟨sb, rfl, hl⟩
    · left
      have h1 := rr_iter_add below time_quantum a b s0
      have h2 := rr_iter_add below time_quantum b a s0
      rw [ha] at h1
      rw [hb] at h2
      rw [Nat.add_comm] at h2
      rw [h1] at h2
      have e1 : (some sa).bind (rr_iter below time_quantum b) = some sa :=
        rr_iter_stopped below time_quantum b sa hstop
      have e2 : (some sb).bind (rr_iter below time_quantum a) = some sb :=
        rr_iter_stopped below time_quantum a sb hl
      rw [e1, e2] at h2
      exact h2.symm

theorem rr_iter_fault (below : Int → Bool) (time_quantum : Int) (a b : Nat)
    (s0 sb : RRState) (ha : rr_iter below time_quantum a s0 = none)
    (hb : rr_iter below time_quantum b s0 = some sb) : 0 < sb.tasks_left := by
  by_contra hl
  have h1 := rr_iter_add below time_quantum a b s0
  have h2 := rr_iter_add below time_quantum b a s0
  rw [ha] at h1
  rw [hb] at h2
  rw [Nat.add_comm] at h2
  rw [h1] at h2
  have e2 : (some sb).bind (rr_iter below time_quantum a) = some sb :=
    rr_iter_stopped below time_quantum a sb hl
  rw [e2] at h2
  cases h2

theorem simulate_rr_returned (below : Int → Bool) (fuel : Nat) (tasks : List Task)
    (time_quantum : Int) (r : Run)
    (h : simulate_rr below fuel tasks time_quantum = Outcome.returned r) :
    ∃ s0 s, rr_init tasks = some s0 ∧ rr_iter below time_quantum fuel s0 = some s
      ∧ ¬ 0 < s.tasks_left ∧ r.tasks = s.tasks ∧ r.time = s.time := by
  unfold simulate_rr at h
  cases h0 : rr_init tasks with
  | none => rw [h0] at h; cases h
  | some s0 =>
    rw [h0] at h
    cases hk : rr_iter below time_quantum fuel s0 with
    | none =>
      have : (some s0).bind (rr_iter below time_quantum fuel) = none := hk
      rw [this] at h; cases h
    | some s =>
      have : (some s0).bind (rr_iter below time_quantum fuel) = some s := hk
      rw [this] at h
      simp only at h
      split at h
      · cases h
      · rename_i hl
        cases h
        exact ⟨s0, s, rfl, hk, by simpa using hl, rfl, rfl⟩

set_option maxRecDepth 1000000 in
theorem stale_run_match (below : Int → Bool) :
    (rr_init stale_registry).bind
      (rr_iter (fun t => if t = 100 then true else below t) 1 100) = none := by
  rfl

set_option maxRecDepth 1000000 in
theorem stale_run_no_match (below : Int → Bool) :
    ((rr_init stale_registry).bind
      (rr_iter (fun t => if t = 100 then false else below t) 1 102)).map
        (fun s => (s.tasks_left, s.time, s.tasks))
      = some (0, 101,
          [{ pid := 1, arrival_time := 0, burst_time := 99, remaining_time := 0,
             start_time := 0, finish_time := 101, waiting_time := 2, response_time := 0,
             turnaround_time := 101 },
           { pid := 2, arrival_time := 100, burst_time := 1, remaining_time := 0,
             start_time := 100, finish_time := 101, waiting_time := 0, response_time := 0,
             turnaround_time := 1 },
           { pid := 3, arrival_time := 200, burst_time := 1, remaining_time := 1,
             start_time := -1, finish_time := 0, waiting_time := 0, response_time := 0,
             turnaround_time := 0 }]) := by
  rfl

/-- Whatever the cells below the arrays hold, a run of `simulate_rr` on `stale_registry`
with quantum 1 that returns does so at clock 101 with the third task untouched. -/
theorem stale_run_tasks (below : Int → Bool) (fuel : Nat) (r : Run)
    (h : simulate_rr below fuel stale_registry 1 = Outcome.returned r) :
    r.time = 101
    ∧ r.tasks =
        [{ pid := 1, arrival_time := 0, burst_time := 99, remaining_time := 0,
           start_time := 0, finish_time := 101, waiting_time := 2, response_time := 0,
           turnaround_time := 101 },
         { pid := 2, arrival_time := 100, burst_time := 1, remaining_time := 0,
           start_time := 100, finish_time := 101, waiting_time := 0, response_time := 0,
           turnaround_time := 1 },
         { pid := 3, arrival_time := 200, burst_time := 1, remaining_time := 1,
           start_time := -1, finish_time := 0, waiting_time := 0, response_time := 0,
           turnaround_time := 0 }] := by
  obtain ⟨s0, s, h0, hk, hstop, ht, htime⟩ := simulate_rr_returned below fuel _ _ r h
  cases hb : below 100 with
  | true =>
    have hfun : below = fun t => if t = 100 then true else below t := by
      funext t
      by_cases e : t = 100
      · rw [if_pos e, e, hb]
      · rw [if_neg e]
    have hm := stale_run_match below
    rw [← hfun, h0] at hm
    exact absurd (rr_iter_fault below 1 100 fuel s0 s hm hk) hstop
  | false =>
    have hfun : below = fun t => if t = 100 then false else below t := by
      funext t
      by_cases e : t = 100
      · rw [if_pos e, e, hb]
      · rw [if_neg e]
    have hm := stale_run_no_match below
    rw [← hfun, h0] at hm
    cases h102 : rr_iter below 1 102 s0 with
    | none =>
      have : (some s0).bind (rr_iter below 1 102) = none := h102
      rw [this] at hm; cases hm
    | some sa =>
      have : (some s0).bind (rr_iter below 1 102) = some sa := h102
      rw [this] at hm
      simp only [Option.map_some', Option.some.injEq, Prod.mk.injEq] at hm
      obtain ⟨m1, m2, m3⟩ := hm
      rcases rr_iter_unique below 1 102 fuel s0 sa h102 (by omega) _ hk with h1 | h1 | h1
      · cases h1
      · cases h1
        rw [ht, htime]
        exact ⟨m2, m3⟩
      · obtain ⟨sb, h1, h2⟩ := h1
        cases h1
        exact absurd h2 hstop

set_option maxRecDepth 1000000 in
theorem stale_run_events :
    (simulate_rr no_match 102 stale_registry 1).result.map
        (fun r => (r.events.take 2, r.events.drop 97))
      = some ([Event.running 0 1, Event.running 1 1],
          [Event.running 97 1, Event.running 98 1, Event.finished 99 1, Event.idle 99,
            Event.running 100 2, Event.finished 101 2, Event.finished 101 1,
            Event.all_finished 101]) := by
  decide

theorem result_some (o : Outcome) (x : Option Run) (h : o.result = x) (hx : x.isSome = true) :
    ∃ r, o = Outcome.returned r := by
  cases o with
  | returned r => exact ⟨r, rfl⟩
  | undefined_access => subst h; simp [Outcome.result] at hx
  | still_running => subst h; simp [Outcome.result] at hx

theorem stale_run_returns : ∃ r, simulate_rr no_match 102 stale_registry 1 = Outcome.returned r := by
  have h := stale_run_events
  cases hr : (simulate_rr no_match 102 stale_registry 1).result with
  | none => rw [hr] at h; cases h
  | some r => exact result_some _ _ hr rfl

/-- C3 fails on `[(1,0,99),(2,100,1),(3,200,1)]` with quantum 1: the run returns at clock 101
while pid 3 was never run (`remaining_time = 1`, `start_time = -1`), and the completion of
pid 1 is recorded twice (at 99 and again at 101, by a slice of length 0), so its
`finish_time` 101 is not the tick after its last running event (98).  This holds whatever
the idle scan reads below the arrays. -/
theorem rr_returns_with_unfinished_task :
    well_formed stale_registry
    ∧ (∃ r, simulate_rr no_match 102 stale_registry 1 = Outcome.returned r)
    ∧ (∀ (below : Int → Bool) (fuel : Nat) (r : Run),
        simulate_rr below fuel stale_registry 1 = Outcome.returned r →
        r.time = 101
        ∧ r.tasks.map (fun t => (t.pid, t.remaining_time, t.start_time, t.finish_time))
            = [(1, 0, 0, 101), (2, 0, 100, 101), (3, 1, -1, 0)])
    ∧ (simulate_rr no_match 102 stale_registry 1).result.map (fun r => r.events.drop 97)
        = some [Event.running 97 1, Event.running 98 1, Event.finished 99 1, Event.idle 99,
            Event.running 100 2, Event.finished 101 2, Event.finished 101 1,
            Event.all_finished 101] := by
  refine ⟨by decide, stale_run_returns, ?_, ?_⟩
  · intro below fuel r h
    obtain ⟨h1, h2⟩ := stale_run_tasks below fuel r h
    rw [h2]
    exact ⟨h1, rfl⟩
  · have h := stale_run_events
    cases hr : (simulate_rr no_match 102 stale_registry 1).result with
    | none => rw [hr] at h; cases h
    | some r =>
      rw [hr] at h
      simp only [Option.map_some', Option.some.injEq, Prod.mk.injEq] at h ⊢
      exact h.2

/-- C7 fails on `[(1,0,99),(2,100,1),(3,200,1)]` with quantum 1: whenever the run returns,
pid 3 has `finish_time = 0 < arrival_time + burst_time = 201` and
`waiting_time = 0`, which is not `finish_time - arrival_time - burst_time = -201`. -/
theorem rr_finish_below_arrival_plus_burst :
    well_formed stale_registry ∧ (∀ t ∈ stale_registry, t.finish_time = 0)
    ∧ (∃ r, simulate_rr no_match 102 stale_registry 1 = Outcome.returned r)
    ∧ (∀ (below : Int → Bool) (fuel : Nat) (r : Run),
        simulate_rr below fuel stale_registry 1 = Outcome.returned r →
        ∃ t ∈ r.tasks, t.pid = 3 ∧ t.finish_time = 0 ∧ t.arrival_time + t.burst_time = 201
          ∧ t.finish_time < t.arrival_time + t.burst_time
          ∧ t.waiting_time = 0
          ∧ t.waiting_time ≠ t.finish_time - t.arrival_time - t.burst_time) := by
  refine ⟨by decide, by decide, stale_run_returns, ?_⟩
  intro below fuel r h
  obtain ⟨_, h2⟩ := stale_run_tasks below fuel r h
  rw [h2]
  refine ⟨_, List.mem_cons_of_mem _ (List.mem_cons_of_mem _ (List.mem_cons_self _ _)), ?_⟩
  decide

set_option maxRecDepth 1000000 in
theorem full_registry_well_formed : well_formed full_registry := by decide

set_option maxRecDepth 1000000 in
theorem full_registry_start :
    (rr_init full_registry).map (fun s => (s.front, s.rear, s.time, rr_pending s))
      = some (0, 99, 0, (List.range 99).map some) := by
  decide

set_option maxRecDepth 1000000 in
theorem full_registry_first_step :
    ((rr_init full_registry).bind (rr_step no_match 1)).map
        (fun s => (s.front, s.rear, s.time, s.tasks_left, rr_pending s,
          s.tasks.all (fun t => decide (t.ready s.time)),
          (s.in_queue.take 100).all id,
          s.queue.take 2 ++ s.queue.drop 98))
      = some (1, 1, 1, 100, [], true, true, [some 0, some 1, some 98, some 99]) := by
  rfl

set_option maxRecDepth 1000000 in
theorem full_registry_idles :
    ((rr_init full_registry).bind (rr_iter no_match 1 6)).map
        (fun s => (s.tasks_left, s.events))
      = some (100, [Event.running 0 1, Event.idle 1, Event.idle 2, Event.idle 3,
          Event.idle 4, Event.idle 5]) := by
  decide

/-- C5 fails on a well-formed registry of 100 tasks (99 arriving at time 0, one at time 1,
burst 2, quantum 1): before the first slice the queue holds positions 0..98; after it the
claim puts positions 1..98, then the arrival 99, then the preempted 0 in the queue, and
the buffer does hold them (slots 1..99 and 0), but `front = rear = 1`, so the loop sees an
empty queue although every task is ready and flagged, and it prints idle from then on.
(On the claim's own example `[(1,0,4),(2,1,2)]` with quantum 2 the order is as claimed.) -/
theorem rr_full_queue_looks_empty :
    well_formed full_registry
    ∧ (rr_init full_registry).map (fun s => (s.front, s.rear, s.time, rr_pending s))
        = some (0, 99, 0, (List.range 99).map some)
    ∧ ((rr_init full_registry).bind (rr_step no_match 1)).map
          (fun s => (s.front, s.rear, s.time, s.tasks_left, rr_pending s,
            s.tasks.all (fun t => decide (t.ready s.time)),
            (s.in_queue.take 100).all id,
            s.queue.take 2 ++ s.queue.drop 98))
        = some (1, 1, 1, 100, [], true, true, [some 0, some 1, some 98, some 99])
    ∧ ((rr_init full_registry).bind (rr_iter no_match 1 6)).map
          (fun s => (s.tasks_left, s.events))
        = some (100, [Event.running 0 1, Event.idle 1, Event.idle 2, Event.idle 3,
            Event.idle 4, Event.idle 5])
    ∧ (simulate_rr no_match 4 (read_tasks [(1, 0, 4), (2, 1, 2)] 100) 2).result.map
          (fun r => r.events)
        = some [Event.running 0 1, Event.running 1 1, Event.running 2 2, Event.running 3 2,
            Event.finished 4 2, Event.running 4 1, Event.running 5 1, Event.finished 6 1,
            Event.all_finished 6] :=
  ⟨full_registry_well_formed, full_registry_start, full_registry_first_step,
    full_registry_idles, by decide⟩

/-! ## FCFS: the timeline -/

theorem fcfs_burst_events (pid : Int) : ∀ (k : Nat) (rem time : Int), rem.toNat ≤ k →
    (fcfs_burst pid k rem time).2.2 = rr_slice_events pid rem.toNat time := by
  intro k
  induction k with
  | zero =>
    intro rem time h
    have h0 : rem.toNat = 0 := Nat.le_zero.mp h
    simp [fcfs_burst, h0, rr_slice_events]
  | succ k ih =>
    intro rem time h
    unfold fcfs_burst
    by_cases hr : rem > 0
    · have hk : (rem - 1).toNat ≤ k := by omega
      have hn : rem.toNat = (rem - 1).toNat + 1 := by omega
      simp only [hr, if_true]
      rw [ih (rem - 1) (time + 1) hk, hn, rr_slice_events]
    · have h0 : rem.toNat = 0 := by omega
      simp [hr, h0, rr_slice_events]

theorem fcfs_task_events (time : Int) (t : Task) (h0 : 0 ≤ t.remaining_time)
    (hb : t.remaining_time = t.burst_time) :
    (fcfs_task time t).2.2 = fcfs_segment time t := by
  have hfin : (fcfs_task time t).2.1 = max t.arrival_time time + t.burst_time := by
    rw [fcfs_task_clock, fcfs_task_finish time t h0, hb]
  have hstart : (if time < t.arrival_time then t.arrival_time else time)
      = max t.arrival_time time := by
    split <;> omega
  unfold fcfs_segment
  rw [← hfin, ← rr_slice_events_eq, ← hb]
  simp only [fcfs_task]
  rw [fcfs_burst_events t.pid _ _ _ (le_refl _), hstart]

theorem fcfs_loop_events : ∀ (ts : List Task) (time : Int),
    (∀ t ∈ ts, 0 ≤ t.remaining_time ∧ t.remaining_time = t.burst_time) →
      (fcfs_loop time ts).events = fcfs_timeline time ts := by
  intro ts
  induction ts with
  | nil => intro time _; rfl
  | cons a ts ih =>
    intro time h
    obtain ⟨h0, hb⟩ := h a (List.mem_cons_self _ _)
    have hfin : (fcfs_task time a).2.1 = max a.arrival_time time + a.burst_time := by
      rw [fcfs_task_clock, fcfs_task_finish time a h0, hb]
    simp only [fcfs_loop, fcfs_timeline]
    rw [fcfs_task_events time a h0 hb, hfin,
      ih _ (fun t ht => h t (List.mem_cons_of_mem _ ht))]

theorem fcfs_loop_key : ∀ (ts : List Task) (time : Int),
    (fcfs_loop time ts).tasks.map Task.key = ts.map Task.key := by
  intro ts
  induction ts with
  | nil => intro time; rfl
  | cons a ts ih =>
    intro time
    simp only [fcfs_loop, List.map_cons, ih]
    rfl

theorem srtf_tick_key (s : SrtfState) : (srtf_tick s).tasks.map Task.key = s.tasks.map Task.key := by
  rcases srtf_tick_cases s with ⟨_, h⟩ | ⟨i, t, t1, ev, hsel, h, h1, h2, h3, _⟩
  · rw [h]
  · rw [h]
    obtain ⟨hget, _, _⟩ := srtf_select_some s i t hsel
    exact map_set_same Task.key s.tasks i t1 t hget (by simp only [Task.key, h1, h2, h3])

theorem srtf_iter_key : ∀ (k : Nat) (s : SrtfState),
    (srtf_iter k s).tasks.map Task.key = s.tasks.map Task.key := by
  intro k
  induction k with
  | zero => intro s; rfl
  | succ k ih =>
    intro s
    unfold srtf_iter
    split
    · rw [ih, srtf_tick_key]
    · rfl

theorem rr_step_key (below : Int → Bool) (time_quantum : Int) (s s' : RRState)
    (h : rr_step below time_quantum s = some s') :
    s'.tasks.map Task.key = s.tasks.map Task.key := by
  rcases rr_step_tasks below time_quantum s s' h with ⟨h1, _⟩ | ⟨i, t, ht, h1⟩
  · rw [h1]
  · rcases h1 with ⟨_, _, h2⟩ | ⟨_, _, h2⟩
    · rw [h2]; exact map_set_same Task.key s.tasks i _ t ht rfl
    · rw [h2]; exact map_set_same Task.key s.tasks i _ t ht rfl

theorem rr_iter_key (below : Int → Bool) (time_quantum : Int) :
    ∀ (k : Nat) (s s' : RRState), rr_iter below time_quantum k s = some s' →
      s'.tasks.map Task.key = s.tasks.map Task.key := by
  intro k
  induction k with
  | zero => intro s s' h; cases h; rfl
  | succ k ih =>
    intro s s' h
    unfold rr_iter at h
    split at h
    · cases hstep : rr_step below time_quantum s with
      | none => rw [hstep] at h; cases h
      | some s1 =>
        rw [hstep] at h
        rw [ih s1 s' h, rr_step_key below time_quantum s s1 hstep]
    · cases h; rfl

theorem rr_reached_key (tasks : List Task) (below : Int → Bool) (time_quantum : Int)
    (k : Nat) (s : RRState)
    (hs : (rr_init tasks).bind (rr_iter below time_quantum k) = some s) :
    s.tasks.map Task.key = tasks.map Task.key := by
  cases h0 : rr_init tasks with
  | none => rw [h0] at hs; cases hs
  | some s0 =>
    rw [h0] at hs
    rw [rr_iter_key below time_quantum k s0 s hs, (rr_init_tasks tasks s0 h0).1]

/-- C14: under `simulate_fcfs`, `simulate_srtf` and `simulate_rr`, in every state the run
reaches and on return, the task at each registry position has the `pid`, `arrival_time` and
`burst_time` it had on entry, and the registry has the same tasks in the same order; the
other six fields are the only ones written. -/
theorem input_fields_frame (tasks : List Task) :
    (simulate_fcfs tasks).tasks.map Task.key = tasks.map Task.key
    ∧ (∀ k : Nat, (srtf_iter k (srtf_init tasks)).tasks.map Task.key = tasks.map Task.key)
    ∧ (∀ (fuel : Nat) (r : Run), simulate_srtf fuel tasks = some r →
        r.tasks.map Task.key = tasks.map Task.key)
    ∧ (∀ (below : Int → Bool) (time_quantum : Int) (k : Nat) (s : RRState),
        (rr_init tasks).bind (rr_iter below time_quantum k) = some s →
        s.tasks.map Task.key = tasks.map Task.key)
    ∧ (∀ (below : Int → Bool) (time_quantum : Int) (fuel : Nat) (r : Run),
        simulate_rr below fuel tasks time_quantum = Outcome.returned r →
        r.tasks.map Task.key = tasks.map Task.key)
    ∧ (simulate_fcfs tasks).tasks.length = tasks.length := by
  refine ⟨fcfs_loop_key tasks 0, fun k => srtf_iter_key k _, ?_, ?_, ?_, ?_⟩
  · intro fuel r h
    unfold simulate_srtf at h
    simp only at h
    split at h
    · cases h
    · cases h
      exact srtf_iter_key fuel _
  · intro below time_quantum k s hs
    exact rr_reached_key tasks below time_quantum k s hs
  · intro below time_quantum fuel r h
    obtain ⟨s0, s, h0, hk, _, ht, _⟩ := simulate_rr_returned below fuel tasks time_quantum r h
    rw [ht]
    exact rr_reached_key tasks below time_quantum fuel s (by rw [h0]; exact hk)
  · have := congrArg List.length (fcfs_loop_key tasks 0)
    simpa using this

/-- C14 at the registry of Scenario 2 under Round-Robin with quantum 2, which returns. -/
theorem input_fields_frame_witness :
    ∃ r, simulate_rr no_match 4 scenario2 2 = Outcome.returned r
      ∧ r.tasks.map Task.key = scenario2.map Task.key := by
  have hr : ∃ r, simulate_rr no_match 4 scenario2 2 = Outcome.returned r :=
    result_some _ ((simulate_rr no_match 4 scenario2 2).result) rfl (by decide)
  obtain ⟨r, hr⟩ := hr
  exact ⟨r, hr, (input_fields_frame scenario2).2.2.2.2.1 no_match 2 4 r hr⟩

/-! ## The remaining time stays between 0 and the burst time and never grows -/

theorem fcfs_burst_rem_at (pid : Int) : ∀ (k : Nat) (rem time : Int), 0 ≤ rem →
    (fcfs_burst pid k rem time).1 = max (rem - (k : Int)) 0 := by
  intro k
  induction k with
  | zero => intro rem time h; simp [fcfs_burst]; omega
  | succ k ih =>
    intro rem time h
    unfold fcfs_burst
    by_cases hr : rem > 0
    · simp only [hr, if_true]
      rw [ih (rem - 1) (time + 1) (by omega)]
      push_cast
      omega
    · simp only [hr, if_false]
      push_cast
      omega

theorem set_pointwise_le (l : List Task) (i : Nat) (t t1 : Task) (hget : l[i]? = some t)
    (hle : t1.remaining_time ≤ t.remaining_time) (j : Nat) (a b : Task)
    (ha : (l.set i t1)[j]? = some a) (hb : l[j]? = some b) :
    a.remaining_time ≤ b.remaining_time := by
  by_cases hij : i = j
  · subst hij
    have hlt : i < l.length := by
      rcases Nat.lt_or_ge i l.length with h | h
      · exact h
      · rw [List.getElem?_eq_none h] at hget; cases hget
    rw [List.getElem?_set_self hlt] at ha
    rw [hget] at hb
    cases ha; cases hb
    exact hle
  · rw [List.getElem?_set_ne hij] at ha
    rw [ha] at hb
    cases hb
    exact le_refl _

theorem srtf_tick_bounds (s : SrtfState)
    (h : ∀ x ∈ s.tasks, 0 ≤ x.remaining_time ∧ x.remaining_time ≤ x.burst_time) :
    (∀ x ∈ (srtf_tick s).tasks, 0 ≤ x.remaining_time ∧ x.remaining_time ≤ x.burst_time)
    ∧ (∀ (j : Nat) (a b : Task), (srtf_tick s).tasks[j]? = some a → s.tasks[j]? = some b →
        a.remaining_time ≤ b.remaining_time) := by
  rcases srtf_tick_cases s with ⟨_, ht⟩ | ⟨i, t, t1, ev, hsel, ht, _, _, hb, hrem, _⟩
  · rw [ht]
    refine ⟨h, ?_⟩
    intro j a b ha hb
    simp only at ha
    rw [ha] at hb; cases hb; exact le_refl _
  · obtain ⟨hget, hready, _⟩ := srtf_select_some s i t hsel
    obtain ⟨h1, h2⟩ := h t (List.getElem?_mem hget)
    have hpos : 0 < t.remaining_time := hready.1
    rw [ht]
    constructor
    · intro x hx
      simp only at hx
      rcases List.mem_or_eq_of_mem_set hx with hx | rfl
      · exact h x hx
      · exact ⟨by omega, by omega⟩
    · intro j a b ha hb'
      exact set_pointwise_le s.tasks i t t1 hget (by omega) j a b ha hb'

theorem srtf_iter_bounds : ∀ (k : Nat) (s : SrtfState),
    (∀ x ∈ s.tasks, 0 ≤ x.remaining_time ∧ x.remaining_time ≤ x.burst_time) →
    ∀ x ∈ (srtf_iter k s).tasks, 0 ≤ x.remaining_time ∧ x.remaining_time ≤ x.burst_time := by
  intro k
  induction k with
  | zero => intro s h; exact h
  | succ k ih =>
    intro s h
    unfold srtf_iter
    split
    · exact ih _ (srtf_tick_bounds s h).1
    · exact h

theorem rr_after_slice_bounds (time_quantum : Int) (hq : 1 ≤ time_quantum) (time : Int)
    (t : Task) (h : 0 ≤ t.remaining_time ∧ t.remaining_time ≤ t.burst_time) :
    0 ≤ (rr_after_slice time_quantum time t).remaining_time
    ∧ (rr_after_slice time_quantum time t).remaining_time ≤ t.remaining_time
    ∧ (rr_after_slice time_quantum time t).burst_time = t.burst_time := by
  have hrun : 0 ≤ rr_runtime time_quantum t ∧ rr_runtime time_quantum t ≤ t.remaining_time := by
    rw [rr_runtime_min]; omega
  refine ⟨?_, ?_, rfl⟩
  · show 0 ≤ t.remaining_time - rr_runtime time_quantum t
    omega
  · show t.remaining_time - rr_runtime time_quantum t ≤ t.remaining_time
    omega

theorem rr_reached_bounds (tasks : List Task)
    (h : ∀ t ∈ tasks, 1 ≤ t.burst_time ∧ t.remaining_time = t.burst_time)
    (below : Int → Bool) (time_quantum : Int) (hq : 1 ≤ time_quantum) (k : Nat) (s : RRState)
    (hs : (rr_init tasks).bind (rr_iter below time_quantum k) = some s) :
    ∀ x ∈ s.tasks, 0 ≤ x.remaining_time ∧ x.remaining_time ≤ x.burst_time := by
  cases h0 : rr_init tasks with
  | none => rw [h0] at hs; cases hs
  | some s0 =>
    rw [h0] at hs
    refine rr_iter_tasks_inv below time_quantum
      (fun x => 0 ≤ x.remaining_time ∧ x.remaining_time ≤ x.burst_time) ?_ ?_ k s0 s ?_ hs
    · intro time t ht _
      obtain ⟨a, b, c⟩ := rr_after_slice_bounds time_quantum hq time t ht
      exact ⟨a, by omega⟩
    · intro time time' t ht _
      obtain ⟨a, b, c⟩ := rr_after_slice_bounds time_quantum hq time t ht
      simp only [rr_record_finish]
      exact ⟨a, by omega⟩
    · intro x hx
      rw [(rr_init_tasks tasks s0 h0).1] at hx
      obtain ⟨h1, h2⟩ := h x hx
      omega

/-- C12: started on a registry whose tasks have `remaining_time = burst_time ≥ 1`, every
state reached by `simulate_fcfs` (after any number of iterations of the inner loop on a
task, and on return), by `simulate_srtf` and by `simulate_rr` (quantum at least 1) has
`0 ≤ remaining_time ≤ burst_time` for every task, and no iteration increases the
`remaining_time` of the task at any position. -/
theorem remaining_time_invariant (tasks : List Task)
    (h : ∀ t ∈ tasks, 1 ≤ t.burst_time ∧ t.remaining_time = t.burst_time) :
    (∀ t ∈ tasks, ∀ (time : Int) (k : Nat),
        0 ≤ (fcfs_burst t.pid k t.remaining_time time).1
        ∧ (fcfs_burst t.pid k t.remaining_time time).1 ≤ t.burst_time
        ∧ (fcfs_burst t.pid (k + 1) t.remaining_time time).1
            ≤ (fcfs_burst t.pid k t.remaining_time time).1)
    ∧ (∀ o ∈ (simulate_fcfs tasks).tasks,
        o.remaining_time = 0 ∧ o.remaining_time ≤ o.burst_time)
    ∧ (∀ k : Nat,
        (∀ x ∈ (srtf_iter k (srtf_init tasks)).tasks,
          0 ≤ x.remaining_time ∧ x.remaining_time ≤ x.burst_time)
        ∧ ∀ (j : Nat) (a b : Task),
            (srtf_tick (srtf_iter k (srtf_init tasks))).tasks[j]? = some a →
            (srtf_iter k (srtf_init tasks)).tasks[j]? = some b →
            a.remaining_time ≤ b.remaining_time)
    ∧ (∀ (below : Int → Bool) (time_quantum : Int) (k : Nat) (s : RRState),
        1 ≤ time_quantum → (rr_init tasks).bind (rr_iter below time_quantum k) = some s →
        (∀ x ∈ s.tasks, 0 ≤ x.remaining_time ∧ x.remaining_time ≤ x.burst_time)
        ∧ ∀ (s' : RRState), rr_step below time_quantum s = some s' →
            ∀ (j : Nat) (a b : Task), s'.tasks[j]? = some a → s.tasks[j]? = some b →
              a.remaining_time ≤ b.remaining_time) := by
  have hinit : ∀ x ∈ (srtf_init tasks).tasks,
      0 ≤ x.remaining_time ∧ x.remaining_time ≤ x.burst_time := by
    intro x hx
    obtain ⟨h1, h2⟩ := h x hx
    omega
  refine ⟨?_, ?_, ?_, ?_⟩
  · intro t ht time k
    obtain ⟨h1, h2⟩ := h t ht
    rw [fcfs_burst_rem_at t.pid k _ _ (by omega), fcfs_burst_rem_at t.pid (k + 1) _ _ (by omega)]
    push_cast
    omega
  · intro o ho
    obtain ⟨time', t, ht, rfl⟩ := fcfs_loop_mem tasks 0 o ho
    obtain ⟨h1, h2⟩ := h t ht
    have h0 : (fcfs_task time' t).1.remaining_time = 0 := by
      show (fcfs_burst t.pid t.remaining_time.toNat t.remaining_time _).1 = 0
      rw [fcfs_burst_rem t.pid _ _ _ (le_refl _), if_pos (by omega)]
    refine ⟨h0, ?_⟩
    rw [h0]
    show 0 ≤ t.burst_time
    omega
  · intro k
    have hb := srtf_iter_bounds k (srtf_init tasks) hinit
    exact ⟨hb, (srtf_tick_bounds _ hb).2⟩
  · intro below time_quantum k s hq hs
    have hb := rr_reached_bounds tasks h below time_quantum hq k s hs
    refine ⟨hb, ?_⟩
    intro s' hstep j a b ha hb'
    rcases rr_step_tasks below time_quantum s s' hstep with ⟨h1, _⟩ | ⟨i, t, ht, h1⟩
    · rw [h1, hb'] at ha; cases ha; exact le_refl _
    · obtain ⟨_, c2, _⟩ := rr_after_slice_bounds time_quantum hq s.time t
        (hb t (List.getElem?_mem ht))
      rcases h1 with ⟨_, _, h2⟩ | ⟨_, _, h2⟩
      · rw [h2] at ha
        exact set_pointwise_le s.tasks i t _ ht c2 j a b ha hb'
      · rw [h2] at ha
        exact set_pointwise_le s.tasks i t
          (rr_record_finish s'.time (rr_after_slice time_quantum s.time t)) ht c2 j a b ha hb'

/-- C12 at the registry of Scenario 3, whose tasks have `remaining_time = burst_time ≥ 1`. -/
theorem remaining_time_invariant_witness :
    (∀ t ∈ scenario3, 1 ≤ t.burst_time ∧ t.remaining_time = t.burst_time)
    ∧ ∀ x ∈ (srtf_iter 5 (srtf_init scenario3)).tasks,
        0 ≤ x.remaining_time ∧ x.remaining_time ≤ x.burst_time :=
  ⟨by decide, ((remaining_time_invariant scenario3 (by decide)).2.2.1 5).1⟩

/-! ## Statistics: the registry is only read -/

/-- C15: `print_statistics` leaves every field of every task unchanged, so a second call on
the same registry reports the same three averages (and the same usage figure). -/
theorem aggregation_idempotent (tasks : List Task) :
    (print_statistics_run tasks).1 = tasks
    ∧ (print_statistics_run (print_statistics_run tasks).1).2 = (print_statistics_run tasks).2
    ∧ (print_statistics_run (print_statistics_run tasks).1).2.avg_waiting
        = (print_statistics tasks).avg_waiting
    ∧ (print_statistics_run (print_statistics_run tasks).1).2.avg_response
        = (print_statistics tasks).avg_response
    ∧ (print_statistics_run (print_statistics_run tasks).1).2.avg_turnaround
        = (print_statistics tasks).avg_turnaround :=
  ⟨rfl, rfl, rfl, rfl, rfl⟩

/-! ## Round-Robin: the idle scan and the bounds of the queue -/

theorem rr_idle_indices_eq (n : Nat) :
    rr_idle_indices n = -1 :: (List.range n).map (fun (k : Nat) => (k : Int)) := by
  unfold rr_idle_indices
  rw [List.range_succ_eq_map]
  simp only [List.map_cons, List.map_map]
  congr 1
  apply List.map_congr_left
  intro k _
  show rr_idle_first_index + ((k + 1 : Nat) : Int) = (k : Int)
  have : rr_idle_first_index = -1 := by decide
  rw [this]
  push_cast
  ring

theorem rr_idle_match (below : Int → Bool) (s : RRState) (h : below (s.time + 1) = true) :
    rr_idle below s = none := by
  unfold rr_idle
  simp only [h, if_true]

/-- C16 fails on the single task (pid 1, arrival 3, burst 2): the idle scan starts at
`i = ~0 = -1`, so on an idle tick it visits `-1, 0, ..., n-1` and tests
`tasks[-1].arrival_time == time && !in_queue[-1]`, cells outside the registry; when that
test succeeds the run stores `-1` in the queue, and whether the run returns depends on it. -/
theorem rr_idle_scan_starts_below :
    well_formed scenario4
    ∧ rr_idle_first_index = -1
    ∧ (∀ n : Nat, rr_idle_indices n = -1 :: (List.range n).map (fun (k : Nat) => (k : Int)))
    ∧ rr_idle_indices scenario4.length = [-1, 0]
    ∧ (∀ (below : Int → Bool) (s : RRState), below (s.time + 1) = true →
        rr_idle below s = none)
    ∧ simulate_rr (fun t => decide (t = 1)) 5 scenario4 2 = Outcome.undefined_access
    ∧ (simulate_rr no_match 5 scenario4 2).result.map (fun r => r.events)
        = some [Event.idle 0, Event.idle 1, Event.idle 2, Event.running 3 1,
            Event.running 4 1, Event.finished 5 1, Event.all_finished 5] :=
  ⟨by decide, by decide, rr_idle_indices_eq, by decide, rr_idle_match, by decide, by decide⟩

set_option maxRecDepth 1000000 in
theorem overrun_run_state :
    ((rr_init overrun_registry).bind (rr_iter no_match 1 100)).map
        (fun s => (s.front, s.rear, s.time, s.tasks_left, s.queue.length, (rr_pending s).take 3))
      = some (99, 100, 100, 1, 100, [some 1, some 0, some 0]) := by
  rfl

set_option maxRecDepth 1000000 in
theorem overrun_run_match (below : Int → Bool) :
    (rr_init overrun_registry).bind
      (rr_iter (fun t => if t = 100 then true else below t) 1 101) = none := by
  rfl

set_option maxRecDepth 1000000 in
theorem overrun_run_fault (below : Int → Bool) :
    (rr_init overrun_registry).bind
      (rr_iter (fun t => if t = 100 then false else below t) 1 101) = none := by
  rfl

set_option maxRecDepth 1000000 in
theorem stale_run_queue :
    ((rr_init stale_registry).bind (rr_iter no_match 1 101)).map
        (fun s => (s.front, s.rear, s.tasks_left, s.queue[0]?,
          s.tasks.map (fun t => t.remaining_time), (rr_pending s).take 3,
          (rr_pending s).length))
      = some (0, 100, 1, some (some 0), [0, 0, 1], [some 0, some 0, some 0], 100) := by
  rfl

theorem overrun_run_undefined (below : Int → Bool) (fuel : Nat) (h : 101 ≤ fuel) :
    simulate_rr below fuel overrun_registry 1 = Outcome.undefined_access := by
  have h101 : (rr_init overrun_registry).bind (rr_iter below 1 101) = none := by
    cases hb : below 100 with
    | true =>
      have hfun : below = fun t => if t = 100 then true else below t := by
        funext t
        by_cases e : t = 100
        · rw [if_pos e, e, hb]
        · rw [if_neg e]
      rw [hfun]
      exact overrun_run_match below
    | false =>
      have hfun : below = fun t => if t = 100 then false else below t := by
        funext t
        by_cases e : t = 100
        · rw [if_pos e, e, hb]
        · rw [if_neg e]
      rw [hfun]
      exact overrun_run_fault below
  obtain ⟨m, rfl⟩ : ∃ m, fuel = 101 + m := ⟨fuel - 101, by omega⟩
  have hall : (rr_init overrun_registry).bind (rr_iter below 1 (101 + m)) = none := by
    cases h0 : rr_init overrun_registry with
    | none => rfl
    | some s0 =>
      rw [h0] at h101
      have e : rr_iter below 1 101 s0 = none := h101
      show rr_iter below 1 (101 + m) s0 = none
      rw [rr_iter_add, e]
      rfl
  unfold simulate_rr
  rw [hall]

/-- C17 fails. On `[(1,0,99),(2,100,2)]` with quantum 1 the idle scan leaves `rear = 100`
(it has no `rear %= 100`), and the slice of pid 2 that follows ends with the write
`queue[100] = 1`, outside the 100 slots: every run of 101 iterations or more is undefined.
On `[(1,0,99),(2,100,1),(3,200,1)]` no write is out of range, but after 101 iterations
`front = 0`, `rear = 100` and the loop dequeues slot 0, which holds position 0 again and
again: a task that was dequeued long before and is finished. -/
theorem rr_queue_leaves_its_bounds :
    well_formed overrun_registry
    ∧ ((rr_init overrun_registry).bind (rr_iter no_match 1 100)).map
          (fun s => (s.front, s.rear, s.time, s.tasks_left, s.queue.length,
            (rr_pending s).take 3))
        = some (99, 100, 100, 1, 100, [some 1, some 0, some 0])
    ∧ (∀ (below : Int → Bool) (fuel : Nat), 101 ≤ fuel →
          simulate_rr below fuel overrun_registry 1 = Outcome.undefined_access)
    ∧ well_formed stale_registry
    ∧ ((rr_init stale_registry).bind (rr_iter no_match 1 101)).map
          (fun s => (s.front, s.rear, s.tasks_left, s.queue[0]?,
            s.tasks.map (fun t => t.remaining_time), (rr_pending s).take 3,
            (rr_pending s).length))
        = some (0, 100, 1, some (some 0), [0, 0, 1], [some 0, some 0, some 0], 100) :=
  ⟨by decide, overrun_run_state, overrun_run_undefined, by decide, stale_run_queue⟩

/-! ## SRTF: when the running task changes -/

theorem srtf_init_inv_of (tasks : List Task)
    (h : ∀ t ∈ tasks, 0 ≤ t.arrival_time ∧ 1 ≤ t.burst_time
      ∧ t.remaining_time = t.burst_time) : (srtf_init tasks).inv := by
  constructor
  · intro t ht
    obtain ⟨h1, h2, h3⟩ := h t ht
    exact ⟨h1, h2, by omega, by omega, fun hlt => by omega, fun h0 => by omega⟩
  · simp only [srtf_init]
    have : done_count tasks = 0 := by
      unfold done_count
      apply List.sum_eq_zero
      intro x hx
      simp only [List.mem_map] at hx
      obtain ⟨t, ht, rfl⟩ := hx
      obtain ⟨_, h2, h3⟩ := h t ht
      have : ¬ t.remaining_time = 0 := by omega
      simp [this]
    rw [this]; rfl

theorem srtf_init_accounted (tasks : List Task)
    (h : ∀ t ∈ tasks, t.remaining_time = t.burst_time) :
    (srtf_init tasks).accounted (srtf_fuel tasks) := by
  have hmap : (tasks.map fun t => t.remaining_time.toNat)
      = (tasks.map fun t => t.burst_time.toNat) :=
    List.map_congr_left (fun t ht => by rw [h t ht])
  refine ⟨?_, ?_, ?_⟩
  · intro p
    have hmap' : (tasks.map fun t => if t.pid = p then t.remaining_time.toNat else 0)
        = (tasks.map fun t => if t.pid = p then t.burst_time.toNat else 0) :=
      List.map_congr_left (fun t ht => by rw [h t ht])
    simp [srtf_init, running_count, work_left_of, burst_of, hmap']
  · simp only [srtf_init, total_burst, work_left, hmap]
    omega
  · rw [srtf_init_measure]
    simp [srtf_init]

theorem srtf_tick_accounted (bound : Nat) (s : SrtfState) (hinv : s.inv)
    (hc : s.completed < s.tasks.length) (h : s.accounted bound) :
    (srtf_tick s).accounted bound := by
  obtain ⟨hcount, hlow, hup⟩ := h
  have hmeas := srtf_tick_measure s hinv hc
  have htime := srtf_tick_time s
  have hup' : (srtf_tick s).time + ((srtf_tick s).measure : Int) ≤ (bound : Int) := by
    rw [htime]; omega
  rcases srtf_tick_cases s with ⟨_, htick⟩ | ⟨i, t, t1, ev, hsel, htick, hpid, _, hburst, hrem,
    _, _, _⟩
  · refine ⟨?_, ?_, hup'⟩
    · intro p
      rw [htick]
      simpa [running_count, Event.runs] using hcount p
    · rw [htick]
      simp only
      omega
  · obtain ⟨hget, hready, _⟩ := srtf_select_some s i t hsel
    have hpos : 0 < t.remaining_time := hready.1
    have hev : ∀ p : Int, running_count p ev = 0 := by
      intro p
      have hev' : (srtf_tick s).events = s.events ++ Event.running s.time t.pid :: ev := by
        rw [htick]
      by_cases h0 : t.remaining_time - 1 = 0
      · rw [srtf_tick_done s i t hsel h0] at hev'
        have : ev = [Event.finished (s.time + 1) t.pid] := by
          have := List.append_cancel_left hev'
          simpa using this.symm
        rw [this]; rfl
      · rw [srtf_tick_run s i t hsel h0] at hev'
        have : ev = [] := by
          have := List.append_cancel_left hev'
          simpa using this.symm
        rw [this]; rfl
    refine ⟨?_, ?_, hup'⟩
    · intro p
      have hw := sum_map_set (fun x => if x.pid = p then x.remaining_time.toNat else 0)
        s.tasks i t1 t hget
      have hb := sum_map_set (fun x => if x.pid = p then x.burst_time.toNat else 0)
        s.tasks i t1 t hget
      have hc0 := hcount p
      have hevp := hev p
      rw [htick]
      simp only [running_count, work_left_of, burst_of, List.countP_append, List.countP_cons,
        Event.runs] at hc0 hevp ⊢
      simp only [hpid, hburst, hrem] at hw hb
      by_cases hp : t.pid = p
      · simp only [hp, if_true, decide_True] at hw hb ⊢
        omega
      · simp only [hp, if_false, decide_False] at hw hb ⊢
        simp only [Bool.false_eq_true, if_false] at hw hb ⊢
        omega
    · have hw := sum_map_set (fun x => x.remaining_time.toNat) s.tasks i t1 t hget
      have hb := sum_map_set (fun x => x.burst_time.toNat) s.tasks i t1 t hget
      rw [htick]
      simp only [total_burst, work_left] at hlow ⊢
      simp only [hburst, hrem] at hw hb
      omega

theorem srtf_iter_accounted (bound : Nat) : ∀ (k : Nat) (s : SrtfState), s.inv →
    s.accounted bound → (srtf_iter k s).accounted bound := by
  intro k
  induction k with
  | zero => intro s _ h; exact h
  | succ k ih =>
    intro s hinv h
    unfold srtf_iter
    by_cases hc : s.completed < s.tasks.length
    · rw [if_pos hc]
      exact ih _ (srtf_tick_inv s hinv) (srtf_tick_accounted bound s hinv hc h)
    · rw [if_neg hc]; exact h

theorem work_left_zero (l : List Task) (h : ∀ t ∈ l, t.remaining_time = 0) (p : Int) :
    work_left l = 0 ∧ work_left_of p l = 0 := by
  constructor
  · unfold work_left
    apply List.sum_eq_zero
    intro x hx
    simp only [List.mem_map] at hx
    obtain ⟨t, ht, rfl⟩ := hx
    rw [h t ht]; rfl
  · unfold work_left_of
    apply List.sum_eq_zero
    intro x hx
    simp only [List.mem_map] at hx
    obtain ⟨t, ht, rfl⟩ := hx
    rw [h t ht]; simp

theorem key_sums (l l' : List Task) (h : l.map Task.key = l'.map Task.key) (p : Int) :
    burst_of p l = burst_of p l' ∧ total_burst l = total_burst l'
      ∧ last_arrival l = last_arrival l' := by
  have e1 : ∀ m : List Task, (m.map fun t => if t.pid = p then t.burst_time.toNat else 0)
      = (m.map Task.key).map (fun k => if k.1 = p then k.2.2.toNat else 0) := by
    intro m; simp [List.map_map, Function.comp_def, Task.key]
  have e2 : ∀ m : List Task, (m.map fun t => t.burst_time.toNat)
      = (m.map Task.key).map (fun k => k.2.2.toNat) := by
    intro m; simp [List.map_map, Function.comp_def, Task.key]
  have e3 : ∀ m : List Task, (m.map fun t => t.arrival_time.toNat)
      = (m.map Task.key).map (fun k => k.2.1.toNat) := by
    intro m; simp [List.map_map, Function.comp_def, Task.key]
  unfold burst_of total_burst last_arrival
  rw [e1 l, e1 l', e2 l, e2 l', e3 l, e3 l', h]
  exact ⟨rfl, rfl, rfl⟩

/-- Termination of `simulate_srtf` computed in unbounded integers, with the bounds on the
final clock. -/
theorem srtf_terminates_unbounded (tasks : List Task)
    (h : ∀ t ∈ tasks, 0 ≤ t.arrival_time ∧ 1 ≤ t.burst_time
      ∧ t.remaining_time = t.burst_time) :
    (∀ k : Nat,
      (srtf_iter k (srtf_init tasks)).completed < (srtf_iter k (srtf_init tasks)).tasks.length →
      (srtf_tick (srtf_iter k (srtf_init tasks))).measure
        < (srtf_iter k (srtf_init tasks)).measure)
    ∧ ∃ r, simulate_srtf (srtf_fuel tasks) tasks = some r
      ∧ (∀ (fuel : Nat) (r' : Run), simulate_srtf fuel tasks = some r' → r' = r)
      ∧ (∀ t ∈ r.tasks, t.remaining_time = 0)
      ∧ (∀ p : Int, running_count p r.events = burst_of p tasks)
      ∧ (total_burst tasks : Int) ≤ r.time
      ∧ r.time ≤ (last_arrival tasks : Int) + (total_burst tasks : Int) := by
  have hinv := srtf_init_inv_of tasks h
  have hacc := srtf_init_accounted tasks (fun t ht => (h t ht).2.2)
  refine ⟨fun k hc => srtf_tick_measure _ (srtf_iter_inv k _ hinv) hc, ?_⟩
  have hfin := srtf_iter_finishes (srtf_fuel tasks) (srtf_init tasks) hinv
    (le_of_eq (srtf_init_measure tasks))
  have hinv' := srtf_iter_inv (srtf_fuel tasks) (srtf_init tasks) hinv
  have hacc' := srtf_iter_accounted (srtf_fuel tasks) (srtf_fuel tasks) (srtf_init tasks)
    hinv hacc
  have hkey := srtf_iter_key (srtf_fuel tasks) (srtf_init tasks)
  have hsim : simulate_srtf (srtf_fuel tasks) tasks
      = some { tasks := (srtf_iter (srtf_fuel tasks) (srtf_init tasks)).tasks,
               time := (srtf_iter (srtf_fuel tasks) (srtf_init tasks)).time,
               events := (srtf_iter (srtf_fuel tasks) (srtf_init tasks)).events
                 ++ [Event.all_finished (srtf_iter (srtf_fuel tasks) (srtf_init tasks)).time] } := by
    unfold simulate_srtf
    simp only [hfin, if_false]
  generalize srtf_iter (srtf_fuel tasks) (srtf_init tasks) = s at hfin hinv' hacc' hkey hsim
  have hzero : ∀ t ∈ s.tasks, t.remaining_time = 0 := by
    obtain ⟨_, hcount⟩ := hinv'
    apply done_count_full
    rw [hcount] at hfin
    have := not_lt.mp hfin
    exact_mod_cast this
  obtain ⟨hcnt, hlow, hup⟩ := hacc'
  have hfuel : srtf_fuel tasks = last_arrival tasks + total_burst tasks := by
    unfold srtf_fuel last_arrival total_burst
    have hmap : (tasks.map fun t => t.remaining_time.toNat)
        = (tasks.map fun t => t.burst_time.toNat) :=
      List.map_congr_left (fun t ht => by rw [(h t ht).2.2])
    rw [hmap]
  refine ⟨_, hsim, fun fuel r' h' => simulate_srtf_unique _ _ tasks _ r' hsim h', hzero, ?_, ?_, ?_⟩
  · intro p
    have h1 := hcnt p
    rw [(work_left_zero s.tasks hzero p).2, (key_sums s.tasks tasks hkey p).1] at h1
    simp only [running_count, List.countP_append] at h1 ⊢
    simpa [Event.runs] using h1
  · rw [(work_left_zero s.tasks hzero 0).1, (key_sums s.tasks tasks hkey 0).2.1] at hlow
    simpa using hlow
  · rw [hfuel] at hup
    simp only
    have : (0 : Int) ≤ (s.measure : Int) := Int.ofNat_nonneg _
    push_cast at hup
    omega

/-! ## The start time is the tick of the first execution -/

theorem fcfs_task_first_event (time : Int) (t : Task) (hb : 1 ≤ t.burst_time)
    (hr : t.remaining_time = t.burst_time) :
    ∃ rest : List Event,
      (fcfs_task time t).2.2
        = (if time < t.arrival_time then [Event.idle time] else [])
          ++ Event.running (fcfs_task time t).1.start_time t.pid :: rest := by
  rw [fcfs_task_events time t (by omega) hr, fcfs_task_start]
  unfold fcfs_segment
  obtain ⟨m, hm⟩ : ∃ m, t.burst_time.toNat = m + 1 := ⟨t.burst_time.toNat - 1, by omega⟩
  rw [hm, List.range_succ_eq_map]
  simp only [List.map_cons, List.append_assoc, List.cons_append, Nat.cast_zero, add_zero]
  exact ⟨_, rfl⟩

theorem srtf_tick_start (s : SrtfState) (htime : 0 ≤ s.time)
    (h : ∀ x ∈ s.tasks, x.start_ok) :
    (∀ x ∈ (srtf_tick s).tasks, x.start_ok)
    ∧ ((srtf_tick s).tasks = s.tasks
      ∨ ∃ (i : Nat) (t t' : Task) (rest : List Event), s.tasks[i]? = some t
          ∧ (srtf_tick s).tasks = s.tasks.set i t'
          ∧ t.arrival_time ≤ s.time
          ∧ t'.start_time = (if t.start_time = -1 then s.time else t.start_time)
          ∧ (srtf_tick s).events = s.events ++ Event.running s.time t.pid :: rest
          ∧ (t.start_time = -1 → t.remaining_time = t.burst_time)) := by
  rcases srtf_tick_cases s with ⟨_, ht⟩ | ⟨i, t, t1, ev, hsel, ht, _, harr, hburst, hrem,
    hstart, _, _⟩
  · rw [ht]; exact ⟨h, Or.inl rfl⟩
  · obtain ⟨hget, hready, _⟩ := srtf_select_some s i t hsel
    have hok := h t (List.getElem?_mem hget)
    have hfirst : t.start_time = -1 → t.remaining_time = t.burst_time := by
      intro h1
      rcases hok with ⟨_, h2⟩ | ⟨_, h2⟩
      · exact h2
      · omega
    rw [ht]
    refine ⟨?_, Or.inr ⟨i, t, t1, ev, hget, rfl, hready.2, hstart, rfl, hfirst⟩⟩
    intro x hx
    simp only at hx
    rcases List.mem_or_eq_of_mem_set hx with hx | rfl
    · exact h x hx
    · right
      rw [hstart, harr]
      by_cases h1 : t.start_time = -1
      · rw [if_pos h1]; exact ⟨hready.2, htime⟩
      · rw [if_neg h1]
        rcases hok with ⟨h2, _⟩ | h2
        · exact absurd h2 h1
        · exact h2

theorem srtf_iter_start : ∀ (k : Nat) (s : SrtfState), 0 ≤ s.time →
    (∀ x ∈ s.tasks, x.start_ok) →
    0 ≤ (srtf_iter k s).time ∧ ∀ x ∈ (srtf_iter k s).tasks, x.start_ok := by
  intro k
  induction k with
  | zero => intro s h0 h; exact ⟨h0, h⟩
  | succ k ih =>
    intro s h0 h
    unfold srtf_iter
    split
    · exact ih _ (by rw [srtf_tick_time]; omega) (srtf_tick_start s h0 h).1
    · exact ⟨h0, h⟩

theorem srtf_tick_first_run (s : SrtfState) (h : ∀ x ∈ s.tasks, x.start_ok) :
    (srtf_scan s.time s.tasks 0 none = none → (srtf_tick s).tasks = s.tasks)
    ∧ (∀ (i : Nat) (t : Task), srtf_scan s.time s.tasks 0 none = some (i, t) →
        s.tasks[i]? = some t ∧ t.arrival_time ≤ s.time
        ∧ ∃ (t' : Task) (rest : List Event),
            (srtf_tick s).tasks = s.tasks.set i t'
            ∧ t'.start_time = (if t.start_time = -1 then s.time else t.start_time)
            ∧ (srtf_tick s).events = s.events ++ Event.running s.time t.pid :: rest
            ∧ (t.start_time = -1 → t.remaining_time = t.burst_time)) := by
  constructor
  · intro hsel
    rw [srtf_tick_idle s hsel]
  · intro i t hsel
    obtain ⟨hget, hready, _⟩ := srtf_select_some s i t hsel
    refine ⟨hget, hready.2, ?_⟩
    rcases srtf_tick_cases s with ⟨hnone, _⟩ | ⟨i2, t2, t1, ev, hsel2, ht, _, _, _, _,
      hstart, _, _⟩
    · rw [hnone] at hsel; cases hsel
    · rw [hsel] at hsel2
      cases hsel2
      refine ⟨t1, ev, by rw [ht], hstart, by rw [ht], ?_⟩
      intro h1
      rcases h t (List.getElem?_mem hget) with ⟨_, h2⟩ | ⟨_, h2⟩
      · exact h2
      · omega

theorem slots_arrived_write (s s' : RRState) (j : Nat) (t : Task) (h : s.slots_arrived)
    (ht : s.tasks[j]? = some t) (harr : t.arrival_time ≤ s.time)
    (hq : s'.queue = s.queue.set s.rear (some j)) (htasks : s'.tasks = s.tasks)
    (htime : s'.time = s.time) : s'.slots_arrived := by
  intro k x hk
  rw [hq] at hk
  rw [htasks, htime]
  by_cases hkr : s.rear = k
  · subst hkr
    have hlt : s.rear < s.queue.length := by
      rcases Nat.lt_or_ge s.rear s.queue.length with h1 | h1
      · exact h1
      · rw [List.getElem?_eq_none (by simpa using h1)] at hk; cases hk
    rw [List.getElem?_set_self hlt] at hk
    have : x = j := by simpa using hk.symm
    subst this
    exact ⟨t, ht, harr⟩
  · rw [List.getElem?_set_ne hkr] at hk
    exact h k x hk

theorem slots_arrived_admission (s s' : RRState) (j : Nat) (t : Task) (h : s.slots_arrived)
    (ht : s.tasks[j]? = some t) (harr : t.arrival_time ≤ s.time)
    (hadm : rr_admit_plain s j = some s' ∨ rr_admit_wrap s j = some s'
      ∨ rr_requeue s j = some s') : s'.slots_arrived := by
  rcases hadm with hadm | hadm | hadm
  · obtain ⟨_, _, rfl⟩ := rr_admit_plain_eq s s' j hadm
    exact slots_arrived_write s _ j t h ht harr rfl rfl rfl
  · obtain ⟨_, _, rfl⟩ := rr_admit_wrap_eq s s' j hadm
    exact slots_arrived_write s _ j t h ht harr rfl rfl rfl
  · unfold rr_requeue at hadm
    split at hadm
    · cases hadm
      exact slots_arrived_write s _ j t h ht harr rfl rfl rfl
    · cases hadm

theorem slots_arrived_update (s s' : RRState) (i : Nat) (t t1 : Task) (h : s.slots_arrived)
    (ht : s.tasks[i]? = some t) (harr : t1.arrival_time = t.arrival_time)
    (hq : s'.queue = s.queue) (htasks : s'.tasks = s.tasks.set i t1)
    (htime : s.time ≤ s'.time) : s'.slots_arrived := by
  intro k x hk
  rw [hq] at hk
  obtain ⟨u, hu, hua⟩ := h k x hk
  rw [htasks]
  by_cases hix : i = x
  · subst hix
    have hlt : i < s.tasks.length := by
      rcases Nat.lt_or_ge i s.tasks.length with h1 | h1
      · exact h1
      · rw [List.getElem?_eq_none h1] at ht; cases ht
    rw [ht] at hu
    cases hu
    exact ⟨t1, List.getElem?_set_self hlt, by omega⟩
  · rw [List.getElem?_set_ne hix]
    exact ⟨u, hu, by omega⟩

theorem rr_scan_arrivals_slots : ∀ (js : List Nat) (s s' : RRState), s.slots_arrived →
    rr_scan_arrivals js s = some s' → s'.slots_arrived := by
  intro js
  induction js with
  | nil => intro s s' h hscan; cases hscan; exact h
  | cons j js ih =>
    intro s s' h hscan
    unfold rr_scan_arrivals at hscan
    cases ht : s.tasks[j]? with
    | none => rw [ht] at hscan; cases hscan
    | some t =>
      rw [ht] at hscan
      simp only at hscan
      by_cases harr : t.arrival_time ≤ s.time
      · rw [if_pos harr] at hscan
        cases hflag : s.in_queue[j]? with
        | none => rw [hflag] at hscan; cases hscan
        | some flag =>
          rw [hflag] at hscan
          simp only at hscan
          cases flag with
          | true =>
            simp only [if_true] at hscan
            exact ih s s' h hscan
          | false =>
            simp only [Bool.false_eq_true, if_false] at hscan
            by_cases hrem : t.remaining_time > 0
            · rw [if_pos hrem] at hscan
              cases hadm : rr_admit_wrap s j with
              | none => rw [hadm] at hscan; cases hscan
              | some s1 =>
                rw [hadm] at hscan
                exact ih s1 s' (slots_arrived_admission s s1 j t h ht harr (Or.inr (Or.inl hadm)))
                  hscan
            · rw [if_neg hrem] at hscan
              exact ih s s' h hscan
      · rw [if_neg harr] at hscan
        exact ih s s' h hscan

theorem rr_scan_idle_slots : ∀ (js : List Nat) (s s' : RRState), s.slots_arrived →
    rr_scan_idle js s = some s' → s'.slots_arrived := by
  intro js
  induction js with
  | nil => intro s s' h hscan; cases hscan; exact h
  | cons j js ih =>
    intro s s' h hscan
    unfold rr_scan_idle at hscan
    cases ht : s.tasks[j]? with
    | none => rw [ht] at hscan; cases hscan
    | some t =>
      rw [ht] at hscan
      simp only at hscan
      by_cases harr : t.arrival_time = s.time
      · rw [if_pos harr] at hscan
        cases hflag : s.in_queue[j]? with
        | none => rw [hflag] at hscan; cases hscan
        | some flag =>
          rw [hflag] at hscan
          simp only at hscan
          cases flag with
          | true =>
            simp only [if_true] at hscan
            exact ih s s' h hscan
          | false =>
            simp only [Bool.false_eq_true, if_false] at hscan
            cases hadm : rr_admit_plain s j with
            | none => rw [hadm] at hscan; cases hscan
            | some s1 =>
              rw [hadm] at hscan
              exact ih s1 s' (slots_arrived_admission s s1 j t h ht (le_of_eq harr) (Or.inl hadm))
                hscan
      · rw [if_neg harr] at hscan
        exact ih s s' h hscan

theorem rr_scan_initial_slots : ∀ (js : List Nat) (s s' : RRState), s.slots_arrived →
    0 ≤ s.time → rr_scan_initial js s = some s' → s'.slots_arrived := by
  intro js
  induction js with
  | nil => intro s s' h _ hscan; cases hscan; exact h
  | cons j js ih =>
    intro s s' h h0 hscan
    unfold rr_scan_initial at hscan
    cases ht : s.tasks[j]? with
    | none => rw [ht] at hscan; cases hscan
    | some t =>
      rw [ht] at hscan
      simp only at hscan
      by_cases harr : t.arrival_time = 0
      · rw [if_pos harr] at hscan
        cases hadm : rr_admit_plain s j with
        | none => rw [hadm] at hscan; cases hscan
        | some s1 =>
          rw [hadm] at hscan
          exact ih s1 s' (slots_arrived_admission s s1 j t h ht (by omega) (Or.inl hadm))
            (by rw [(rr_admit_plain_frame s s1 j hadm).2.1]; exact h0) hscan
      · rw [if_neg harr] at hscan
        exact ih s s' h h0 hscan

theorem rr_init_started (tasks : List Task) (h : ∀ t ∈ tasks, t.fresh) (s : RRState)
    (h0 : rr_init tasks = some s) : s.started_ok := by
  obtain ⟨h1, h2, _, _⟩ := rr_init_tasks tasks s h0
  refine ⟨?_, ?_, by rw [h2]⟩
  · intro x hx
    rw [h1] at hx
    obtain ⟨_, a2, a3, a4⟩ := h x hx
    exact ⟨a2, by omega, Or.inl ⟨a4, a3⟩⟩
  · unfold rr_init at h0
    refine rr_scan_initial_slots _ _ s ?_ (le_refl _) h0
    intro k j hk
    simp only [List.getElem?_replicate] at hk
    split at hk <;> cases hk

/-- One iteration of the loop of `simulate_rr` and the start times: the invariant is kept; an
idle iteration changes no record; an iteration that runs a slice changes the record of the
dequeued task only, which had arrived: its `start_time` becomes the clock before the slice if
it was `-1` and is kept otherwise, and in the first case the slice starts with a running
event at that tick. -/
theorem rr_step_started (below : Int → Bool) (time_quantum : Int) (hq : 1 ≤ time_quantum)
    (s s' : RRState) (h : s.started_ok) (hstep : rr_step below time_quantum s = some s') :
    s'.started_ok
    ∧ (s.front = s.rear → s'.tasks = s.tasks)
    ∧ (s.front ≠ s.rear →
        ∃ (i : Nat) (t t' : Task), s.queue[s.front]? = some (some i)
          ∧ s.tasks[i]? = some t
          ∧ s'.tasks = s.tasks.set i t'
          ∧ t.arrival_time ≤ s.time
          ∧ t'.start_time = (if t.start_time = -1 then s.time else t.start_time)
          ∧ (t.start_time = -1 →
              t.remaining_time = t.burst_time
              ∧ ∃ rest : List Event,
                  s'.events = s.events ++ Event.running s.time t.pid :: rest)) := by
  obtain ⟨hall, hslots, htime⟩ := h
  unfold rr_step at hstep
  by_cases he : s.front = s.rear
  · rw [if_pos he] at hstep
    obtain ⟨_, hscan⟩ := rr_idle_cases below s s' hstep
    obtain ⟨f1, f2, _, _, _⟩ := rr_scan_idle_frame _ _ _ hscan
    have hs1 : RRState.slots_arrived
        { s with events := s.events ++ [Event.idle s.time], time := s.time + 1 } := by
      intro k j hk
      obtain ⟨t, ht, hta⟩ := hslots k j hk
      exact ⟨t, ht, by show t.arrival_time ≤ s.time + 1; omega⟩
    refine ⟨⟨by rw [f1]; exact hall, rr_scan_idle_slots _ _ s' hs1 hscan, ?_⟩,
      fun _ => f1, fun hne => absurd he hne⟩
    rw [f2]
    show 0 ≤ s.time + 1
    omega
  · rw [if_neg he] at hstep
    obtain ⟨i, t, s2, hqi, ht, hscan, hend⟩ := rr_slice_cases time_quantum s s' hstep
    obtain ⟨f1, f2, _, _, f5⟩ := rr_scan_arrivals_frame _ _ _ hscan
    obtain ⟨t0, ht0, harr⟩ := hslots s.front i hqi
    rw [ht] at ht0
    cases ht0
    obtain ⟨hb, hr, hok⟩ := hall t (List.getElem?_mem ht)
    have hfirst : t.start_time = -1 → t.remaining_time = t.burst_time := by
      intro h1
      rcases hok with ⟨_, h2⟩ | ⟨_, h2⟩
      · exact h2
      · omega
    have hrun : 0 ≤ rr_runtime time_quantum t ∧ rr_runtime time_quantum t ≤ t.remaining_time
        ∧ (t.remaining_time = t.burst_time → 1 ≤ rr_runtime time_quantum t) := by
      rw [rr_runtime_min]
      refine ⟨by omega, by omega, fun h1 => by omega⟩
    have hok1 : (rr_after_slice time_quantum s.time t).start_ok := by
      right
      show t.arrival_time ≤ (if t.start_time = -1 then s.time else t.start_time)
        ∧ 0 ≤ (if t.start_time = -1 then s.time else t.start_time)
      by_cases h1 : t.start_time = -1
      · rw [if_pos h1]; exact ⟨harr, htime⟩
      · rw [if_neg h1]
        rcases hok with ⟨h2, _⟩ | h2
        · exact absurd h2 h1
        · exact h2
    have htask1 : 1 ≤ (rr_after_slice time_quantum s.time t).burst_time
        ∧ 0 ≤ (rr_after_slice time_quantum s.time t).remaining_time
        ∧ (rr_after_slice time_quantum s.time t).start_ok := by
      refine ⟨hb, ?_, hok1⟩
      show 0 ≤ t.remaining_time - rr_runtime time_quantum t
      omega
    have hsa : (rr_after_run time_quantum s i t).slots_arrived :=
      slots_arrived_update s _ i t (rr_after_slice time_quantum s.time t) hslots ht rfl rfl rfl (by
        show s.time ≤ s.time + ((rr_runtime time_quantum t).toNat : Int)
        omega)
    have hs2 := rr_scan_arrivals_slots _ _ s2 hsa hscan
    have htime2 : s.time ≤ s2.time := by
      rw [f2]
      show s.time ≤ s.time + ((rr_runtime time_quantum t).toNat : Int)
      omega
    have hi2 : s2.tasks[i]? = some (rr_after_slice time_quantum s.time t) := by
      rw [f1]
      have hlt : i < s.tasks.length := by
        rcases Nat.lt_or_ge i s.tasks.length with h1 | h1
        · exact h1
        · rw [List.getElem?_eq_none h1] at ht; cases ht
      exact List.getElem?_set_self hlt
    have hall2 : ∀ x ∈ s2.tasks, 1 ≤ x.burst_time ∧ 0 ≤ x.remaining_time ∧ x.start_ok := by
      intro x hx
      rw [f1] at hx
      rcases List.mem_or_eq_of_mem_set hx with hx | rfl
      · exact hall x hx
      · exact htask1
    have hev2 : t.start_time = -1 → ∃ rest2 : List Event,
        s2.events = s.events ++ Event.running s.time t.pid :: rest2 := by
      intro h1
      have h2 := hrun.2.2 (hfirst h1)
      obtain ⟨m, hm⟩ : ∃ m, (rr_runtime time_quantum t).toNat = m + 1 :=
        ⟨(rr_runtime time_quantum t).toNat - 1, by omega⟩
      rw [f5]
      simp only [rr_after_run, hm, rr_slice_events]
      exact ⟨_, rfl⟩
    rcases hend with ⟨h0, rfl⟩ | ⟨h0, hreq⟩
    · refine ⟨⟨?_, ?_, by show 0 ≤ s2.time; omega⟩, fun h1 => absurd h1 he,
        fun _ => ⟨i, t, rr_record_finish s2.time (rr_after_slice time_quantum s.time t), hqi,
          ht, ?_, harr, rfl, ?_⟩⟩
      · intro x hx
        simp only at hx
        rcases List.mem_or_eq_of_mem_set hx with hx | rfl
        · exact hall2 x hx
        · exact ⟨hb, by show 0 ≤ t.remaining_time - rr_runtime time_quantum t; omega, hok1⟩
      · exact slots_arrived_update s2 _ i (rr_after_slice time_quantum s.time t)
          (rr_record_finish s2.time (rr_after_slice time_quantum s.time t)) hs2 hi2 rfl rfl rfl
          (le_refl _)
      · simp only [f1, rr_after_run, List.set_set]
      · intro h1
        obtain ⟨rest2, hr2⟩ := hev2 h1
        refine ⟨hfirst h1, rest2 ++ [Event.finished s2.time t.pid], ?_⟩
        simp only [hr2, List.append_assoc, List.cons_append]
    · obtain ⟨g1, g2, _, _, g5, _⟩ := rr_requeue_frame _ _ _ hreq
      refine ⟨⟨by rw [g1]; exact hall2, ?_, by rw [g2]; omega⟩, fun h1 => absurd h1 he,
        fun _ => ⟨i, t, rr_after_slice time_quantum s.time t, hqi, ht, by rw [g1, f1]; rfl,
          harr, rfl, ?_⟩⟩
      · exact slots_arrived_admission s2 s' i (rr_after_slice time_quantum s.time t) hs2 hi2
          (by show t.arrival_time ≤ s2.time; omega)
          (Or.inr (Or.inr hreq))
      · intro h1
        obtain ⟨rest2, hr2⟩ := hev2 h1
        exact ⟨hfirst h1, rest2, by rw [g5, hr2]⟩

theorem rr_iter_started (below : Int → Bool) (time_quantum : Int) (hq : 1 ≤ time_quantum) :
    ∀ (k : Nat) (s s' : RRState), s.started_ok → rr_iter below time_quantum k s = some s' →
      s'.started_ok := by
  intro k
  induction k with
  | zero => intro s s' h hs; cases hs; exact h
  | succ k ih =>
    intro s s' h hs
    unfold rr_iter at hs
    split at hs
    · cases hstep : rr_step below time_quantum s with
      | none => rw [hstep] at hs; cases hs
      | some s1 =>
        rw [hstep] at hs
        exact ih s1 s' (rr_step_started below time_quantum hq s s1 h hstep).1 hs
    · cases hs; exact h

theorem rr_reached_started (tasks : List Task) (h : ∀ t ∈ tasks, t.fresh) (below : Int → Bool)
    (time_quantum : Int) (hq : 1 ≤ time_quantum) (k : Nat) (s : RRState)
    (hs : (rr_init tasks).bind (rr_iter below time_quantum k) = some s) : s.started_ok := by
  cases h0 : rr_init tasks with
  | none => rw [h0] at hs; cases hs
  | some s0 =>
    rw [h0] at hs
    exact rr_iter_started below time_quantum hq k s0 s (rr_init_started tasks h s0 h0) hs

theorem rr_reached_metrics (tasks : List Task) (h : ∀ t ∈ tasks, t.fresh) (below : Int → Bool)
    (time_quantum : Int) (k : Nat) (s : RRState)
    (hs : (rr_init tasks).bind (rr_iter below time_quantum k) = some s) :
    ∀ x ∈ s.tasks, x.remaining_time = 0 → x.metrics_ok := by
  cases h0 : rr_init tasks with
  | none => rw [h0] at hs; cases hs
  | some s0 =>
    rw [h0] at hs
    refine rr_iter_tasks_inv below time_quantum
      (fun x => x.remaining_time = 0 → x.metrics_ok) ?_ ?_ k s0 s ?_ hs
    · intro time t _ hne h0'; exact absurd h0' hne
    · intro time time' t _ _ _; exact (rr_record_finish_metrics _ _).1
    · intro x hx hx0
      rw [(rr_init_tasks tasks s0 h0).1] at hx
      obtain ⟨_, h2, h3, _⟩ := h x hx
      omega

theorem fcfs_loop_append : ∀ (l1 l2 : List Task) (time : Int),
    (fcfs_loop time (l1 ++ l2)).tasks
        = (fcfs_loop time l1).tasks ++ (fcfs_loop (fcfs_loop time l1).time l2).tasks
    ∧ (fcfs_loop time (l1 ++ l2)).time = (fcfs_loop (fcfs_loop time l1).time l2).time := by
  intro l1
  induction l1 with
  | nil => intro l2 time; exact ⟨rfl, rfl⟩
  | cons a l1 ih =>
    intro l2 time
    obtain ⟨h1, h2⟩ := ih l2 (fcfs_task time a).2.1
    refine ⟨?_, ?_⟩
    · show (fcfs_task time a).1 :: (fcfs_loop (fcfs_task time a).2.1 (l1 ++ l2)).tasks = _
      rw [h1]; rfl
    · show (fcfs_loop (fcfs_task time a).2.1 (l1 ++ l2)).time = _
      rw [h2]; rfl

theorem fcfs_prefix_succ (tasks : List Task) (m : Nat) (t : Task) (h : tasks[m]? = some t) :
    (fcfs_loop 0 (tasks.take (m + 1))).tasks
        = (fcfs_loop 0 (tasks.take m)).tasks
          ++ [(fcfs_task (fcfs_loop 0 (tasks.take m)).time t).1]
    ∧ (fcfs_loop 0 (tasks.take (m + 1))).time
        = (fcfs_task (fcfs_loop 0 (tasks.take m)).time t).2.1 := by
  have htake : tasks.take (m + 1) = tasks.take m ++ [t] := by
    rw [List.take_succ, h]; rfl
  rw [htake]
  obtain ⟨h1, h2⟩ := fcfs_loop_append (tasks.take m) [t] 0
  rw [h1, h2]
  exact ⟨rfl, rfl⟩

theorem ring_ok_admit (s : RRState) (k : Nat) (h : s.ring_ok k) (hk : k < 100)
    (hrear : s.rear = k) :
    (∃ s1, rr_admit_plain s k = some s1 ∧ s1.ring_ok (k + 1) ∧ s1.rear = k + 1
        ∧ s1.tasks = s.tasks ∧ s1.time = s.time ∧ s1.tasks_left = s.tasks_left
        ∧ s1.front = s.front ∧ s1.events = s.events)
    ∧ (∃ s1, rr_admit_wrap s k = some s1 ∧ s1.ring_ok (k + 1) ∧ s1.rear = (k + 1) % 100
        ∧ s1.tasks = s.tasks ∧ s1.time = s.time ∧ s1.tasks_left = s.tasks_left
        ∧ s1.front = s.front ∧ s1.events = s.events) := by
  obtain ⟨hq, hf, hslots, hflags⟩ := h
  have hcond : s.rear < s.queue.length ∧ k < s.in_queue.length := by
    rw [hq, hf, hrear]; exact ⟨hk, hk⟩
  have hring : ∀ r' : Nat, RRState.ring_ok
      { s with queue := s.queue.set s.rear (some k), rear := r',
               in_queue := s.in_queue.set k true } (k + 1) := by
    intro r'
    refine ⟨by simp [hq], by simp [hf], ?_, ?_⟩
    · intro j hj
      simp only
      by_cases hjk : j = k
      · subst hjk
        rw [hrear]
        exact List.getElem?_set_self (by rw [hq]; exact hk)
      · rw [hrear, List.getElem?_set_ne (fun e => hjk e.symm)]
        exact hslots j (by omega)
    · intro j hj
      simp only
      by_cases hjk : j = k
      · subst hjk
        rw [List.getElem?_set_self (by rw [hf]; exact hk)]
        simp
      · rw [List.getElem?_set_ne (fun e => hjk e.symm), hflags j hj]
        congr 1
        simp only [decide_eq_decide]
        omega
  constructor
  · refine ⟨_, by unfold rr_admit_plain; rw [if_pos hcond], hring _, ?_, rfl, rfl, rfl, rfl, rfl⟩
    simp only [hrear]
  · refine ⟨_, by unfold rr_admit_wrap; rw [if_pos hcond], hring _, ?_, rfl, rfl, rfl, rfl, rfl⟩
    simp only [hrear]

theorem rr_scan_arrivals_skip (s : RRState) (j : Nat) (js : List Nat) (t : Task)
    (ht : s.tasks[j]? = some t)
    (h : ¬ t.arrival_time ≤ s.time ∨ s.in_queue[j]? = some true) :
    rr_scan_arrivals (j :: js) s = rr_scan_arrivals js s := by
  simp only [rr_scan_arrivals, ht]
  by_cases harr : t.arrival_time ≤ s.time
  · rcases h with h | h
    · exact absurd harr h
    · rw [if_pos harr, h]; simp
  · rw [if_neg harr]

theorem rr_scan_arrivals_take (s : RRState) (j : Nat) (js : List Nat) (t : Task)
    (ht : s.tasks[j]? = some t) (harr : t.arrival_time ≤ s.time)
    (hflag : s.in_queue[j]? = some false) (hrem : 0 < t.remaining_time) :
    rr_scan_arrivals (j :: js) s = (rr_admit_wrap s j).bind (rr_scan_arrivals js) := by
  simp only [rr_scan_arrivals, ht]
  rw [if_pos harr, hflag]
  simp [hrem]

theorem rr_scan_idle_skip (s : RRState) (i : Nat) (is : List Nat) (t : Task)
    (ht : s.tasks[i]? = some t)
    (h : ¬ t.arrival_time = s.time ∨ s.in_queue[i]? = some true) :
    rr_scan_idle (i :: is) s = rr_scan_idle is s := by
  simp only [rr_scan_idle, ht]
  by_cases harr : t.arrival_time = s.time
  · rcases h with h | h
    · exact absurd harr h
    · rw [if_pos harr, h]; simp
  · rw [if_neg harr]

theorem rr_scan_idle_take (s : RRState) (i : Nat) (is : List Nat) (t : Task)
    (ht : s.tasks[i]? = some t) (harr : t.arrival_time = s.time)
    (hflag : s.in_queue[i]? = some false) :
    rr_scan_idle (i :: is) s = (rr_admit_plain s i).bind (rr_scan_idle is) := by
  simp only [rr_scan_idle, ht]
  rw [if_pos harr, hflag]
  simp

theorem rr_scan_initial_skip (s : RRState) (i : Nat) (is : List Nat) (t : Task)
    (ht : s.tasks[i]? = some t) (h : ¬ t.arrival_time = 0) :
    rr_scan_initial (i :: is) s = rr_scan_initial is s := by
  simp only [rr_scan_initial, ht]
  rw [if_neg h]

theorem rr_scan_initial_take (s : RRState) (i : Nat) (is : List Nat) (t : Task)
    (ht : s.tasks[i]? = some t) (harr : t.arrival_time = 0) :
    rr_scan_initial (i :: is) s = (rr_admit_plain s i).bind (rr_scan_initial is) := by
  simp only [rr_scan_initial, ht]
  rw [if_pos harr]

theorem getElem?_lt_length {α : Type} (l : List α) (j : Nat) (x : α) (h : l[j]? = some x) :
    j < l.length := by
  by_contra hn
  rw [List.getElem?_eq_none (by omega)] at h
  exact Option.noConfusion h

theorem getElem?_some_of_lt {α : Type} (l : List α) (j : Nat) (h : j < l.length) :
    ∃ x, l[j]? = some x :=
  ⟨l[j], List.getElem?_eq_getElem h⟩

theorem rr_scan_arrivals_sorted (tasks : List Task) (hn : tasks.length ≤ 100)
    (hrem : ∀ (j : Nat) (t : Task), tasks[j]? = some t → 0 < t.remaining_time)
    (hsorted : ∀ (i j : Nat) (ti tj : Task), i ≤ j → tasks[i]? = some ti →
      tasks[j]? = some tj → ti.arrival_time ≤ tj.arrival_time) :
    ∀ (len a : Nat) (s : RRState) (k : Nat), a + len = tasks.length → k ≤ tasks.length →
      s.tasks.length = tasks.length → (∀ j : Nat, k ≤ j → s.tasks[j]? = tasks[j]?) →
      s.ring_ok k → (k < 100 → s.rear = k) →
      (a ≤ k ∨ (k < a ∧ ∀ t : Task, tasks[k]? = some t → s.time < t.arrival_time)) →
      ∃ (s' : RRState) (k' : Nat), rr_scan_arrivals (List.range' a len) s = some s'
        ∧ k ≤ k' ∧ k' ≤ tasks.length ∧ s'.ring_ok k'
        ∧ ((k' = k ∧ s'.rear = s.rear) ∨ (k < k' ∧ s'.rear = k' % 100))
        ∧ s'.tasks = s.tasks ∧ s'.time = s.time ∧ s'.tasks_left = s.tasks_left
        ∧ s'.front = s.front ∧ s'.events = s.events
        ∧ (∀ (j : Nat) (t : Task), k ≤ j → j < k' → tasks[j]? = some t →
            t.arrival_time ≤ s.time)
        ∧ (∀ (j : Nat) (t : Task), k' ≤ j → tasks[j]? = some t →
            s.time < t.arrival_time) := by
  intro len
  induction len with
  | zero =>
    intro a s k hlen hk hsl hst hring hrear hmode
    refine ⟨s, k, rfl, le_refl _, hk, hring, Or.inl ⟨rfl, rfl⟩, rfl, rfl, rfl, rfl, rfl,
      fun j t h1 h2 _ => absurd h2 (by omega), ?_⟩
    intro j t hj hjt
    have hjn := getElem?_lt_length tasks j t hjt
    rcases hmode with h | ⟨h, hstop⟩
    · omega
    · obtain ⟨tk, htk⟩ := getElem?_some_of_lt tasks k (by omega)
      have h1 := hstop tk htk
      have h2 := hsorted k j tk t hj htk hjt
      omega
  | succ len ih =>
    intro a s k hlen hk hsl hst hring hrear hmode
    rw [List.range'_succ]
    have ha : a < tasks.length := by omega
    obtain ⟨ta, hta⟩ := getElem?_some_of_lt s.tasks a (by omega)
    by_cases hak : a < k
    · rw [rr_scan_arrivals_skip s a _ ta hta
        (Or.inr (by rw [hring.2.2.2 a (by omega)]; simp [hak]))]
      exact ih (a + 1) s k (by omega) hk hsl hst hring hrear (Or.inl (by omega))
    · have hta2 : tasks[a]? = some ta := by rw [← hst a (by omega)]; exact hta
      by_cases hak2 : a = k
      · subst hak2
        by_cases harr : ta.arrival_time ≤ s.time
        · obtain ⟨-, s1, hs1, hring1, hrear1, ht1, htime1, hleft1, hfront1, hev1⟩ :=
            ring_ok_admit s a hring (by omega) (hrear (by omega))
          rw [rr_scan_arrivals_take s a _ ta hta harr
            (by rw [hring.2.2.2 a (by omega)]; simp) (hrem a ta hta2), hs1]
          obtain ⟨s', k', hrun, hkk, hkn, hring2, hrear2, ht2, htime2, hleft2, hfront2,
              hev2, harrived, hlater⟩ :=
            ih (a + 1) s1 (a + 1) (by omega) (by omega) (by rw [ht1]; exact hsl)
              (fun j hj => by rw [ht1]; exact hst j (by omega)) hring1
              (fun h => by rw [hrear1]; omega) (Or.inl (le_refl _))
          refine ⟨s', k', hrun, by omega, hkn, hring2, Or.inr ⟨by omega, ?_⟩,
            by rw [ht2, ht1], by rw [htime2, htime1], by rw [hleft2, hleft1],
            by rw [hfront2, hfront1], by rw [hev2, hev1], ?_, ?_⟩
          · rcases hrear2 with ⟨h1, h2⟩ | ⟨_, h2⟩
            · rw [h2, hrear1, h1]
            · exact h2
          · intro j t hj1 hj2 hjt
            by_cases hja : j = a
            · subst hja
              rw [hta2] at hjt
              cases hjt
              exact harr
            · rw [← htime1]
              exact harrived j t (by omega) hj2 hjt
          · intro j t hj hjt
            rw [← htime1]
            exact hlater j t hj hjt
        · rw [rr_scan_arrivals_skip s a _ ta hta (Or.inl harr)]
          exact ih (a + 1) s a (by omega) hk hsl hst hring hrear
            (Or.inr ⟨by omega, fun t ht => by
              rw [hta2] at ht
              cases ht
              omega⟩)
      · rcases hmode with h | ⟨h, hstop⟩
        · omega
        · obtain ⟨tk, htk⟩ := getElem?_some_of_lt tasks k (by omega)
          have h1 := hstop tk htk
          have h2 := hsorted k a tk ta (by omega) htk hta2
          rw [rr_scan_arrivals_skip s a _ ta hta (Or.inl (by omega))]
          exact ih (a + 1) s k (by omega) hk hsl hst hring hrear
            (Or.inr ⟨by omega, hstop⟩)

theorem rr_scan_idle_sorted (tasks : List Task) (hn : tasks.length ≤ 100)
    (hsorted : ∀ (i j : Nat) (ti tj : Task), i ≤ j → tasks[i]? = some ti →
      tasks[j]? = some tj → ti.arrival_time ≤ tj.arrival_time) :
    ∀ (len a : Nat) (s : RRState) (k : Nat), a + len = tasks.length → k ≤ tasks.length →
      s.tasks.length = tasks.length → (∀ j : Nat, k ≤ j → s.tasks[j]? = tasks[j]?) →
      s.ring_ok k → (k < 100 → s.rear = k) →
      (∀ (j : Nat) (t : Task), k ≤ j → tasks[j]? = some t → s.time ≤ t.arrival_time) →
      (a ≤ k ∨ (k < a ∧ ∀ t : Task, tasks[k]? = some t → s.time < t.arrival_time)) →
      ∃ (s' : RRState) (k' : Nat), rr_scan_idle (List.range' a len) s = some s'
        ∧ k ≤ k' ∧ k' ≤ tasks.length ∧ s'.ring_ok k'
        ∧ ((k' = k ∧ s'.rear = s.rear) ∨ (k < k' ∧ s'.rear = k'))
        ∧ s'.tasks = s.tasks ∧ s'.time = s.time ∧ s'.tasks_left = s.tasks_left
        ∧ s'.front = s.front ∧ s'.events = s.events
        ∧ (∀ (j : Nat) (t : Task), k ≤ j → j < k' → tasks[j]? = some t →
            t.arrival_time ≤ s.time)
        ∧ (∀ (j : Nat) (t : Task), k' ≤ j → tasks[j]? = some t →
            s.time < t.arrival_time) := by
  intro len
  induction len with
  | zero =>
    intro a s k hlen hk hsl hst hring hrear hfuture hmode
    refine ⟨s, k, rfl, le_refl _, hk, hring, Or.inl ⟨rfl, rfl⟩, rfl, rfl, rfl, rfl, rfl,
      fun j t h1 h2 _ => absurd h2 (by omega), ?_⟩
    intro j t hj hjt
    have hjn := getElem?_lt_length tasks j t hjt
    rcases hmode with h | ⟨h, hstop⟩
    · omega
    · obtain ⟨tk, htk⟩ := getElem?_some_of_lt tasks k (by omega)
      have h1 := hstop tk htk
      have h2 := hsorted k j tk t hj htk hjt
      omega
  | succ len ih =>
    intro a s k hlen hk hsl hst hring hrear hfuture hmode
    rw [List.range'_succ]
    have ha : a < tasks.length := by omega
    obtain ⟨ta, hta⟩ := getElem?_some_of_lt s.tasks a (by omega)
    by_cases hak : a < k
    · rw [rr_scan_idle_skip s a _ ta hta
        (Or.inr (by rw [hring.2.2.2 a (by omega)]; simp [hak]))]
      exact ih (a + 1) s k (by omega) hk hsl hst hring hrear hfuture (Or.inl (by omega))
    · have hta2 : tasks[a]? = some ta := by rw [← hst a (by omega)]; exact hta
      by_cases hak2 : a = k
      · subst hak2
        by_cases harr : ta.arrival_time = s.time
        · obtain ⟨⟨s1, hs1, hring1, hrear1, ht1, htime1, hleft1, hfront1, hev1⟩, -⟩ :=
            ring_ok_admit s a hring (by omega) (hrear (by omega))
          rw [rr_scan_idle_take s a _ ta hta harr
            (by rw [hring.2.2.2 a (by omega)]; simp), hs1]
          obtain ⟨s', k', hrun, hkk, hkn, hring2, hrear2, ht2, htime2, hleft2, hfront2,
              hev2, harrived, hlater⟩ :=
            ih (a + 1) s1 (a + 1) (by omega) (by omega) (by rw [ht1]; exact hsl)
              (fun j hj => by rw [ht1]; exact hst j (by omega)) hring1
              (fun _ => hrear1)
              (fun j t hj hjt => by rw [htime1]; exact hfuture j t (by omega) hjt)
              (Or.inl (le_refl _))
          refine ⟨s', k', hrun, by omega, hkn, hring2, Or.inr ⟨by omega, ?_⟩,
            by rw [ht2, ht1], by rw [htime2, htime1], by rw [hleft2, hleft1],
            by rw [hfront2, hfront1], by rw [hev2, hev1], ?_, ?_⟩
          · rcases hrear2 with ⟨h1, h2⟩ | ⟨_, h2⟩
            · rw [h2, hrear1, h1]
            · exact h2
          · intro j t hj1 hj2 hjt
            by_cases hja : j = a
            · subst hja
              rw [hta2] at hjt
              cases hjt
              exact le_of_eq harr
            · rw [← htime1]
              exact harrived j t (by omega) hj2 hjt
          · intro j t hj hjt
            rw [← htime1]
            exact hlater j t hj hjt
        · rw [rr_scan_idle_skip s a _ ta hta (Or.inl harr)]
          have hge := hfuture a ta (le_refl _) hta2
          exact ih (a + 1) s a (by omega) hk hsl hst hring hrear hfuture
            (Or.inr ⟨by omega, fun t ht => by
              rw [hta2] at ht
              cases ht
              omega⟩)
      · rcases hmode with h | ⟨h, hstop⟩
        · omega
        · obtain ⟨tk, htk⟩ := getElem?_some_of_lt tasks k (by omega)
          have h1 := hstop tk htk
          have h2 := hsorted k a tk ta (by omega) htk hta2
          rw [rr_scan_idle_skip s a _ ta hta (Or.inl (by omega))]
          exact ih (a + 1) s k (by omega) hk hsl hst hring hrear hfuture
            (Or.inr ⟨by omega, hstop⟩)

theorem rr_scan_initial_sorted (tasks : List Task) (hn : tasks.length ≤ 100)
    (hnonneg : ∀ (j : Nat) (t : Task), tasks[j]? = some t → 0 ≤ t.arrival_time)
    (hsorted : ∀ (i j : Nat) (ti tj : Task), i ≤ j → tasks[i]? = some ti →
      tasks[j]? = some tj → ti.arrival_time ≤ tj.arrival_time) :
    ∀ (len a : Nat) (s : RRState) (k : Nat), a + len = tasks.length → k ≤ tasks.length →
      s.tasks = tasks → s.ring_ok k → s.rear = k →
      (a = k ∨ (k < a ∧ ∀ t : Task, tasks[k]? = some t → 0 < t.arrival_time)) →
      ∃ (s' : RRState) (k' : Nat), rr_scan_initial (List.range' a len) s = some s'
        ∧ k ≤ k' ∧ k' ≤ tasks.length ∧ s'.ring_ok k' ∧ s'.rear = k'
        ∧ s'.tasks = s.tasks ∧ s'.time = s.time ∧ s'.tasks_left = s.tasks_left
        ∧ s'.front = s.front ∧ s'.events = s.events
        ∧ (∀ (j : Nat) (t : Task), k ≤ j → j < k' → tasks[j]? = some t →
            t.arrival_time ≤ 0)
        ∧ (∀ (j : Nat) (t : Task), k' ≤ j → tasks[j]? = some t → 0 < t.arrival_time) := by
  intro len
  induction len with
  | zero =>
    intro a s k hlen hk hst hring hrear hmode
    refine ⟨s, k, rfl, le_refl _, hk, hring, hrear, rfl, rfl, rfl, rfl, rfl,
      fun j t h1 h2 _ => absurd h2 (by omega), ?_⟩
    intro j t hj hjt
    have hjn := getElem?_lt_length tasks j t hjt
    rcases hmode with h | ⟨h, hstop⟩
    · omega
    · obtain ⟨tk, htk⟩ := getElem?_some_of_lt tasks k (by omega)
      have h1 := hstop tk htk
      have h2 := hsorted k j tk t hj htk hjt
      omega
  | succ len ih =>
    intro a s k hlen hk hst hring hrear hmode
    rw [List.range'_succ]
    have ha : a < tasks.length := by omega
    obtain ⟨ta, hta2⟩ := getElem?_some_of_lt tasks a ha
    have hta : s.tasks[a]? = some ta := by rw [hst]; exact hta2
    rcases hmode with hak | ⟨h, hstop⟩
    · subst hak
      by_cases harr : ta.arrival_time = 0
      · obtain ⟨⟨s1, hs1, hring1, hrear1, ht1, htime1, hleft1, hfront1, hev1⟩, -⟩ :=
          ring_ok_admit s a hring (by omega) hrear
        rw [rr_scan_initial_take s a _ ta hta harr, hs1]
        obtain ⟨s', k', hrun, hkk, hkn, hring2, hrear2, ht2, htime2, hleft2, hfront2,
            hev2, harrived, hlater⟩ :=
          ih (a + 1) s1 (a + 1) (by omega) (by omega) (by rw [ht1]; exact hst) hring1
            hrear1 (Or.inl rfl)
        refine ⟨s', k', hrun, by omega, hkn, hring2, hrear2,
          by rw [ht2, ht1], by rw [htime2, htime1], by rw [hleft2, hleft1],
          by rw [hfront2, hfront1], by rw [hev2, hev1], ?_, hlater⟩
        intro j t hj1 hj2 hjt
        by_cases hja : j = a
        · subst hja
          rw [hta2] at hjt
          cases hjt
          exact le_of_eq harr
        · exact harrived j t (by omega) hj2 hjt
      · rw [rr_scan_initial_skip s a _ ta hta harr]
        have hge := hnonneg a ta hta2
        exact ih (a + 1) s a (by omega) hk hst hring hrear
          (Or.inr ⟨by omega, fun t ht => by
            rw [hta2] at ht
            cases ht
            omega⟩)
    · obtain ⟨tk, htk⟩ := getElem?_some_of_lt tasks k (by omega)
      have h1 := hstop tk htk
      have h2 := hsorted k a tk ta (by omega) htk hta2
      rw [rr_scan_initial_skip s a _ ta hta (by omega)]
      exact ih (a + 1) s k (by omega) hk hst hring hrear (Or.inr ⟨by omega, hstop⟩)

theorem rr_single_slice_record (q F T : Int) (t : Task) (hfresh : t.fresh)
    (hq : t.burst_time ≤ q) (hT : T = max t.arrival_time F) :
    rr_record_finish (T + t.burst_time) (rr_after_slice q T t) = (fcfs_task F t).1
      ∧ (fcfs_task F t).2.1 = T + t.burst_time
      ∧ rr_runtime q t = t.burst_time
      ∧ (rr_after_slice q T t).remaining_time = 0 := by
  obtain ⟨h0, h1, hrem, hstart⟩ := hfresh
  have hrun : rr_runtime q t = t.burst_time := by
    rw [rr_runtime_min]; omega
  have htime1 : (if F < t.arrival_time then t.arrival_time else F) = T := by
    rw [hT]; split <;> omega
  have hb1 : (fcfs_burst t.pid t.remaining_time.toNat t.remaining_time T).1 = 0 := by
    rw [fcfs_burst_rem t.pid _ _ _ (le_refl _), if_pos (by omega)]
  have hb2 : (fcfs_burst t.pid t.remaining_time.toNat t.remaining_time T).2.1
      = T + t.burst_time := by
    rw [fcfs_burst_time t.pid _ _ _ (le_refl _)]; omega
  refine ⟨?_, ?_, hrun, ?_⟩
  · unfold fcfs_task rr_record_finish rr_after_slice
    simp only [htime1, hb1, hb2, hrun, hstart, if_true]
    rw [hrem, sub_self]
  · unfold fcfs_task
    simp only [htime1, hb2]
  · show t.remaining_time - rr_runtime q t = 0
    rw [hrun, hrem]; omega

theorem fcfs_prefix_length (tasks : List Task) (m : Nat) (hm : m ≤ tasks.length) :
    (fcfs_loop 0 (tasks.take m)).tasks.length = m := by
  rw [fcfs_loop_length, List.length_take]; omega

theorem rr_init_fcfs_like (tasks : List Task) (hn : tasks.length ≤ 100)
    (hfresh : ∀ (j : Nat) (t : Task), tasks[j]? = some t → t.fresh)
    (hsorted : ∀ (i j : Nat) (ti tj : Task), i ≤ j → tasks[i]? = some ti →
      tasks[j]? = some tj → ti.arrival_time ≤ tj.arrival_time) :
    ∃ (s0 : RRState) (c : Nat), rr_init tasks = some s0 ∧ s0.fcfs_like tasks 0 c
      ∧ s0.time = 0 := by
  have hring0 : RRState.ring_ok
      { tasks := tasks, time := 0, tasks_left := tasks.length,
        queue := List.replicate 100 none, front := 0, rear := 0,
        in_queue := List.replicate 100 false, events := [] } 0 := by
    refine ⟨by simp, by simp, fun j hj => absurd hj (by omega), ?_⟩
    intro j hj
    simp only [List.getElem?_replicate, if_pos hj]
    simp
  obtain ⟨s', k', hrun, -, hkn, hring, hrear, ht, htime, hleft, hfront, -, harrived,
      hlater⟩ :=
    rr_scan_initial_sorted tasks hn (fun j t h => (hfresh j t h).1) hsorted tasks.length 0
      _ 0 (by omega) (Nat.zero_le _) rfl hring0 rfl (Or.inl rfl)
  rw [← List.range_eq_range'] at hrun
  have htime0 : s'.time = 0 := htime
  refine ⟨s', k', hrun, ⟨by omega, ?_, ?_, by rw [Nat.zero_add]; exact hring, hfront,
    by omega, ?_, fun _ _ _ => Or.inl ?_, ?_, ?_, fun h _ => absurd h (Nat.lt_irrefl 0)⟩,
    htime0⟩
  · rw [ht]; simp [fcfs_loop]
  · rw [hleft]; simp
  · rw [htime0]; exact le_refl _
  · rw [htime0]; rfl
  · intro j t hj hjt
    rw [htime0]
    exact harrived j t (Nat.zero_le _) (by omega) hjt
  · intro j t hj hjt
    rw [htime0]
    exact hlater j t (by omega) hjt

theorem fcfs_like_registry (tasks : List Task) (s : RRState) (m c : Nat)
    (h : s.fcfs_like tasks m c) :
    s.tasks.length = tasks.length ∧ ∀ j : Nat, m ≤ j → s.tasks[j]? = tasks[j]? := by
  obtain ⟨hmc, htasks, -⟩ := h
  have hlenp := fcfs_prefix_length tasks m (by omega)
  constructor
  · rw [htasks, List.length_append, hlenp, List.length_drop]; omega
  · intro j hj
    rw [htasks, List.getElem?_append_right (by omega), hlenp, List.getElem?_drop]
    congr 1
    omega

theorem rr_slice_finishing (below : Int → Bool) (q : Int) (s s2 : RRState) (m : Nat) (t : Task)
    (hne : ¬ s.front = s.rear) (hqm : s.queue[s.front]? = some (some m))
    (hstm : s.tasks[m]? = some t)
    (hscan : rr_scan_arrivals (List.range s.tasks.length) (rr_after_run q s m t) = some s2)
    (hrem0 : (rr_after_slice q s.time t).remaining_time = 0) :
    ∃ s' : RRState, rr_step below q s = some s'
      ∧ s'.tasks = s2.tasks.set m (rr_record_finish s2.time (rr_after_slice q s.time t))
      ∧ s'.tasks_left = s2.tasks_left - 1 ∧ s'.queue = s2.queue
      ∧ s'.in_queue = s2.in_queue ∧ s'.front = s2.front ∧ s'.rear = s2.rear
      ∧ s'.time = s2.time := by
  refine ⟨{ s2 with
    tasks := s2.tasks.set m (rr_record_finish s2.time (rr_after_slice q s.time t)),
    tasks_left := s2.tasks_left - 1,
    events := s2.events ++ [Event.finished s2.time (rr_after_slice q s.time t).pid] },
    ?_, rfl, rfl, rfl, rfl, rfl, rfl, rfl⟩
  unfold rr_step
  rw [if_neg hne]
  unfold rr_slice
  simp only [hqm, hstm, hscan]
  unfold rr_finish_or_requeue
  rw [if_pos hrem0]

theorem fcfs_like_clock (tasks : List Task) (s : RRState) (m c : Nat)
    (h : s.fcfs_like tasks m c) (hc : 0 < c) (t : Task) (ht : tasks[m]? = some t) :
    s.time = max t.arrival_time (fcfs_loop 0 (tasks.take m)).time := by
  obtain ⟨-, -, -, -, -, -, hF, hclock, harrived, -⟩ := h
  have h1 := hclock hc t ht
  have h2 := harrived m t (by omega) ht
  omega

theorem fcfs_like_head (tasks : List Task) (s : RRState) (m c : Nat)
    (h : s.fcfs_like tasks m c) (hn : tasks.length ≤ 100) (hc : 0 < c) :
    ¬ s.front = s.rear ∧ s.queue[s.front]? = some (some m) ∧ s.front = m
      ∧ (m + c < 100 → s.rear = m + c) := by
  obtain ⟨hmc, -, -, hring, hfront, hrear, -⟩ := h
  have hm100 : m % 100 = m := Nat.mod_eq_of_lt (by omega)
  refine ⟨by omega, ?_, by omega, by omega⟩
  rw [hfront, hm100]
  exact hring.2.2.1 m (by omega)

theorem fcfs_like_rear_next (m c k' rear rear2 : Nat) (hc : 0 < c) (hk : k' ≤ 100)
    (hrear : (m + c < 100 ∧ rear = m + c) ∨ (m + c = 100 ∧ rear = 100)
        ∨ (m + c = 100 ∧ rear = 0 ∧ 1 ≤ m))
    (hrear2 : (k' = m + c ∧ rear2 = rear) ∨ (m + c < k' ∧ rear2 = k' % 100)) :
    (k' < 100 ∧ rear2 = k') ∨ (k' = 100 ∧ rear2 = 100)
        ∨ (k' = 100 ∧ rear2 = 0 ∧ 1 ≤ m + 1) := by
  omega

theorem fcfs_prefix_set (tasks : List Task) (m : Nat) (t x : Task) (ht : tasks[m]? = some t) :
    ((fcfs_loop 0 (tasks.take m)).tasks ++ tasks.drop m).set m x
      = ((fcfs_loop 0 (tasks.take m)).tasks ++ [x]) ++ tasks.drop (m + 1) := by
  have hm := getElem?_lt_length tasks m t ht
  have hlenp := fcfs_prefix_length tasks m (by omega)
  rw [List.set_append_right _ _ (by omega), hlenp, Nat.sub_self,
    List.drop_eq_getElem_cons hm, List.set_cons_zero, List.append_assoc]
  rfl

theorem rr_step_fcfs_slice_run (tasks : List Task) (q : Int) (hn : tasks.length ≤ 100)
    (hfresh : ∀ (j : Nat) (t : Task), tasks[j]? = some t → t.fresh)
    (hsorted : ∀ (i j : Nat) (ti tj : Task), i ≤ j → tasks[i]? = some ti →
      tasks[j]? = some tj → ti.arrival_time ≤ tj.arrival_time)
    (hq : ∀ (j : Nat) (t : Task), tasks[j]? = some t → t.burst_time ≤ q)
    (below : Int → Bool) (s : RRState) (m c : Nat) (h : s.fcfs_like tasks m c)
    (hc : 0 < c) (t : Task) (ht : tasks[m]? = some t) :
    ∃ (s' : RRState) (k' : Nat), rr_step below q s = some s'
      ∧ m + c ≤ k' ∧ k' ≤ tasks.length ∧ s'.ring_ok k'
      ∧ ((k' = m + c ∧ s'.rear = s.rear) ∨ (m + c < k' ∧ s'.rear = k' % 100))
      ∧ s'.tasks = s.tasks.set m (fcfs_task (fcfs_loop 0 (tasks.take m)).time t).1
      ∧ s'.time = s.time + t.burst_time
      ∧ (fcfs_task (fcfs_loop 0 (tasks.take m)).time t).2.1 = s.time + t.burst_time
      ∧ s'.tasks_left = s.tasks_left - 1 ∧ s'.front = (s.front + 1) % 100
      ∧ (∀ (j : Nat) (u : Task), m + c ≤ j → j < k' → tasks[j]? = some u →
          u.arrival_time ≤ s.time + t.burst_time)
      ∧ (∀ (j : Nat) (u : Task), k' ≤ j → tasks[j]? = some u →
          s.time + t.burst_time < u.arrival_time) := by
  obtain ⟨hsl, hst⟩ := fcfs_like_registry tasks s m c h
  obtain ⟨hne, hqm, -, hrear⟩ := fcfs_like_head tasks s m c h hn hc
  have hTmax := fcfs_like_clock tasks s m c h hc t ht
  have hmc : m + c ≤ tasks.length := h.1
  have hring : s.ring_ok (m + c) := h.2.2.2.1
  clear h
  have hstm : s.tasks[m]? = some t := by rw [hst m (le_refl _)]; exact ht
  have htf := hfresh m t ht
  obtain ⟨hrec, hfin, hrun, hrem0⟩ :=
    rr_single_slice_record q _ s.time t htf (hq m t ht) hTmax
  have hsa_time : (rr_after_run q s m t).time = s.time + t.burst_time := by
    show s.time + ((rr_runtime q t).toNat : Int) = _
    rw [hrun]
    have := htf.2.1
    omega
  have hrem : ∀ (j : Nat) (u : Task), tasks[j]? = some u → 0 < u.remaining_time := by
    intro j u hu
    obtain ⟨-, h1, h2, -⟩ := hfresh j u hu
    omega
  have hsal : (rr_after_run q s m t).tasks.length = tasks.length := by
    show (s.tasks.set m _).length = _
    rw [List.length_set]; exact hsl
  have hsat : ∀ j : Nat, m + c ≤ j → (rr_after_run q s m t).tasks[j]? = tasks[j]? := by
    intro j hj
    show (s.tasks.set m _)[j]? = _
    rw [List.getElem?_set_ne (by omega)]
    exact hst j (by omega)
  have hsar : m + c < 100 → (rr_after_run q s m t).rear = m + c := hrear
  obtain ⟨s2, k', hscan, hkk, hkn, hring2, hrear2, ht2, htime2, hleft2, hfront2, -, harr2,
      hlater2⟩ :=
    rr_scan_arrivals_sorted tasks hn hrem hsorted tasks.length 0 (rr_after_run q s m t)
      (m + c) (Nat.zero_add _) hmc hsal hsat hring hsar (Or.inl (Nat.zero_le _))
  rw [← List.range_eq_range', ← hsl] at hscan
  rw [hsa_time] at htime2 harr2 hlater2
  obtain ⟨s', hstep, e1, e2, e3, e4, e5, e6, e7⟩ :=
    rr_slice_finishing below q s s2 m t hne hqm hstm hscan hrem0
  refine ⟨s', k', hstep, hkk, hkn, ?_, ?_, ?_, by rw [e7, htime2], hfin, ?_, ?_,
    harr2, hlater2⟩
  · unfold RRState.ring_ok
    rw [e3, e4]
    exact hring2
  · rw [e6]
    exact hrear2
  · rw [e1, ht2, htime2, hrec]
    show (s.tasks.set m _).set m _ = _
    rw [List.set_set]
  · rw [e2, hleft2]
    rfl
  · rw [e5, hfront2]
    rfl

theorem rr_step_fcfs_slice (tasks : List Task) (q : Int) (hn : tasks.length ≤ 100)
    (hfresh : ∀ (j : Nat) (t : Task), tasks[j]? = some t → t.fresh)
    (hsorted : ∀ (i j : Nat) (ti tj : Task), i ≤ j → tasks[i]? = some ti →
      tasks[j]? = some tj → ti.arrival_time ≤ tj.arrival_time)
    (hq : ∀ (j : Nat) (t : Task), tasks[j]? = some t → t.burst_time ≤ q)
    (below : Int → Bool) (s : RRState) (m c : Nat) (h : s.fcfs_like tasks m c)
    (hc : 0 < c) :
    ∃ (s' : RRState) (c' : Nat), rr_step below q s = some s'
      ∧ s'.fcfs_like tasks (m + 1) c' ∧ s.time ≤ s'.time := by
  have hm : m < tasks.length := by have := h.1; omega
  obtain ⟨t, ht⟩ := getElem?_some_of_lt tasks m hm
  obtain ⟨s', k', hstep, hkk, hkn, hring2, hrear2, e1, e7, hfin, e2, e5, harr2, hlater2⟩ :=
    rr_step_fcfs_slice_run tasks q hn hfresh hsorted hq below s m c h hc t ht
  obtain ⟨hmc, htasks, hleft, -, hfront, hrear, -, -, harrived, -⟩ := h
  obtain ⟨hpt, hpc⟩ := fcfs_prefix_succ tasks m t ht
  have hk : m + 1 + (k' - (m + 1)) = k' := by omega
  have hb1 : 1 ≤ t.burst_time := (hfresh m t ht).2.1
  refine ⟨s', k' - (m + 1), hstep, ?_, by rw [e7]; omega⟩
  unfold RRState.fcfs_like
  rw [hk]
  refine ⟨hkn, ?_, ?_, hring2, ?_, ?_, ?_, ?_, ?_, ?_, fun _ _ => by rw [e7, hpc, hfin]⟩
  · rw [e1, hpt, htasks]
    exact fcfs_prefix_set tasks m t _ ht
  · rw [e2, hleft]
    push_cast
    omega
  · rw [e5, hfront, Nat.mod_eq_of_lt (show m < 100 by omega)]
  · exact fcfs_like_rear_next m c k' s.rear s'.rear hc (by omega) hrear hrear2
  · rw [e7, hpc, hfin]
  · intro _ u _
    left
    rw [e7, hpc, hfin]
  · intro j u hj hju
    rw [e7]
    by_cases hjk : j < m + c
    · have := harrived j u hjk hju
      omega
    · exact harr2 j u (by omega) hj hju
  · intro j u hj hju
    rw [e7]
    exact hlater2 j u hj hju

theorem rr_step_idle_eq (below : Int → Bool) (q : Int) (s : RRState)
    (he : s.front = s.rear) (hb : below (s.time + 1) = false) :
    rr_step below q s
      = rr_scan_idle (List.range s.tasks.length)
          { s with events := s.events ++ [Event.idle s.time], time := s.time + 1 } := by
  unfold rr_step
  rw [if_pos he]
  unfold rr_idle
  simp only [hb]
  rfl

theorem rr_step_fcfs_idle_run (tasks : List Task) (q : Int) (hn : tasks.length ≤ 100)
    (hsorted : ∀ (i j : Nat) (ti tj : Task), i ≤ j → tasks[i]? = some ti →
      tasks[j]? = some tj → ti.arrival_time ≤ tj.arrival_time)
    (below : Int → Bool) (s : RRState) (m : Nat) (h : s.fcfs_like tasks m 0)
    (hm : m < tasks.length) (hb : below (s.time + 1) = false) :
    ∃ (s' : RRState) (k' : Nat), rr_step below q s = some s'
      ∧ m ≤ k' ∧ k' ≤ tasks.length ∧ s'.ring_ok k' ∧ s'.rear = k'
      ∧ s'.tasks = s.tasks ∧ s'.time = s.time + 1 ∧ s'.tasks_left = s.tasks_left
      ∧ s'.front = s.front
      ∧ (∀ (j : Nat) (u : Task), m ≤ j → j < k' → tasks[j]? = some u →
          u.arrival_time ≤ s.time + 1)
      ∧ (∀ (j : Nat) (u : Task), k' ≤ j → tasks[j]? = some u →
          s.time + 1 < u.arrival_time) := by
  obtain ⟨hsl, hst⟩ := fcfs_like_registry tasks s m 0 h
  obtain ⟨hmc, -, -, hring, hfront, hrear, -, -, -, hlater, -⟩ := h
  have hm100 : m % 100 = m := Nat.mod_eq_of_lt (by omega)
  have he : s.front = s.rear := by omega
  have hrm : s.rear = m := by omega
  clear hrear
  rw [rr_step_idle_eq below q s he hb, hsl, List.range_eq_range']
  have hfuture : ∀ (j : Nat) (u : Task), m ≤ j → tasks[j]? = some u →
      s.time + 1 ≤ u.arrival_time := by
    intro j u hj hju
    have := hlater j u (by omega) hju
    omega
  obtain ⟨s', k', hrun, hkk, hkn, hring2, hrear2, ht2, htime2, hleft2, hfront2, -, harr2,
      hlater2⟩ :=
    rr_scan_idle_sorted tasks hn hsorted tasks.length 0
      { s with events := s.events ++ [Event.idle s.time], time := s.time + 1 } m
      (Nat.zero_add _) (by omega) hsl hst hring (fun _ => hrm) hfuture
      (Or.inl (Nat.zero_le _))
  refine ⟨s', k', hrun, hkk, hkn, hring2, ?_, ht2, htime2, hleft2, hfront2, harr2,
    hlater2⟩
  rcases hrear2 with ⟨h1, h2⟩ | ⟨_, h2⟩
  · rw [h2, h1]; exact hrm
  · exact h2

theorem rr_step_fcfs_idle (tasks : List Task) (q : Int) (hn : tasks.length ≤ 100)
    (hsorted : ∀ (i j : Nat) (ti tj : Task), i ≤ j → tasks[i]? = some ti →
      tasks[j]? = some tj → ti.arrival_time ≤ tj.arrival_time)
    (below : Int → Bool) (s : RRState) (m : Nat) (h : s.fcfs_like tasks m 0)
    (hm : m < tasks.length) (hb : below (s.time + 1) = false) :
    ∃ (s' : RRState) (c' : Nat), rr_step below q s = some s'
      ∧ s'.fcfs_like tasks m c' ∧ s'.time = s.time + 1 := by
  obtain ⟨s', k', hstep, hkk, hkn, hring2, hrear2, e1, e7, e2, e5, harr2, hlater2⟩ :=
    rr_step_fcfs_idle_run tasks q hn hsorted below s m h hm hb
  obtain ⟨hmc, htasks, hleft, -, hfront, -, hF, -, harrived, hlater, -⟩ := h
  have hk : m + (k' - m) = k' := by omega
  refine ⟨s', k' - m, hstep, ?_, e7⟩
  unfold RRState.fcfs_like
  rw [hk]
  refine ⟨hkn, by rw [e1, htasks], by rw [e2, hleft], hring2, by rw [e5, hfront],
    by omega, by rw [e7]; omega, ?_, ?_, ?_, fun _ hmn => absurd hmn (by omega)⟩
  · intro hpos u hu
    right
    rw [e7]
    have h1 := harr2 m u (le_refl _) (by omega) hu
    have h2 := hlater m u (by omega) hu
    omega
  · intro j u hj hju
    rw [e7]
    by_cases hjk : j < m
    · have := harrived j u (by omega) hju
      omega
    · exact harr2 j u (by omega) hj hju
  · intro j u hj hju
    rw [e7]
    exact hlater2 j u hj hju

theorem rr_step_fcfs_fault (tasks : List Task) (q : Int) (hn : tasks.length ≤ 100)
    (below : Int → Bool) (s : RRState) (m : Nat) (h : s.fcfs_like tasks m 0)
    (hm : m < tasks.length) (hb : below (s.time + 1) = true) :
    rr_step below q s = none := by
  obtain ⟨hmc, -, -, -, hfront, hrear, -⟩ := h
  have hm100 : m % 100 = m := Nat.mod_eq_of_lt (by omega)
  have he : s.front = s.rear := by omega
  unfold rr_step
  rw [if_pos he]
  unfold rr_idle
  simp only [hb]
  rfl

theorem fcfs_like_left (tasks : List Task) (s : RRState) (m c : Nat)
    (h : s.fcfs_like tasks m c) : (0 < s.tasks_left ↔ m < tasks.length) := by
  obtain ⟨hmc, -, hleft, -⟩ := h
  rw [hleft]
  omega

theorem rr_iter_fcfs_like (tasks : List Task) (q : Int) (hn : tasks.length ≤ 100)
    (hfresh : ∀ (j : Nat) (t : Task), tasks[j]? = some t → t.fresh)
    (hsorted : ∀ (i j : Nat) (ti tj : Task), i ≤ j → tasks[i]? = some ti →
      tasks[j]? = some tj → ti.arrival_time ≤ tj.arrival_time)
    (hq : ∀ (j : Nat) (t : Task), tasks[j]? = some t → t.burst_time ≤ q)
    (below : Int → Bool) :
    ∀ (k : Nat) (s s' : RRState) (m c : Nat), s.fcfs_like tasks m c →
      rr_iter below q k s = some s' → ∃ (m' c' : Nat), s'.fcfs_like tasks m' c' := by
  intro k
  induction k with
  | zero =>
    intro s s' m c h hrun
    cases hrun
    exact ⟨m, c, h⟩
  | succ k ih =>
    intro s s' m c h hrun
    unfold rr_iter at hrun
    by_cases hl : s.tasks_left > 0
    · rw [if_pos hl] at hrun
      have hm : m < tasks.length := (fcfs_like_left tasks s m c h).mp hl
      by_cases hc : 0 < c
      · obtain ⟨s1, c1, hstep, h1, -⟩ :=
          rr_step_fcfs_slice tasks q hn hfresh hsorted hq below s m c h hc
        rw [hstep] at hrun
        exact ih s1 s' (m + 1) c1 h1 hrun
      · have hc0 : c = 0 := by omega
        subst hc0
        cases hb : below (s.time + 1) with
        | true =>
          rw [rr_step_fcfs_fault tasks q hn below s m h hm hb] at hrun
          cases hrun
        | false =>
          obtain ⟨s1, c1, hstep, h1, -⟩ :=
            rr_step_fcfs_idle tasks q hn hsorted below s m h hm hb
          rw [hstep] at hrun
          exact ih s1 s' m c1 h1 hrun
    · rw [if_neg hl] at hrun
      cases hrun
      exact ⟨m, c, h⟩

theorem fcfs_like_final (tasks : List Task) (hpos : 1 ≤ tasks.length) (s : RRState)
    (m c : Nat) (h : s.fcfs_like tasks m c) (hl : ¬ 0 < s.tasks_left) :
    s.tasks = (simulate_fcfs tasks).tasks ∧ s.time = (simulate_fcfs tasks).time := by
  have hm : ¬ m < tasks.length := fun hm => hl ((fcfs_like_left tasks s m c h).mpr hm)
  obtain ⟨hmc, htasks, -, -, -, -, -, -, -, -, hend⟩ := h
  have hmn : m = tasks.length := by omega
  have htime := hend (by omega) hmn
  subst hmn
  rw [List.take_length] at htime
  rw [List.take_length, List.drop_length, List.append_nil] at htasks
  exact ⟨htasks, htime⟩

theorem rr_iter_fcfs_returns (tasks : List Task) (q : Int) (hn : tasks.length ≤ 100)
    (hfresh : ∀ (j : Nat) (t : Task), tasks[j]? = some t → t.fresh)
    (hsorted : ∀ (i j : Nat) (ti tj : Task), i ≤ j → tasks[i]? = some ti →
      tasks[j]? = some tj → ti.arrival_time ≤ tj.arrival_time)
    (hq : ∀ (j : Nat) (t : Task), tasks[j]? = some t → t.burst_time ≤ q) :
    ∀ (fuel : Nat) (s : RRState) (m c : Nat), s.fcfs_like tasks m c →
      (tasks.length - m) + ((last_arrival tasks : Int) - s.time).toNat ≤ fuel →
      ∃ s' : RRState, rr_iter no_match q fuel s = some s' ∧ ¬ 0 < s'.tasks_left := by
  intro fuel
  induction fuel with
  | zero =>
    intro s m c h hfuel
    refine ⟨s, rfl, fun hl => ?_⟩
    have := (fcfs_like_left tasks s m c h).mp hl
    omega
  | succ fuel ih =>
    intro s m c h hfuel
    unfold rr_iter
    by_cases hl : s.tasks_left > 0
    · rw [if_pos hl]
      have hm : m < tasks.length := (fcfs_like_left tasks s m c h).mp hl
      by_cases hc : 0 < c
      · obtain ⟨s1, c1, hstep, h1, htime⟩ :=
          rr_step_fcfs_slice tasks q hn hfresh hsorted hq no_match s m c h hc
        rw [hstep]
        exact ih s1 (m + 1) c1 h1 (by omega)
      · have hc0 : c = 0 := by omega
        subst hc0
        obtain ⟨s1, c1, hstep, h1, htime⟩ :=
          rr_step_fcfs_idle tasks q hn hsorted no_match s m h hm rfl
        rw [hstep]
        obtain ⟨t, ht⟩ := getElem?_some_of_lt tasks m hm
        have hlate := h.2.2.2.2.2.2.2.2.2.1 m t (by omega) ht
        have hla := le_last_arrival tasks t (List.getElem?_mem ht)
        exact ih s1 m c1 h1 (by omega)
    · rw [if_neg hl]
      exact ⟨s, rfl, hl⟩

theorem pairwise_arrivals_index (tasks : List Task)
    (hsorted : tasks.Pairwise (fun a b => a.arrival_time ≤ b.arrival_time)) :
    ∀ (i j : Nat) (ti tj : Task), i ≤ j → tasks[i]? = some ti →
      tasks[j]? = some tj → ti.arrival_time ≤ tj.arrival_time := by
  intro i j ti tj hij hi hj
  rcases Nat.eq_or_lt_of_le hij with heq | hlt
  · subst heq
    rw [hi] at hj
    cases hj
    exact le_refl _
  · obtain ⟨hi', hti⟩ := List.getElem?_eq_some.mp hi
    obtain ⟨hj', htj⟩ := List.getElem?_eq_some.mp hj
    have := List.pairwise_iff_getElem.mp hsorted i j hi' hj' hlt
    rw [hti, htj] at this
    exact this

theorem int_wrap_eq (x : Int) (h1 : -2147483648 ≤ x) (h2 : x ≤ 2147483647) :
    int_wrap x = x := by
  unfold int_wrap
  omega

theorem fcfs_burst_int_eq (pid : Int) : ∀ (fuel : Nat) (rem time : Int), 0 ≤ time →
    time + rem ≤ 2147483647 →
    fcfs_burst_int pid fuel rem time = fcfs_burst pid fuel rem time := by
  intro fuel
  induction fuel with
  | zero => intro rem time _ _; rfl
  | succ fuel ih =>
    intro rem time h0 h1
    unfold fcfs_burst_int fcfs_burst
    by_cases hr : rem > 0
    · rw [if_pos hr, if_pos hr, int_wrap_eq (rem - 1) (by omega) (by omega),
        int_wrap_eq (time + 1) (by omega) (by omega),
        ih (rem - 1) (time + 1) (by omega) (by omega)]
    · rw [if_neg hr, if_neg hr]

theorem fcfs_task_int_eq (time : Int) (t : Task) (h0 : 0 ≤ time) (ha : 0 ≤ t.arrival_time)
    (hb : 1 ≤ t.burst_time) (hr : t.remaining_time = t.burst_time)
    (hmax : max time t.arrival_time + t.burst_time ≤ 2147483647) :
    fcfs_task_int time t = fcfs_task time t := by
  have hfin := fcfs_burst_time t.pid t.remaining_time.toNat t.remaining_time
    (if time < t.arrival_time then t.arrival_time else time) (le_refl _)
  have htime1 : (if time < t.arrival_time then t.arrival_time else time)
      = max time t.arrival_time := by
    split <;> omega
  have hburst := fcfs_burst_int_eq t.pid t.remaining_time.toNat t.remaining_time
    (if time < t.arrival_time then t.arrival_time else time)
    (by rw [htime1]; omega) (by rw [htime1, hr]; exact hmax)
  unfold fcfs_task_int fcfs_task
  simp only [hburst]
  rw [htime1] at hfin ⊢
  have w1 : int_wrap ((fcfs_burst t.pid t.remaining_time.toNat t.remaining_time
      (max time t.arrival_time)).2.1 - t.arrival_time)
      = (fcfs_burst t.pid t.remaining_time.toNat t.remaining_time
          (max time t.arrival_time)).2.1 - t.arrival_time :=
    int_wrap_eq _ (by rw [hfin]; omega) (by rw [hfin]; omega)
  have w2 : int_wrap ((fcfs_burst t.pid t.remaining_time.toNat t.remaining_time
      (max time t.arrival_time)).2.1 - t.arrival_time - t.burst_time)
      = (fcfs_burst t.pid t.remaining_time.toNat t.remaining_time
          (max time t.arrival_time)).2.1 - t.arrival_time - t.burst_time :=
    int_wrap_eq _ (by rw [hfin]; omega) (by rw [hfin]; omega)
  have w3 : int_wrap (max time t.arrival_time - t.arrival_time)
      = max time t.arrival_time - t.arrival_time :=
    int_wrap_eq _ (by omega) (by omega)
  rw [w1, w2, w3]

theorem fcfs_loop_int_eq : ∀ (ts : List Task) (time : Int), 0 ≤ time →
    (∀ t ∈ ts, 0 ≤ t.arrival_time ∧ 1 ≤ t.burst_time ∧ t.remaining_time = t.burst_time) →
    max time (last_arrival ts : Int) + (total_burst ts : Int) ≤ 2147483647 →
    fcfs_loop_int time ts = fcfs_loop time ts := by
  intro ts
  induction ts with
  | nil => intro time _ _ _; rfl
  | cons a ts ih =>
    intro time h0 h hmax
    obtain ⟨ha, hb, hr⟩ := h a (List.mem_cons_self _ _)
    have hla : last_arrival (a :: ts) = max a.arrival_time.toNat (last_arrival ts) := rfl
    have htb : total_burst (a :: ts) = a.burst_time.toNat + total_burst ts := by
      simp [total_burst]
    rw [hla, htb] at hmax
    have hclock : (fcfs_task time a).2.1 = max a.arrival_time time + a.burst_time := by
      rw [fcfs_task_clock, fcfs_task_finish time a (by omega), hr]
    have e1 := fcfs_task_int_eq time a h0 ha hb hr (by omega)
    have e2 := ih (fcfs_task time a).2.1 (by rw [hclock]; omega)
      (fun t ht => h t (List.mem_cons_of_mem _ ht)) (by rw [hclock]; omega)
    unfold fcfs_loop_int fcfs_loop
    simp only [e1, e2]

theorem simulate_fcfs_int_eq (tasks : List Task)
    (h : ∀ t ∈ tasks, 0 ≤ t.arrival_time ∧ 1 ≤ t.burst_time
      ∧ t.remaining_time = t.burst_time)
    (hrange : (last_arrival tasks : Int) + (total_burst tasks : Int) ≤ INT_MAX) :
    simulate_fcfs_int tasks = simulate_fcfs tasks := by
  unfold INT_MAX at hrange
  unfold simulate_fcfs_int simulate_fcfs
  rw [fcfs_loop_int_eq tasks 0 (le_refl _) h (by omega)]

/-- C2, as stated, fails on the single task (pid 1, arrival 2147483647, burst 2), which has
`arrival_time ≥ 0` and `remaining_time = burst_time ≥ 1`: it starts at `INT_MAX`, the clock
is an `int`, and after its two ticks `finish_time` is `-2147483647`, not
`start_time + burst_time = 2147483649`.  With the task (pid 1, arrival 0, burst 1) in front
the arrival times increase strictly and the finish times, 1 and `-2147483647`, do not. -/
theorem fcfs_clock_overflows :
    (∀ t ∈ overflow_registry, 0 ≤ t.arrival_time ∧ 1 ≤ t.burst_time
      ∧ t.remaining_time = t.burst_time)
    ∧ (simulate_fcfs_int overflow_registry).tasks.map
          (fun o => (o.start_time, o.finish_time, o.start_time + o.burst_time))
        = [(2147483647, -2147483647, 2147483649)]
    ∧ (simulate_fcfs_int (read_tasks [(1, 0, 1), (2, 2147483647, 2)] 100)).tasks.map
          (fun o => (o.arrival_time, o.finish_time))
        = [(0, 1), (2147483647, -2147483647)] := by
  decide

/-- C2, amended: on a registry whose tasks have `arrival_time ≥ 0` and
`remaining_time = burst_time ≥ 1` and whose largest arrival time plus total burst time is at
most `INT_MAX = 2147483647`, after `simulate_fcfs` (with the clock an `int`) the task at
position `i` has `start_time = max(arrival_time, finish_time of the task before it)` (0 before
the first task) and `finish_time = start_time + burst_time`; when arrival times increase
strictly along the registry so do the finish times; tasks `[(1,0,5),(2,2,3)]` get
start/finish 0/5 and 5/8. -/
theorem fcfs_start_finish_recurrence (tasks : List Task)
    (h : ∀ t ∈ tasks, 0 ≤ t.arrival_time ∧ 1 ≤ t.burst_time
      ∧ t.remaining_time = t.burst_time)
    (hrange : (last_arrival tasks : Int) + (total_burst tasks : Int) ≤ INT_MAX) :
    (simulate_fcfs_int tasks).tasks.length = tasks.length
    ∧ (∀ (i : Nat) (t : Task), tasks[i]? = some t →
        ∃ o, (simulate_fcfs_int tasks).tasks[i]? = some o
          ∧ o.start_time
              = max t.arrival_time (finish_before (simulate_fcfs_int tasks).tasks i)
          ∧ o.finish_time = o.start_time + t.burst_time)
    ∧ ((tasks.map fun t => t.arrival_time).Pairwise (· < ·) →
        ((simulate_fcfs_int tasks).tasks.map fun o => o.finish_time).Pairwise (· < ·))
    ∧ (simulate_fcfs_int (read_tasks [(1, 0, 5), (2, 2, 3)] 100)).tasks.map
        (fun o => (o.pid, o.start_time, o.finish_time)) = [(1, 0, 5), (2, 5, 8)] := by
  rw [simulate_fcfs_int_eq tasks h hrange]
  obtain ⟨h1, h2, h3, -⟩ := fcfs_recurrence_unbounded tasks h
  exact ⟨h1, h2, h3, by decide⟩

/-- C2 (amended) at the registry of Scenario 1, whose tasks satisfy the hypotheses. -/
theorem fcfs_start_finish_recurrence_witness :
    (∀ t ∈ scenario1, 0 ≤ t.arrival_time ∧ 1 ≤ t.burst_time
      ∧ t.remaining_time = t.burst_time)
    ∧ (last_arrival scenario1 : Int) + (total_burst scenario1 : Int) ≤ INT_MAX
    ∧ (simulate_fcfs_int scenario1).tasks.length = scenario1.length
    ∧ ((simulate_fcfs_int scenario1).tasks.map fun o => o.finish_time).Pairwise (· < ·) :=
  ⟨by decide, by decide, (fcfs_start_finish_recurrence scenario1 (by decide) (by decide)).1,
    (fcfs_start_finish_recurrence scenario1 (by decide) (by decide)).2.2.1 (by decide)⟩

/-! ## The clock as an `int`: SRTF -/

theorem srtf_tick_int_idle (s : SrtfState) (h : srtf_scan s.time s.tasks 0 none = none) :
    srtf_tick_int s
      = { s with time := int_wrap (s.time + 1), events := s.events ++ [Event.idle s.time] } := by
  unfold srtf_tick_int; rw [h]

theorem srtf_tick_int_run (s : SrtfState) (i : Nat) (t : Task)
    (h : srtf_scan s.time s.tasks 0 none = some (i, t))
    (h0 : int_wrap (t.remaining_time - 1) ≠ 0) :
    srtf_tick_int s =
      { tasks := s.tasks.set i
          { t with start_time := if t.start_time = -1 then s.time else t.start_time,
                   remaining_time := int_wrap (t.remaining_time - 1) },
        time := int_wrap (s.time + 1),
        completed := s.completed,
        events := s.events ++ [Event.running s.time t.pid] } := by
  unfold srtf_tick_int; rw [h]; simp only [h0, if_false]

theorem srtf_tick_int_done (s : SrtfState) (i : Nat) (t : Task)
    (h : srtf_scan s.time s.tasks 0 none = some (i, t))
    (h0 : int_wrap (t.remaining_time - 1) = 0) :
    srtf_tick_int s =
      { tasks := s.tasks.set i
          { t with start_time := if t.start_time = -1 then s.time else t.start_time,
                   remaining_time := int_wrap (t.remaining_time - 1),
                   finish_time := int_wrap (s.time + 1),
                   turnaround_time := int_wrap (int_wrap (s.time + 1) - t.arrival_time),
                   waiting_time :=
                     int_wrap (int_wrap (int_wrap (s.time + 1) - t.arrival_time)
                       - t.burst_time),
                   response_time :=
                     int_wrap ((if t.start_time = -1 then s.time else t.start_time)
                       - t.arrival_time) },
        time := int_wrap (s.time + 1),
        completed := int_wrap (s.completed + 1),
        events := s.events
          ++ [Event.running s.time t.pid, Event.finished (int_wrap (s.time + 1)) t.pid] } := by
  unfold srtf_tick_int; rw [h]; simp only [h0, if_true]

theorem sans_response_fields (a b : Task) (h : a.sans_response = b.sans_response) :
    a.pid = b.pid ∧ a.arrival_time = b.arrival_time ∧ a.burst_time = b.burst_time
      ∧ a.remaining_time = b.remaining_time ∧ a.start_time = b.start_time
      ∧ a.finish_time = b.finish_time ∧ a.waiting_time = b.waiting_time
      ∧ a.turnaround_time = b.turnaround_time := by
  have h1 : a.sans_response.pid = b.sans_response.pid := by rw [h]
  have h2 : a.sans_response.arrival_time = b.sans_response.arrival_time := by rw [h]
  have h3 : a.sans_response.burst_time = b.sans_response.burst_time := by rw [h]
  have h4 : a.sans_response.remaining_time = b.sans_response.remaining_time := by rw [h]
  have h5 : a.sans_response.start_time = b.sans_response.start_time := by rw [h]
  have h6 : a.sans_response.finish_time = b.sans_response.finish_time := by rw [h]
  have h7 : a.sans_response.waiting_time = b.sans_response.waiting_time := by rw [h]
  have h8 : a.sans_response.turnaround_time = b.sans_response.turnaround_time := by rw [h]
  exact ⟨h1, h2, h3, h4, h5, h6, h7, h8⟩

theorem srtf_scan_sans (time : Int) :
    ∀ (ts1 ts2 : List Task) (i : Nat) (cur1 cur2 : Option (Nat × Task)),
      ts1.map Task.sans_response = ts2.map Task.sans_response →
      cur1.map (fun c => (c.1, c.2.sans_response))
        = cur2.map (fun c => (c.1, c.2.sans_response)) →
      (srtf_scan time ts1 i cur1).map (fun c => (c.1, c.2.sans_response))
        = (srtf_scan time ts2 i cur2).map (fun c => (c.1, c.2.sans_response)) := by
  intro ts1
  induction ts1 with
  | nil =>
    intro ts2 i c1 c2 hm hc
    cases ts2 with
    | nil => exact hc
    | cons b ts2 => simp at hm
  | cons a ts1 ih =>
    intro ts2 i c1 c2 hm hc
    cases ts2 with
    | nil => simp at hm
    | cons b ts2 =>
      simp only [List.map_cons, List.cons.injEq] at hm
      obtain ⟨hab, hm⟩ := hm
      obtain ⟨_, harr, _, hrem, _⟩ := sans_response_fields a b hab
      unfold srtf_scan
      refine ih ts2 (i + 1) _ _ hm ?_
      rw [hrem, harr]
      by_cases hcond : b.remaining_time > 0 ∧ b.arrival_time ≤ time
      · rw [if_pos hcond, if_pos hcond]
        cases c1 with
        | none =>
          cases c2 with
          | none => simp only [Option.map_some', hab]
          | some y => simp at hc
        | some x =>
          cases c2 with
          | none => simp at hc
          | some y =>
            simp only [Option.map_some', Option.some.injEq, Prod.mk.injEq] at hc
            obtain ⟨hidx, hxy⟩ := hc
            obtain ⟨_, _, _, hrem2, _⟩ := sans_response_fields x.2 y.2 hxy
            simp only [hrem2]
            by_cases hlt : b.remaining_time < y.2.remaining_time
            · simp only [if_pos hlt, Option.map_some', hab]
            · simp only [if_neg hlt, Option.map_some', hidx, hxy]
      · rw [if_neg hcond, if_neg hcond]
        exact hc

theorem srtf_scan_agrees (si s : SrtfState) (h : si.agrees s) :
    (srtf_scan s.time s.tasks 0 none = none → srtf_scan si.time si.tasks 0 none = none)
    ∧ (∀ (i : Nat) (t : Task), srtf_scan s.time s.tasks 0 none = some (i, t) →
        ∃ t' : Task, srtf_scan si.time si.tasks 0 none = some (i, t')
          ∧ t'.sans_response = t.sans_response) := by
  obtain ⟨hm, ht, _, _⟩ := h
  have hscan := srtf_scan_sans s.time si.tasks s.tasks 0 none none hm rfl
  rw [ht]
  constructor
  · intro hsel
    rw [hsel] at hscan
    simpa using hscan
  · intro i t hsel
    rw [hsel] at hscan
    cases hsi : srtf_scan s.time si.tasks 0 none with
    | none => rw [hsi] at hscan; simp at hscan
    | some c =>
      rw [hsi] at hscan
      simp only [Option.map_some', Option.some.injEq, Prod.mk.injEq] at hscan
      obtain ⟨hidx, hc⟩ := hscan
      refine ⟨c.2, ?_, hc⟩
      rw [← hidx]

theorem sans_response_eq (a b : Task) (h1 : a.pid = b.pid)
    (h2 : a.arrival_time = b.arrival_time) (h3 : a.burst_time = b.burst_time)
    (h4 : a.remaining_time = b.remaining_time) (h5 : a.start_time = b.start_time)
    (h6 : a.finish_time = b.finish_time) (h7 : a.waiting_time = b.waiting_time)
    (h8 : a.turnaround_time = b.turnaround_time) :
    a.sans_response = b.sans_response := by
  unfold Task.sans_response
  rw [h1, h2, h3, h4, h5, h6, h7, h8]

theorem srtf_tick_agrees (si s : SrtfState) (h : si.agrees s)
    (htime : 0 ≤ s.time) (htmax : s.time + 1 ≤ 2147483647)
    (hc0 : 0 ≤ s.completed) (hcmax : s.completed + 1 ≤ 2147483647)
    (hall : ∀ t ∈ s.tasks, 0 ≤ t.arrival_time ∧ 1 ≤ t.burst_time
      ∧ t.burst_time ≤ 2147483647 ∧ t.remaining_time ≤ t.burst_time) :
    (srtf_tick_int si).agrees (srtf_tick s) := by
  obtain ⟨hnone, hsome⟩ := srtf_scan_agrees si s h
  obtain ⟨hm, ht, hc, he⟩ := h
  have wt : int_wrap (si.time + 1) = s.time + 1 := by
    rw [ht]; exact int_wrap_eq _ (by omega) (by omega)
  cases hsel : srtf_scan s.time s.tasks 0 none with
  | none =>
    rw [srtf_tick_int_idle si (hnone hsel), srtf_tick_idle s hsel]
    exact ⟨hm, wt, hc, by show si.events ++ _ = s.events ++ _; rw [he, ht]⟩
  | some c =>
    obtain ⟨i, t⟩ := c
    obtain ⟨t', hsel', htt⟩ := hsome i t hsel
    obtain ⟨hget, hready, _⟩ := srtf_select_some s i t hsel
    obtain ⟨hr1, hr2⟩ := hready
    obtain ⟨a1, a2, a3, a4⟩ := hall t (List.getElem?_mem hget)
    obtain ⟨f1, f2, f3, f4, f5, f6, f7, f8⟩ := sans_response_fields t' t htt
    have wr : int_wrap (t'.remaining_time - 1) = t.remaining_time - 1 := by
      rw [f4]; exact int_wrap_eq _ (by omega) (by omega)
    by_cases h0 : t.remaining_time - 1 = 0
    · rw [srtf_tick_int_done si i t' hsel' (by rw [wr]; exact h0), srtf_tick_done s i t hsel h0]
      have wta : int_wrap (int_wrap (si.time + 1) - t'.arrival_time)
          = s.time + 1 - t.arrival_time := by
        rw [wt, f2]; exact int_wrap_eq _ (by omega) (by omega)
      have wwt : int_wrap (int_wrap (int_wrap (si.time + 1) - t'.arrival_time)
          - t'.burst_time) = s.time + 1 - t.arrival_time - t.burst_time := by
        rw [wta, f3]; exact int_wrap_eq _ (by omega) (by omega)
      have wc : int_wrap (si.completed + 1) = s.completed + 1 := by
        rw [hc]; exact int_wrap_eq _ (by omega) (by omega)
      refine ⟨?_, wt, wc, ?_⟩
      · show (si.tasks.set i _).map Task.sans_response
          = (s.tasks.set i _).map Task.sans_response
        rw [List.map_set, List.map_set, hm]
        congr 1
        exact sans_response_eq _ _ f1 f2 f3 wr (by show (if _ then _ else _) = _; rw [f5, ht])
          wt wwt wta
      · show si.events ++ _ = s.events ++ _
        rw [he, wt, ht, f1]
    · rw [srtf_tick_int_run si i t' hsel' (by rw [wr]; exact h0), srtf_tick_run s i t hsel h0]
      refine ⟨?_, wt, hc, ?_⟩
      · show (si.tasks.set i _).map Task.sans_response
          = (s.tasks.set i _).map Task.sans_response
        rw [List.map_set, List.map_set, hm]
        congr 1
        exact sans_response_eq _ _ f1 f2 f3 wr (by show (if _ then _ else _) = _; rw [f5, ht])
          f6 f7 f8
      · show si.events ++ _ = s.events ++ _
        rw [he, ht, f1]

theorem burst_le_total : ∀ (l : List Task) (t : Task), t ∈ l →
    t.burst_time.toNat ≤ total_burst l := by
  intro l
  induction l with
  | nil => intro t h; simp at h
  | cons x xs ih =>
    intro t h
    have htb : total_burst (x :: xs) = x.burst_time.toNat + total_burst xs := by
      simp [total_burst]
    rw [htb]
    rcases List.mem_cons.mp h with rfl | h
    · omega
    · have := ih t h
      omega

theorem length_le_total_burst : ∀ (l : List Task), (∀ t ∈ l, 1 ≤ t.burst_time) →
    l.length ≤ total_burst l := by
  intro l
  induction l with
  | nil => intro _; simp [total_burst]
  | cons x xs ih =>
    intro h
    have htb : total_burst (x :: xs) = x.burst_time.toNat + total_burst xs := by
      simp [total_burst]
    have h1 := h x (List.mem_cons_self _ _)
    have h2 := ih (fun t ht => h t (List.mem_cons_of_mem _ ht))
    rw [htb, List.length_cons]
    omega

theorem work_left_le_measure (s : SrtfState) : work_left s.tasks ≤ s.measure := by
  unfold SrtfState.measure
  omega

/-- What the loop invariants of `simulate_srtf` give about the ranges, when the bound on the
clock is at most `INT_MAX` and the loop is still running. -/
theorem srtf_reached_ranges (bound : Nat) (hb : (bound : Int) ≤ 2147483647) (s : SrtfState)
    (hinv : s.inv) (hacc : s.accounted bound) (hc : s.completed < s.tasks.length) :
    s.time + 1 ≤ 2147483647 ∧ 0 ≤ s.completed ∧ s.completed + 1 ≤ 2147483647
    ∧ ∀ t ∈ s.tasks, 0 ≤ t.arrival_time ∧ 1 ≤ t.burst_time
      ∧ t.burst_time ≤ 2147483647 ∧ t.remaining_time ≤ t.burst_time := by
  have hmeas := srtf_tick_measure s hinv hc
  obtain ⟨hall, hcount⟩ := hinv
  obtain ⟨_, hlow, hup⟩ := hacc
  have hwl := work_left_le_measure s
  have hlen := length_le_total_burst s.tasks (fun t ht => (hall t ht).2.1)
  have hdc := done_count_le s.tasks
  refine ⟨by omega, by omega, by omega, ?_⟩
  intro t ht
  obtain ⟨h1, h2, h3, h4, _⟩ := hall t ht
  have := burst_le_total s.tasks t ht
  exact ⟨h1, h2, by omega, h4⟩

theorem agrees_length (si s : SrtfState) (h : si.agrees s) :
    si.tasks.length = s.tasks.length := by
  have := congrArg List.length h.1
  simpa using this

theorem srtf_iter_agrees (bound : Nat) (hb : (bound : Int) ≤ 2147483647) :
    ∀ (k : Nat) (si s : SrtfState), si.agrees s → s.inv → s.accounted bound → 0 ≤ s.time →
      (srtf_iter_int k si).agrees (srtf_iter k s) := by
  intro k
  induction k with
  | zero => intro si s h _ _ _; exact h
  | succ k ih =>
    intro si s h hinv hacc htime
    have hlen := agrees_length si s h
    have hcomp : si.completed = s.completed := h.2.2.1
    unfold srtf_iter_int srtf_iter
    rw [hcomp, hlen]
    by_cases hc : s.completed < s.tasks.length
    · rw [if_pos hc, if_pos hc]
      obtain ⟨r1, r2, r3, r4⟩ := srtf_reached_ranges bound hb s hinv hacc hc
      exact ih _ _ (srtf_tick_agrees si s h htime r1 r2 r3 r4) (srtf_tick_inv s hinv)
        (srtf_tick_accounted bound s hinv hc hacc) (by rw [srtf_tick_time]; omega)
    · rw [if_neg hc, if_neg hc]
      exact h

theorem srtf_iter_int_stopped (k : Nat) (s : SrtfState)
    (h : ¬ s.completed < s.tasks.length) : srtf_iter_int k s = s := by
  cases k with
  | zero => rfl
  | succ k => unfold srtf_iter_int; rw [if_neg h]

theorem srtf_iter_int_add : ∀ (a b : Nat) (s : SrtfState),
    srtf_iter_int (a + b) s = srtf_iter_int b (srtf_iter_int a s) := by
  intro a
  induction a with
  | zero => intro b s; rw [Nat.zero_add]; rfl
  | succ a ih =>
    intro b s
    have hab : a + 1 + b = (a + b) + 1 := by omega
    rw [hab]
    by_cases hc : s.completed < s.tasks.length
    · have e1 : srtf_iter_int (a + b + 1) s = srtf_iter_int (a + b) (srtf_tick_int s) := by
        show (if s.completed < s.tasks.length then _ else _) = _
        rw [if_pos hc]
      have e2 : srtf_iter_int (a + 1) s = srtf_iter_int a (srtf_tick_int s) := by
        show (if s.completed < s.tasks.length then _ else _) = _
        rw [if_pos hc]
      rw [e1, e2, ih]
    · rw [srtf_iter_int_stopped _ s hc, srtf_iter_int_stopped _ s hc,
        srtf_iter_int_stopped _ s hc]

theorem srtf_iter_int_unique (a b : Nat) (s : SrtfState)
    (ha : ¬ (srtf_iter_int a s).completed < (srtf_iter_int a s).tasks.length)
    (hb : ¬ (srtf_iter_int b s).completed < (srtf_iter_int b s).tasks.length) :
    srtf_iter_int a s = srtf_iter_int b s := by
  have h1 := srtf_iter_int_add a b s
  have h2 := srtf_iter_int_add b a s
  rw [srtf_iter_int_stopped b _ ha] at h1
  rw [srtf_iter_int_stopped a _ hb, Nat.add_comm] at h2
  rw [← h1, h2]

theorem simulate_srtf_int_some (fuel : Nat) (tasks : List Task) (r : Run) :
    simulate_srtf_int fuel tasks = some r ↔
      ¬ (srtf_iter_int fuel (srtf_init tasks)).completed
          < (srtf_iter_int fuel (srtf_init tasks)).tasks.length
      ∧ r = { tasks := (srtf_iter_int fuel (srtf_init tasks)).tasks,
              time := (srtf_iter_int fuel (srtf_init tasks)).time,
              events := (srtf_iter_int fuel (srtf_init tasks)).events
                ++ [Event.all_finished (srtf_iter_int fuel (srtf_init tasks)).time] } := by
  unfold simulate_srtf_int
  simp only
  constructor
  · intro h
    split at h
    · cases h
    · rename_i hc
      cases h
      exact ⟨hc, rfl⟩
  · rintro ⟨hc, rfl⟩
    rw [if_neg hc]

theorem simulate_srtf_some (fuel : Nat) (tasks : List Task) (r : Run) :
    simulate_srtf fuel tasks = some r ↔
      ¬ (srtf_iter fuel (srtf_init tasks)).completed
          < (srtf_iter fuel (srtf_init tasks)).tasks.length
      ∧ r = { tasks := (srtf_iter fuel (srtf_init tasks)).tasks,
              time := (srtf_iter fuel (srtf_init tasks)).time,
              events := (srtf_iter fuel (srtf_init tasks)).events
                ++ [Event.all_finished (srtf_iter fuel (srtf_init tasks)).time] } := by
  unfold simulate_srtf
  simp only
  constructor
  · intro h
    split at h
    · cases h
    · rename_i hc
      cases h
      exact ⟨hc, rfl⟩
  · rintro ⟨hc, rfl⟩
    rw [if_neg hc]

theorem simulate_srtf_int_unique (a b : Nat) (tasks : List Task) (r r' : Run)
    (ha : simulate_srtf_int a tasks = some r) (hb : simulate_srtf_int b tasks = some r') :
    r' = r := by
  obtain ⟨hca, hra⟩ := (simulate_srtf_int_some a tasks r).mp ha
  obtain ⟨hcb, hrb⟩ := (simulate_srtf_int_some b tasks r').mp hb
  rw [hra, hrb, srtf_iter_int_unique a b _ hca hcb]

theorem sans_response_sums (l l' : List Task)
    (h : l.map Task.sans_response = l'.map Task.sans_response) :
    work_left l = work_left l' ∧ last_arrival l = last_arrival l'
      ∧ ∀ t ∈ l, ∃ u ∈ l', t.sans_response = u.sans_response := by
  have e1 : ∀ m : List Task, (m.map fun t => t.remaining_time.toNat)
      = (m.map Task.sans_response).map (fun t => t.remaining_time.toNat) := by
    intro m; simp [List.map_map, Function.comp_def, Task.sans_response]
  have e2 : ∀ m : List Task, (m.map fun t => t.arrival_time.toNat)
      = (m.map Task.sans_response).map (fun t => t.arrival_time.toNat) := by
    intro m; simp [List.map_map, Function.comp_def, Task.sans_response]
  refine ⟨?_, ?_, ?_⟩
  · unfold work_left
    rw [e1 l, e1 l', h]
  · unfold last_arrival
    rw [e2 l, e2 l', h]
  · intro t ht
    have hmem : t.sans_response ∈ l.map Task.sans_response := List.mem_map_of_mem _ ht
    rw [h] at hmem
    obtain ⟨u, hu, hut⟩ := List.mem_map.mp hmem
    exact ⟨u, hu, hut.symm⟩

theorem agrees_measure (si s : SrtfState) (h : si.agrees s) : si.measure = s.measure := by
  obtain ⟨h1, h2, _⟩ := sans_response_sums si.tasks s.tasks h.1
  unfold SrtfState.measure
  rw [h1, h2, h.2.1]

theorem srtf_fuel_eq (tasks : List Task) (h : ∀ t ∈ tasks, t.remaining_time = t.burst_time) :
    srtf_fuel tasks = last_arrival tasks + total_burst tasks := by
  unfold srtf_fuel last_arrival total_burst
  have hmap : (tasks.map fun t => t.remaining_time.toNat)
      = (tasks.map fun t => t.burst_time.toNat) :=
    List.map_congr_left (fun t ht => by rw [h t ht])
  rw [hmap]

theorem srtf_iter_time_nonneg : ∀ (k : Nat) (s : SrtfState), 0 ≤ s.time →
    0 ≤ (srtf_iter k s).time := by
  intro k
  induction k with
  | zero => intro s h; exact h
  | succ k ih =>
    intro s h
    unfold srtf_iter
    split
    · exact ih _ (by rw [srtf_tick_time]; omega)
    · exact h

/-- With the largest arrival time plus the total burst time at most `INT_MAX`, the loop of
`simulate_srtf` in `int` arithmetic goes through the states of the loop in unbounded
integers, up to the `response_time` of the tasks. -/
theorem srtf_run_agrees (tasks : List Task)
    (h : ∀ t ∈ tasks, 0 ≤ t.arrival_time ∧ 1 ≤ t.burst_time
      ∧ t.remaining_time = t.burst_time)
    (hrange : (last_arrival tasks : Int) + (total_burst tasks : Int) ≤ INT_MAX) (k : Nat) :
    (srtf_iter_int k (srtf_init tasks)).agrees (srtf_iter k (srtf_init tasks))
    ∧ (srtf_iter k (srtf_init tasks)).inv
    ∧ (srtf_iter k (srtf_init tasks)).accounted (srtf_fuel tasks)
    ∧ 0 ≤ (srtf_iter k (srtf_init tasks)).time := by
  have hinv := srtf_init_inv_of tasks h
  have hacc := srtf_init_accounted tasks (fun t ht => (h t ht).2.2)
  have hb : ((srtf_fuel tasks : Nat) : Int) ≤ 2147483647 := by
    rw [srtf_fuel_eq tasks (fun t ht => (h t ht).2.2)]
    unfold INT_MAX at hrange
    push_cast
    exact hrange
  refine ⟨srtf_iter_agrees (srtf_fuel tasks) hb k _ _ ⟨rfl, rfl, rfl, rfl⟩ hinv hacc
      (le_refl _), srtf_iter_inv k _ hinv, srtf_iter_accounted _ k _ hinv hacc, ?_⟩
  exact srtf_iter_time_nonneg k _ (le_refl _)

theorem late_registry_eq :
    late_registry
      = [{ pid := 1, arrival_time := 2147483646, burst_time := 2, remaining_time := 2,
           start_time := -1, finish_time := 0, waiting_time := 0, response_time := 0,
           turnaround_time := 0 }] := by
  decide

/-- The idle ticks of `simulate_srtf` on `late_registry`: from clock `T` the loop idles as
long as the clock stays below the arrival time. -/
theorem late_registry_idles : ∀ (k : Nat) (T : Int) (E : List Event), 0 ≤ T →
    T + (k : Int) ≤ 2147483646 →
    ∃ E' : List Event,
      srtf_iter_int k { tasks := late_registry, time := T, completed := 0, events := E }
        = { tasks := late_registry, time := T + (k : Int), completed := 0, events := E' } := by
  intro k
  induction k with
  | zero => intro T E _ _; exact ⟨E, by simp [srtf_iter_int]⟩
  | succ k ih =>
    intro T E h0 h1
    have hT : T < 2147483646 := by push_cast at h1; omega
    have hscan : srtf_scan T late_registry 0 none = none := by
      rw [late_registry_eq]
      simp only [srtf_scan]
      rw [if_neg (by omega)]
    have hc : (0 : Int) < (late_registry.length : Int) := by
      rw [late_registry_eq]; decide
    have htick : srtf_tick_int
        { tasks := late_registry, time := T, completed := 0, events := E }
        = { tasks := late_registry, time := T + 1, completed := 0,
            events := E ++ [Event.idle T] } := by
      rw [srtf_tick_int_idle _ hscan]
      show ({ tasks := late_registry, time := int_wrap (T + 1), completed := 0,
              events := E ++ [Event.idle T] } : SrtfState) = _
      rw [int_wrap_eq (T + 1) (by omega) (by omega)]
    obtain ⟨E', hE'⟩ := ih (T + 1) (E ++ [Event.idle T]) (by omega)
      (by push_cast at h1; omega)
    refine ⟨E', ?_⟩
    show (if (0 : Int) < (late_registry.length : Int) then _ else _) = _
    rw [if_pos hc, htick, hE']
    congr 1
    push_cast
    ring

theorem late_registry_last_ticks (E : List Event) :
    (srtf_iter_int 2
        { tasks := late_registry, time := 2147483646, completed := 0, events := E }).tasks
      = [{ pid := 1, arrival_time := 2147483646, burst_time := 2, remaining_time := 0,
           start_time := 2147483646, finish_time := -2147483648, waiting_time := 0,
           response_time := 0, turnaround_time := 2 }]
    ∧ (srtf_iter_int 2
        { tasks := late_registry, time := 2147483646, completed := 0, events := E }).time
      = -2147483648
    ∧ (srtf_iter_int 2
        { tasks := late_registry, time := 2147483646, completed := 0, events := E }).completed
      = 1 :=
  ⟨rfl, rfl, rfl⟩

/-- The run of `simulate_srtf` on `late_registry`: after `2^31` iterations the loop has
ended, with the task finished at `-2147483648` and the clock at `-2147483648`. -/
theorem late_registry_run :
    ∃ r : Run, simulate_srtf_int 2147483648 late_registry = some r
      ∧ r.tasks
        = [{ pid := 1, arrival_time := 2147483646, burst_time := 2, remaining_time := 0,
             start_time := 2147483646, finish_time := -2147483648, waiting_time := 0,
             response_time := 0, turnaround_time := 2 }]
      ∧ r.time = -2147483648 := by
  obtain ⟨E, hE⟩ := late_registry_idles 2147483646 0 [] (le_refl _) (by norm_num)
  have hE2 : srtf_iter_int 2147483646
        { tasks := late_registry, time := 0, completed := 0, events := [] }
      = { tasks := late_registry, time := 2147483646, completed := 0, events := E } := by
    rw [hE]
    norm_num
  have hsplit : (2147483648 : Nat) = 2147483646 + 2 := by norm_num
  have hinit : srtf_init late_registry
      = { tasks := late_registry, time := 0, completed := 0, events := [] } := rfl
  have hiter : srtf_iter_int 2147483648 (srtf_init late_registry)
      = srtf_iter_int 2
          { tasks := late_registry, time := 2147483646, completed := 0, events := E } := by
    rw [hsplit, srtf_iter_int_add, hinit, hE2]
  obtain ⟨h1, h2, h3⟩ := late_registry_last_ticks E
  have key := simulate_srtf_int_some 2147483648 late_registry
  rw [hiter, h1, h2, h3] at key
  exact ⟨_, (key _).mpr ⟨by decide, rfl⟩, rfl, rfl⟩

theorem srtf_int_returns (tasks : List Task)
    (h : ∀ t ∈ tasks, 0 ≤ t.arrival_time ∧ 1 ≤ t.burst_time
      ∧ t.remaining_time = t.burst_time)
    (hrange : (last_arrival tasks : Int) + (total_burst tasks : Int) ≤ INT_MAX) :
    ∃ (ri r : Run), simulate_srtf_int (srtf_fuel tasks) tasks = some ri
      ∧ simulate_srtf (srtf_fuel tasks) tasks = some r
      ∧ (∀ (fuel : Nat) (r' : Run), simulate_srtf_int fuel tasks = some r' → r' = ri)
      ∧ ri.tasks.map Task.sans_response = r.tasks.map Task.sans_response
      ∧ ri.time = r.time ∧ ri.events = r.events := by
  obtain ⟨_, r, hr, _⟩ := srtf_terminates_unbounded tasks h
  obtain ⟨hc, hreq⟩ := (simulate_srtf_some _ tasks r).mp hr
  obtain ⟨hag, _, _, _⟩ := srtf_run_agrees tasks h hrange (srtf_fuel tasks)
  have hlen := agrees_length _ _ hag
  obtain ⟨hm, ht, hcomp, he⟩ := hag
  have hci : ¬ (srtf_iter_int (srtf_fuel tasks) (srtf_init tasks)).completed
      < (srtf_iter_int (srtf_fuel tasks) (srtf_init tasks)).tasks.length := by
    rw [hcomp, hlen]; exact hc
  have hri := (simulate_srtf_int_some (srtf_fuel tasks) tasks _).mpr ⟨hci, rfl⟩
  refine ⟨_, r, hri, hr, fun fuel r' h' => simulate_srtf_int_unique _ _ tasks _ r' hri h', ?_,
    ?_, ?_⟩
  · rw [hreq]; exact hm
  · rw [hreq]; exact ht
  · rw [hreq]
    show _ ++ _ = _ ++ _
    rw [he, ht]

/-- C6, as stated, fails on the single task (pid 1, arrival 2147483646, burst 2), a
well-formed registry: its second tick is at `INT_MAX`, `finish_time = time + 1` is computed in
`int`, and the task is left with `finish_time = -2147483648`, below
`arrival_time + burst_time = 2147483648` (and below its arrival time). -/
theorem srtf_finish_overflows :
    (∀ t ∈ late_registry, 0 ≤ t.arrival_time ∧ 1 ≤ t.burst_time
      ∧ t.remaining_time = t.burst_time ∧ t.start_time = -1)
    ∧ ∃ r : Run, simulate_srtf_int 2147483648 late_registry = some r
        ∧ r.tasks.map (fun t => (t.arrival_time, t.burst_time, t.finish_time))
          = [(2147483646, 2, -2147483648)]
        ∧ ∀ t ∈ r.tasks, ¬ t.arrival_time + t.burst_time ≤ t.finish_time := by
  obtain ⟨r, hr, ht, _⟩ := late_registry_run
  refine ⟨by decide, r, hr, by rw [ht]; rfl, ?_⟩
  rw [ht]
  decide

/-- C6, amended: on a well-formed registry whose largest arrival time plus total burst time
is at most `INT_MAX = 2147483647`, `simulate_srtf` (with the clock an `int`) returns, the same
run for every sufficient number of iterations, and every task then has
`finish_time ≥ arrival_time + burst_time` and
`waiting_time = finish_time - arrival_time - burst_time ≥ 0`. -/
theorem srtf_never_early (tasks : List Task)
    (h : ∀ t ∈ tasks, 0 ≤ t.arrival_time ∧ 1 ≤ t.burst_time
      ∧ t.remaining_time = t.burst_time ∧ t.start_time = -1)
    (hrange : (last_arrival tasks : Int) + (total_burst tasks : Int) ≤ INT_MAX) :
    ∃ r, simulate_srtf_int (srtf_fuel tasks) tasks = some r
      ∧ (∀ fuel r', simulate_srtf_int fuel tasks = some r' → r' = r)
      ∧ ∀ t ∈ r.tasks,
          t.arrival_time + t.burst_time ≤ t.finish_time
          ∧ t.waiting_time = t.finish_time - t.arrival_time - t.burst_time
          ∧ 0 ≤ t.waiting_time := by
  obtain ⟨ri, r, hri, hr, huniq, hm, _, _⟩ :=
    srtf_int_returns tasks (fun t ht => ⟨(h t ht).1, (h t ht).2.1, (h t ht).2.2.1⟩) hrange
  obtain ⟨r0, hr0, _, hall⟩ := srtf_never_early_unbounded tasks h
  have hrr : r = r0 := Option.some.inj (hr.symm.trans hr0)
  subst hrr
  refine ⟨ri, hri, huniq, ?_⟩
  intro t ht
  obtain ⟨u, hu, htu⟩ := (sans_response_sums ri.tasks r.tasks hm).2.2 t ht
  obtain ⟨_, f2, f3, _, _, f6, f7, _⟩ := sans_response_fields t u htu
  rw [f2, f3, f6, f7]
  exact hall u hu

/-- C6 (amended) at the registry of Scenario 3. -/
theorem srtf_never_early_witness :
    (∀ t ∈ scenario3, 0 ≤ t.arrival_time ∧ 1 ≤ t.burst_time
      ∧ t.remaining_time = t.burst_time ∧ t.start_time = -1)
    ∧ (last_arrival scenario3 : Int) + (total_burst scenario3 : Int) ≤ INT_MAX
    ∧ ∃ r, simulate_srtf_int (srtf_fuel scenario3) scenario3 = some r
      ∧ (∀ fuel r', simulate_srtf_int fuel scenario3 = some r' → r' = r)
      ∧ ∀ t ∈ r.tasks,
          t.arrival_time + t.burst_time ≤ t.finish_time
          ∧ t.waiting_time = t.finish_time - t.arrival_time - t.burst_time
          ∧ 0 ≤ t.waiting_time :=
  ⟨by decide, by decide, srtf_never_early scenario3 (by decide) (by decide)⟩

/-- C18, as stated, fails on the single task (pid 1, arrival 2147483646, burst 2), which has
`arrival_time ≥ 0` and `remaining_time = burst_time ≥ 1`: the loop ends after `2^31`
iterations with the task done, but the clock is an `int` and its last increment leaves
`-2147483648`, which is not between the total burst time 2 and the largest arrival time plus
the total burst time, 2147483648. -/
theorem srtf_clock_overflows :
    (∀ t ∈ late_registry, 0 ≤ t.arrival_time ∧ 1 ≤ t.burst_time
      ∧ t.remaining_time = t.burst_time)
    ∧ total_burst late_registry = 2 ∧ last_arrival late_registry = 2147483646
    ∧ ∃ r : Run, simulate_srtf_int 2147483648 late_registry = some r
        ∧ (∀ t ∈ r.tasks, t.remaining_time = 0)
        ∧ r.time = -2147483648
        ∧ ¬ (total_burst late_registry : Int) ≤ r.time := by
  obtain ⟨r, hr, ht, htime⟩ := late_registry_run
  refine ⟨by decide, by decide, by decide, r, hr, ?_, htime, ?_⟩
  · rw [ht]; decide
  · rw [htime]; decide

/-- C18, amended: on a registry whose tasks have `arrival_time ≥ 0` and
`remaining_time = burst_time ≥ 1` and whose largest arrival time plus total burst time is at
most `INT_MAX = 2147483647`, the loop of `simulate_srtf` (with the clock an `int`) terminates
(the work left plus the ticks until the last arrival decreases at every iteration), within
`largest arrival + total burst` iterations and with the same result for any larger bound; on
return every task has `remaining_time = 0`, the running events of each pid number the burst
time of the tasks with that pid, and the final clock lies between the total burst time and
the largest arrival time plus the total burst time. -/
theorem srtf_terminates (tasks : List Task)
    (h : ∀ t ∈ tasks, 0 ≤ t.arrival_time ∧ 1 ≤ t.burst_time
      ∧ t.remaining_time = t.burst_time)
    (hrange : (last_arrival tasks : Int) + (total_burst tasks : Int) ≤ INT_MAX) :
    (∀ k : Nat,
      (srtf_iter_int k (srtf_init tasks)).completed
        < (srtf_iter_int k (srtf_init tasks)).tasks.length →
      (srtf_tick_int (srtf_iter_int k (srtf_init tasks))).measure
        < (srtf_iter_int k (srtf_init tasks)).measure)
    ∧ ∃ r, simulate_srtf_int (srtf_fuel tasks) tasks = some r
      ∧ (∀ (fuel : Nat) (r' : Run), simulate_srtf_int fuel tasks = some r' → r' = r)
      ∧ (∀ t ∈ r.tasks, t.remaining_time = 0)
      ∧ (∀ p : Int, running_count p r.events = burst_of p tasks)
      ∧ (total_burst tasks : Int) ≤ r.time
      ∧ r.time ≤ (last_arrival tasks : Int) + (total_burst tasks : Int) := by
  obtain ⟨hdec, r0, hr0, _, hzero, hcnt, hlow, hup⟩ := srtf_terminates_unbounded tasks h
  constructor
  · intro k hc
    obtain ⟨hag, hinv, hacc, htime⟩ := srtf_run_agrees tasks h hrange k
    have hlen := agrees_length _ _ hag
    have hc2 : (srtf_iter k (srtf_init tasks)).completed
        < (srtf_iter k (srtf_init tasks)).tasks.length := by
      rw [← hag.2.2.1, ← hlen]; exact hc
    have hb : ((srtf_fuel tasks : Nat) : Int) ≤ 2147483647 := by
      rw [srtf_fuel_eq tasks (fun t ht => (h t ht).2.2)]
      unfold INT_MAX at hrange
      push_cast
      exact hrange
    obtain ⟨r1, r2, r3, r4⟩ := srtf_reached_ranges _ hb _ hinv hacc hc2
    have hag2 := srtf_tick_agrees _ _ hag htime r1 r2 r3 r4
    rw [agrees_measure _ _ hag, agrees_measure _ _ hag2]
    exact hdec k hc2
  · obtain ⟨ri, r, hri, hr, huniq, hm, htime, hev⟩ := srtf_int_returns tasks h hrange
    have hrr : r = r0 := Option.some.inj (hr.symm.trans hr0)
    subst hrr
    refine ⟨ri, hri, huniq, ?_, ?_, ?_, ?_⟩
    · intro t ht
      obtain ⟨u, hu, htu⟩ := (sans_response_sums ri.tasks r.tasks hm).2.2 t ht
      obtain ⟨_, _, _, f4, _⟩ := sans_response_fields t u htu
      rw [f4]
      exact hzero u hu
    · intro p
      rw [hev]
      exact hcnt p
    · rw [htime]; exact hlow
    · rw [htime]; exact hup

/-- C18 (amended) at the registry of Scenario 3: it returns at clock 12, the total burst
time. -/
theorem srtf_terminates_witness :
    (∀ t ∈ scenario3, 0 ≤ t.arrival_time ∧ 1 ≤ t.burst_time
      ∧ t.remaining_time = t.burst_time)
    ∧ (last_arrival scenario3 : Int) + (total_burst scenario3 : Int) ≤ INT_MAX
    ∧ ∃ r, simulate_srtf_int (srtf_fuel scenario3) scenario3 = some r
      ∧ (∀ t ∈ r.tasks, t.remaining_time = 0)
      ∧ (total_burst scenario3 : Int) ≤ r.time :=
  ⟨by decide, by decide,
    (srtf_terminates scenario3 (by decide) (by decide)).2.imp
      (fun _ hr => ⟨hr.1, hr.2.2.1, hr.2.2.2.2.1⟩)⟩

/-! ## Statistics: the averages as printed -/

theorem round_half_even_bounds (q : ℚ) :
    q - 1 / 2 ≤ (round_half_even q : ℚ) ∧ (round_half_even q : ℚ) ≤ q + 1 / 2 := by
  have h1 := Int.floor_le q
  have h2 := Int.lt_floor_add_one q
  unfold round_half_even
  split_ifs with a b c
  · constructor <;> linarith
  · push_cast; constructor <;> linarith
  · have : q - ⌊q⌋ = 1 / 2 := le_antisymm (not_lt.mp b) (not_lt.mp a)
    constructor <;> linarith
  · have : q - ⌊q⌋ = 1 / 2 := le_antisymm (not_lt.mp b) (not_lt.mp a)
    push_cast; constructor <;> linarith

theorem round_half_even_eq (q : ℚ) (h : Int) (h1 : (h : ℚ) - 1 / 2 < q)
    (h2 : q < (h : ℚ) + 1 / 2) : round_half_even q = h := by
  obtain ⟨b1, b2⟩ := round_half_even_bounds q
  have l1 : ((round_half_even q : Int) : ℚ) < (h : ℚ) + 1 := by linarith
  have l2 : (h : ℚ) - 1 < ((round_half_even q : Int) : ℚ) := by linarith
  have l1' : round_half_even q < h + 1 := by exact_mod_cast l1
  have l2' : h - 1 < round_half_even q := by exact_mod_cast l2
  omega

theorem round_half_even_int (z : Int) : round_half_even (z : ℚ) = z := by
  apply round_half_even_eq <;> linarith

theorem binary64_error (q : ℚ) : |binary64 q - q| ≤ |q| / 2 ^ 53 := by
  unfold binary64
  split_ifs with h0
  · simp [h0]
  · have hpos : (0 : ℚ) < |q| := abs_pos.mpr h0
    have hlog := Int.zpow_log_le_self (b := 2) (by norm_num) hpos
    have hu : (0 : ℚ) < 2 ^ (Int.log 2 |q| - 52) := by positivity
    obtain ⟨b1, b2⟩ := round_half_even_bounds (q / 2 ^ (Int.log 2 |q| - 52))
    have hq : q / 2 ^ (Int.log 2 |q| - 52) * 2 ^ (Int.log 2 |q| - 52) = q := by
      field_simp
    have e1 : (2 : ℚ) ^ (Int.log 2 |q| - 52) / 2 ≤ |q| / 2 ^ 53 := by
      have h1 : (2 : ℚ) ^ (Int.log 2 |q| - 52) = 2 ^ Int.log 2 |q| / 2 ^ 52 := by
        rw [zpow_sub₀ (by norm_num : (2 : ℚ) ≠ 0)]
        norm_num
      have h2 : (2 : ℚ) ^ Int.log 2 |q| ≤ |q| := by exact_mod_cast hlog
      rw [h1]
      have h3 : (2 : ℚ) ^ Int.log 2 |q| / 2 ^ 52 / 2 = 2 ^ Int.log 2 |q| / 2 ^ 53 := by
        rw [div_div]; norm_num
      rw [h3]
      exact div_le_div_of_nonneg_right h2 (by positivity)
    rw [abs_le]
    constructor
    · nlinarith
    · nlinarith

theorem binary64_int_exact (z : Int) (hz : |z| < 2 ^ 53) : binary64 (z : ℚ) = z := by
  unfold binary64
  split_ifs with h0
  · exact h0.symm
  · have hpos : (0 : ℚ) < |(z : ℚ)| := abs_pos.mpr h0
    have hz0 : z ≠ 0 := by
      intro h; apply h0; rw [h]; simp
    have h1 : (1 : ℚ) ≤ |(z : ℚ)| := by
      have : (1 : Int) ≤ |z| := Int.one_le_abs hz0
      exact_mod_cast this
    have h2 : |(z : ℚ)| < 2 ^ 53 := by exact_mod_cast hz
    have hlo : 0 ≤ Int.log 2 |(z : ℚ)| := by
      rw [← Int.zpow_le_iff_le_log (by norm_num) hpos]
      simpa using h1
    have hhi : Int.log 2 |(z : ℚ)| < 53 := by
      rw [← Int.lt_zpow_iff_log_lt (by norm_num) hpos]
      have h3 : ((2 : ℕ) : ℚ) ^ (53 : ℤ) = 2 ^ 53 := by norm_num
      rw [h3]
      exact h2
    obtain ⟨k, hk⟩ : ∃ k : ℕ, Int.log 2 |(z : ℚ)| - 52 = -(k : ℤ) :=
      ⟨(52 - Int.log 2 |(z : ℚ)|).toNat, by omega⟩
    rw [hk, zpow_neg, zpow_natCast, div_inv_eq_mul]
    have hcast : (z : ℚ) * 2 ^ k = ((z * 2 ^ k : ℤ) : ℚ) := by push_cast; rfl
    rw [hcast, round_half_even_int]
    push_cast
    field_simp

theorem two_decimals_error (x : ℚ) : |two_decimals x - x| ≤ 1 / 200 := by
  unfold two_decimals
  obtain ⟨b1, b2⟩ := round_half_even_bounds (x * 100)
  rw [abs_le]
  constructor <;> linarith

theorem two_decimals_binary64_eq (q : ℚ) (h : Int)
    (h1 : (h : ℚ) - 1 / 2 < 100 * (q - |q| / 2 ^ 53))
    (h2 : 100 * (q + |q| / 2 ^ 53) < (h : ℚ) + 1 / 2) :
    two_decimals (binary64 q) = (h : ℚ) / 100 := by
  have herr := binary64_error q
  rw [abs_le] at herr
  unfold two_decimals
  rw [round_half_even_eq (binary64 q * 100) h (by linarith) (by linarith)]

theorem reported_error (q : ℚ) :
    |two_decimals (binary64 q) - q| ≤ 1 / 200 + |q| / 2 ^ 53 := by
  have h1 := two_decimals_error (binary64 q)
  have h2 := binary64_error q
  rw [abs_le] at h1 h2 ⊢
  constructor <;> linarith

theorem stat_totals_exact : ∀ (ts : List Task) (a b c : Int),
    (∀ t ∈ ts, (-2147483648 ≤ t.waiting_time ∧ t.waiting_time ≤ 2147483647)
      ∧ (-2147483648 ≤ t.turnaround_time ∧ t.turnaround_time ≤ 2147483647)
      ∧ (-2147483648 ≤ t.response_time ∧ t.response_time ≤ 2147483647)) →
    (-9007199254740992 < a - (ts.length : Int) * 2147483648
      ∧ a + (ts.length : Int) * 2147483648 < 9007199254740992) →
    (-9007199254740992 < b - (ts.length : Int) * 2147483648
      ∧ b + (ts.length : Int) * 2147483648 < 9007199254740992) →
    (-9007199254740992 < c - (ts.length : Int) * 2147483648
      ∧ c + (ts.length : Int) * 2147483648 < 9007199254740992) →
    stat_totals ts ((a : ℚ), (b : ℚ), (c : ℚ))
      = (((a + (ts.map fun t => t.waiting_time).sum : Int) : ℚ),
         ((b + (ts.map fun t => t.turnaround_time).sum : Int) : ℚ),
         ((c + (ts.map fun t => t.response_time).sum : Int) : ℚ)) := by
  intro ts
  induction ts with
  | nil => intro a b c _ _ _ _; simp [stat_totals]
  | cons t ts ih =>
    intro a b c h ha hb hc
    obtain ⟨hw, ht, hr⟩ := h t (List.mem_cons_self _ _)
    rw [List.length_cons] at ha hb hc
    push_cast at ha hb hc
    have hexact : ∀ (x y : Int), -9007199254740992 < x + y → x + y < 9007199254740992 →
        binary64 ((x : ℚ) + (y : ℚ)) = ((x + y : Int) : ℚ) := by
      intro x y h1 h2
      have hcast : (x : ℚ) + (y : ℚ) = ((x + y : Int) : ℚ) := by push_cast; rfl
      rw [hcast]
      apply binary64_int_exact
      rw [abs_lt]
      constructor
      · norm_num; omega
      · norm_num; omega
    unfold stat_totals
    simp only
    rw [hexact a t.waiting_time (by omega) (by omega),
      hexact b t.turnaround_time (by omega) (by omega),
      hexact c t.response_time (by omega) (by omega),
      ih (a + t.waiting_time) (b + t.turnaround_time) (c + t.response_time)
        (fun u hu => h u (List.mem_cons_of_mem _ hu)) (by omega) (by omega) (by omega)]
    simp only [List.map_cons, List.sum_cons, add_assoc]

theorem cast_sum_map : ∀ (l : List Task) (f : Task → Int),
    (((l.map f).sum : Int) : ℚ) = (l.map fun t => (f t : ℚ)).sum := by
  intro l f
  induction l with
  | nil => simp
  | cons x xs ih =>
    simp only [List.map_cons, List.sum_cons]
    rw [Int.cast_add, ih]

/-- The three lines of averages: under the ranges of the source (at most 100 tasks, `int`
metrics) the totals are the exact sums, and each average printed is the quotient by `n`,
rounded to a `double` and then to two decimals. -/
theorem print_statistics_rounded (tasks : List Task) (hcap : tasks.length ≤ 100)
    (hint : ∀ t ∈ tasks, (-2147483648 ≤ t.waiting_time ∧ t.waiting_time ≤ 2147483647)
      ∧ (-2147483648 ≤ t.turnaround_time ∧ t.turnaround_time ≤ 2147483647)
      ∧ (-2147483648 ≤ t.response_time ∧ t.response_time ≤ 2147483647)) :
    (print_statistics tasks).avg_waiting
        = two_decimals (binary64
            ((tasks.map fun t => (t.waiting_time : ℚ)).sum / (tasks.length : ℚ)))
    ∧ (print_statistics tasks).avg_response
        = two_decimals (binary64
            ((tasks.map fun t => (t.response_time : ℚ)).sum / (tasks.length : ℚ)))
    ∧ (print_statistics tasks).avg_turnaround
        = two_decimals (binary64
            ((tasks.map fun t => (t.turnaround_time : ℚ)).sum / (tasks.length : ℚ))) := by
  have hlen : (tasks.length : Int) ≤ 100 := by exact_mod_cast hcap
  have h0 := stat_totals_exact tasks 0 0 0 hint (by omega) (by omega) (by omega)
  have hsum : ∀ f : Task → Int,
      (((0 + (tasks.map f).sum : Int)) : ℚ) = (tasks.map fun t => (f t : ℚ)).sum := by
    intro f
    rw [zero_add]
    exact cast_sum_map tasks f
  have h1 : stat_totals tasks (0, 0, 0)
      = ((tasks.map fun t => (t.waiting_time : ℚ)).sum,
         (tasks.map fun t => (t.turnaround_time : ℚ)).sum,
         (tasks.map fun t => (t.response_time : ℚ)).sum) := by
    have hz : ((0 : ℚ), (0 : ℚ), (0 : ℚ)) = (((0 : Int) : ℚ), ((0 : Int) : ℚ), ((0 : Int) : ℚ)) := by
      simp
    rw [hz, h0, hsum, hsum, hsum]
  unfold print_statistics
  rw [h1]
  exact ⟨rfl, rfl, rfl⟩

theorem thirds_registry_metrics :
    (simulate_fcfs thirds_registry).tasks.length = 3
    ∧ (simulate_fcfs thirds_registry).tasks.map
          (fun t => (t.waiting_time, t.response_time, t.turnaround_time))
        = [(0, 0, 1), (1, 1, 3), (3, 3, 4)] := by
  decide

theorem thirds_registry_sums :
    ((simulate_fcfs thirds_registry).tasks.map fun t => (t.waiting_time : ℚ)).sum = 4
    ∧ ((simulate_fcfs thirds_registry).tasks.map fun t => (t.response_time : ℚ)).sum = 4
    ∧ ((simulate_fcfs thirds_registry).tasks.map fun t => (t.turnaround_time : ℚ)).sum = 8
    ∧ (((simulate_fcfs thirds_registry).tasks.length : Nat) : ℚ) = 3 := by
  have h1 : ((simulate_fcfs thirds_registry).tasks.map fun t => t.waiting_time).sum = 4 := by
    decide
  have h2 : ((simulate_fcfs thirds_registry).tasks.map fun t => t.response_time).sum = 4 := by
    decide
  have h3 : ((simulate_fcfs thirds_registry).tasks.map fun t => t.turnaround_time).sum
      = 8 := by
    decide
  have h4 : (simulate_fcfs thirds_registry).tasks.length = 3 := by decide
  refine ⟨?_, ?_, ?_, by rw [h4]; norm_num⟩
  · rw [← cast_sum_map, h1]; norm_num
  · rw [← cast_sum_map, h2]; norm_num
  · rw [← cast_sum_map, h3]; norm_num

/-- C10, as stated, fails on the registry that `simulate_fcfs` leaves for the tasks
`[(1,0,1),(2,0,2),(3,0,1)]`: the waiting, response and turnaround times add up to 4, 4 and 8
over 3 tasks, so the means are `4/3`, `4/3` and `8/3`, and the averages reported are `1.33`,
`1.33` and `2.67`: the `double` quotient printed with two decimals. -/
theorem averages_are_rounded :
    (simulate_fcfs thirds_registry).tasks.map
          (fun t => (t.waiting_time, t.response_time, t.turnaround_time))
        = [(0, 0, 1), (1, 1, 3), (3, 3, 4)]
    ∧ ((simulate_fcfs thirds_registry).tasks.map fun t => (t.waiting_time : ℚ)).sum
          / ((simulate_fcfs thirds_registry).tasks.length : ℚ) = 4 / 3
    ∧ (print_statistics (simulate_fcfs thirds_registry).tasks).avg_waiting = 133 / 100
    ∧ (print_statistics (simulate_fcfs thirds_registry).tasks).avg_response = 133 / 100
    ∧ (print_statistics (simulate_fcfs thirds_registry).tasks).avg_turnaround = 267 / 100
    ∧ (print_statistics (simulate_fcfs thirds_registry).tasks).avg_waiting
        ≠ ((simulate_fcfs thirds_registry).tasks.map fun t => (t.waiting_time : ℚ)).sum
            / ((simulate_fcfs thirds_registry).tasks.length : ℚ) := by
  obtain ⟨s1, s2, s3, s4⟩ := thirds_registry_sums
  obtain ⟨p1, p2, p3⟩ := print_statistics_rounded (simulate_fcfs thirds_registry).tasks
    (by decide) (by decide)
  rw [s1, s4] at p1
  rw [s2, s4] at p2
  rw [s3, s4] at p3
  have e1 : two_decimals (binary64 (4 / 3)) = 133 / 100 := by
    have := two_decimals_binary64_eq (4 / 3) 133 (by norm_num [abs_of_pos])
      (by norm_num [abs_of_pos])
    simpa using this
  have e2 : two_decimals (binary64 (8 / 3)) = 267 / 100 := by
    have := two_decimals_binary64_eq (8 / 3) 267 (by norm_num [abs_of_pos])
      (by norm_num [abs_of_pos])
    simpa using this
  rw [e1] at p1 p2
  rw [e2] at p3
  refine ⟨thirds_registry_metrics.2, by rw [s1, s4], p1, p2, p3, ?_⟩
  rw [p1, s1, s4]
  norm_num

/-- C10, amended: for a registry of `1 ≤ n ≤ 100` tasks whose metrics are `int` values, each
of the three averages that `print_statistics` reports is the arithmetic mean (the sum over
all tasks, each once, divided by `n`) rounded to the nearest `double` and then to two
decimals, so it is within `0.005 + |mean| / 2^53` of the mean; after `simulate_fcfs` on
`[(1,0,5),(2,2,3)]` the average waiting time reported is `1.50`. -/
theorem averages_are_rounded_means (tasks : List Task) (hn : 1 ≤ tasks.length)
    (hcap : tasks.length ≤ 100)
    (hint : ∀ t ∈ tasks, (-2147483648 ≤ t.waiting_time ∧ t.waiting_time ≤ 2147483647)
      ∧ (-2147483648 ≤ t.turnaround_time ∧ t.turnaround_time ≤ 2147483647)
      ∧ (-2147483648 ≤ t.response_time ∧ t.response_time ≤ 2147483647)) :
    ((print_statistics tasks).avg_waiting
        = two_decimals (binary64
            ((tasks.map fun t => (t.waiting_time : ℚ)).sum / (tasks.length : ℚ)))
      ∧ (print_statistics tasks).avg_response
        = two_decimals (binary64
            ((tasks.map fun t => (t.response_time : ℚ)).sum / (tasks.length : ℚ)))
      ∧ (print_statistics tasks).avg_turnaround
        = two_decimals (binary64
            ((tasks.map fun t => (t.turnaround_time : ℚ)).sum / (tasks.length : ℚ))))
    ∧ (|(print_statistics tasks).avg_waiting
          - (tasks.map fun t => (t.waiting_time : ℚ)).sum / (tasks.length : ℚ)|
        ≤ 1 / 200
          + |(tasks.map fun t => (t.waiting_time : ℚ)).sum / (tasks.length : ℚ)| / 2 ^ 53
      ∧ |(print_statistics tasks).avg_response
          - (tasks.map fun t => (t.response_time : ℚ)).sum / (tasks.length : ℚ)|
        ≤ 1 / 200
          + |(tasks.map fun t => (t.response_time : ℚ)).sum / (tasks.length : ℚ)| / 2 ^ 53
      ∧ |(print_statistics tasks).avg_turnaround
          - (tasks.map fun t => (t.turnaround_time : ℚ)).sum / (tasks.length : ℚ)|
        ≤ 1 / 200
          + |(tasks.map fun t => (t.turnaround_time : ℚ)).sum / (tasks.length : ℚ)| / 2 ^ 53)
    ∧ (tasks.length : ℚ) ≠ 0
    ∧ (print_statistics (simulate_fcfs scenario1).tasks).avg_waiting = 3 / 2 := by
  have hq : (tasks.length : ℚ) ≠ 0 := by
    have : tasks.length ≠ 0 := by omega
    exact_mod_cast this
  obtain ⟨p1, p2, p3⟩ := print_statistics_rounded tasks hcap hint
  refine ⟨⟨p1, p2, p3⟩, ⟨?_, ?_, ?_⟩, hq, ?_⟩
  · rw [p1]; exact reported_error _
  · rw [p2]; exact reported_error _
  · rw [p3]; exact reported_error _
  · obtain ⟨q1, _, _⟩ := print_statistics_rounded (simulate_fcfs scenario1).tasks
      (by decide) (by decide)
    have h1 : ((simulate_fcfs scenario1).tasks.map fun t => t.waiting_time).sum = 3 := by
      decide
    have h2 : (simulate_fcfs scenario1).tasks.length = 2 := by decide
    rw [← cast_sum_map, h1, h2] at q1
    have e1 : two_decimals (binary64 (3 / 2)) = 3 / 2 := by
      have := two_decimals_binary64_eq (3 / 2) 150 (by norm_num [abs_of_pos])
        (by norm_num [abs_of_pos])
      rw [this]
      norm_num
    rw [q1]
    norm_num
    exact e1

/-- C10 (amended) at the finished registry of Scenario 1, which has two tasks. -/
theorem averages_are_rounded_means_witness :
    1 ≤ (simulate_fcfs scenario1).tasks.length
    ∧ (simulate_fcfs scenario1).tasks.length ≤ 100
    ∧ (print_statistics (simulate_fcfs scenario1).tasks).avg_waiting
        = two_decimals (binary64
            (((simulate_fcfs scenario1).tasks.map fun t => (t.waiting_time : ℚ)).sum
              / ((simulate_fcfs scenario1).tasks.length : ℚ)))
    ∧ |(print_statistics (simulate_fcfs scenario1).tasks).avg_waiting
          - ((simulate_fcfs scenario1).tasks.map fun t => (t.waiting_time : ℚ)).sum
              / ((simulate_fcfs scenario1).tasks.length : ℚ)|
        ≤ 1 / 200
          + |((simulate_fcfs scenario1).tasks.map fun t => (t.waiting_time : ℚ)).sum
              / ((simulate_fcfs scenario1).tasks.length : ℚ)| / 2 ^ 53 :=
  ⟨by decide, by decide,
    (averages_are_rounded_means (simulate_fcfs scenario1).tasks (by decide) (by decide)
      (by decide)).1.1,
    (averages_are_rounded_means (simulate_fcfs scenario1).tasks (by decide) (by decide)
      (by decide)).2.1.1⟩

end Scheduler
